import Mathlib

/-!
# Quadratic sieve (`qs.cpp`): shallow embedding and verified properties

The program factors an integer `n` with a basic quadratic sieve:
`eratosthenes` lists the primes below `TRIAL_BOUND`, `create_factor_base` keeps
those with `(n|p) = 1`, `sieve` collects values `x² mod n` that factor over the
factor base, `gaussian_elimination` finds a dependency modulo 2 between their
exponent vectors, and `main` takes `gcd(n, y - x)`.

Modelling conventions.

* `int` and `mpz_class` values are natural numbers (`Nat`); the only signed quantity,
  `dif = y - x` in `main`, is an `Int`.  `int` arithmetic is not wrapped: for the
  bounds the program is run with, no `int` expression leaves the 32-bit range.
  Where a property is stated for every bound (`eratosthenes_checked`), an `int` result
  above `INT_MAX` makes the run end with `Fault.int_overflow`.
* `std::vector` is `List`.  A *load* `v[i]` with `i` outside the vector has no value
  the source determines: `rd` makes the run end with `Fault.out_of_range`.  A *store*
  `v[i] = a` with `i` outside the vector cannot change a cell of `v`: it is modelled
  by `List.set`, which leaves the list as it is.  The indices stored to are kept
  separately where a property speaks about them (`SieveState.stores`,
  `strike_indices`).  Such a store is undefined behaviour in the source:
  `eratosthenes` and `main` describe the runs in which it does no harm, and
  `eratosthenes_checked` is `eratosthenes` with every store checked (`wr`), ending
  with `Fault.out_of_range` at the first store outside the vector.
* Loops whose trip count is known on entry are recursions on the number of
  remaining iterations.  The two open-ended loops, `while (n % factor == 0)` in
  `factor_smooth` and `while (not_done)` in `sieve`, take a `fuel` argument and
  end with `Fault.out_of_fuel` when it is used up; a run of the program
  corresponds to all sufficiently large values of `fuel`.
* GMP is outside the repository.  `mpz_sqrt`, `mpz_powm_ui`, `mpz_gcd` are the
  mathematical functions (with the library's division-by-zero fault made explicit);
  `mpz_legendre` is a parameter of the general statements.
-/

namespace QS

/-! ## Constants (qs.cpp, lines 8-10) -/

/-- `const int SMOOTH_BOUND = 500;` -/
def SMOOTH_BOUND : Nat := 500

/-- `const int TRIAL_BOUND = 400;` -/
def TRIAL_BOUND : Nat := 400

/-- `const int SIEVE_CHUNK = 60;` -/
def SIEVE_CHUNK : Nat := 60

/-! ## Faults and vector access -/

/-- The ways a run can end without a result. -/
inductive Fault
  | out_of_fuel
  | out_of_range
  | division_by_zero
  | int_overflow
deriving DecidableEq, Repr

deriving instance DecidableEq for Except

/-- `typedef std::vector<int_vector> matrix;` -/
abbrev Matrix := List (List Nat)

/-- Load `v[i]`. -/
def rd {α : Type} (v : List α) (i : Nat) : Except Fault α :=
  match v.get? i with
  | some a => .ok a
  | none => .error .out_of_range

/-- Load `A[i][j]`. -/
def rd2 (A : Matrix) (i j : Nat) : Except Fault Nat :=
  match rd A i with
  | .ok r => rd r j
  | .error e => .error e

/-! ## `eratosthenes` (lines 39-61) -/

/-- `for(int j = i*i; j<=bound; j+=i) A[j] = 0;` entered with `j`; the first argument
counts the iterations still allowed (`bound + 1` lets the loop run to completion, see
`strike_getD`).  This is the effect of the loop on the cells `0, ..., bound - 1` in a run
in which the store `A[bound]`, one past the last cell, does no harm and `j += i` stays
within `int`; neither is guaranteed by the source.  `strike_checked` is the loop with the
store and the addition checked, and returns this list whenever it returns
(`strike_checked_eq`). -/
def strike (bound i : Nat) : Nat → Nat → List Bool → List Bool
  | 0, _, A => A
  | fuel + 1, j, A =>
    if j ≤ bound then strike bound i fuel (j + i) (A.set j false) else A

/-- The indices `j` at which `strike` stores, in order. -/
def strike_indices (bound i : Nat) : Nat → Nat → List Nat
  | 0, _ => []
  | fuel + 1, j => if j ≤ bound then j :: strike_indices bound i fuel (j + i) else []

/-- `for(int i=2; i<sqrt(bound); i++) if (A[i]) ...` entered with `i`.  The test
`i < sqrt(bound)` compares with the floating-point square root of an `int`, which
holds exactly when `i * i < bound`. -/
def mark (bound : Nat) : Nat → Nat → List Bool → List Bool
  | 0, _, A => A
  | fuel + 1, i, A =>
    if i * i < bound then
      mark bound fuel (i + 1)
        (if A.getD i false then strike bound i (bound + 1) (i * i) A else A)
    else A

/-- `int_vector eratosthenes(int bound)`, in a run in which the stores past the end of `A`
do no harm (see `strike`); `eratosthenes_checked` is the function with every access
checked. -/
def eratosthenes (bound : Nat) : List Nat :=
  let A := ((List.replicate bound true).set 0 false).set 1 false
  let A := mark bound bound 2 A
  (List.range bound).filter (fun i => A.getD i false)

/-! ## `factor_smooth` (lines 65-77) -/

/-- `factors[i] ^= 1;` -/
def xor_at (factors : List Nat) (i : Nat) : List Nat :=
  factors.set i (factors.getD i 0 ^^^ 1)

/-- `while (n % factor == 0) { n /= factor; factors[i] ^= 1; }` for one `factor`.
GMP raises a division by zero for `factor = 0`. -/
def divide_out (i factor : Nat) : Nat → List Nat → Nat → Except Fault (List Nat × Nat)
  | 0, _, _ => .error .out_of_fuel
  | fuel + 1, factors, n =>
    if factor = 0 then .error .division_by_zero
    else if n % factor = 0 then divide_out i factor fuel (xor_at factors i) (n / factor)
    else .ok (factors, n)

/-- `for(size_t i=0; i<factor_base.size(); i++)` of `factor_smooth`, entered at index `i`
with the rest of the factor base. -/
def factor_loop (fuel : Nat) :
    Nat → List Nat → List Nat → Nat → Except Fault (List Nat × Nat)
  | _, [], factors, n => .ok (factors, n)
  | i, factor :: rest, factors, n =>
    match divide_out i factor fuel factors n with
    | .ok (factors', n') => factor_loop fuel (i + 1) rest factors' n'
    | .error e => .error e

/-- `void factor_smooth(int_vector &factors, bool &is_smooth, mpz_class n,
const mpz_vector &factor_base)`: returns the updated `factors` and `is_smooth`. -/
def factor_smooth (fuel : Nat) (factors : List Nat) (n : Nat) (factor_base : List Nat) :
    Except Fault (List Nat × Bool) :=
  match factor_loop fuel 0 factor_base factors n with
  | .ok (factors', n') => .ok (factors', n' == 1)
  | .error e => .error e

/-! ## `create_factor_base` (lines 80-93) -/

/-- The loop over `primes` of `create_factor_base`: stops at the first prime above
`bound`, keeps `p` when `mpz_legendre(n, p) == 1`. -/
def factor_base_loop (legendre : Nat → Nat → Int) (bound n : Nat) : List Nat → List Nat
  | [] => []
  | p :: rest =>
    if p > bound then []
    else if legendre n p = 1 then p :: factor_base_loop legendre bound n rest
    else factor_base_loop legendre bound n rest

/-- `create_factor_base` with the smoothness bound as an argument. -/
def create_factor_base_upto (legendre : Nat → Nat → Int) (bound : Nat) (primes : List Nat)
    (n : Nat) : List Nat :=
  2 :: factor_base_loop legendre bound n primes

/-- `void create_factor_base(mpz_vector &factor_base, const int_vector &primes,
const mpz_class &n)`, called with an empty `factor_base`. -/
def create_factor_base (legendre : Nat → Nat → Int) (primes : List Nat) (n : Nat) : List Nat :=
  create_factor_base_upto legendre SMOOTH_BOUND primes n

/-! ## GMP functions used by `sieve` and `gaussian_elimination` -/

/-- Number of binary digits of `n`, counted upwards from `b`. -/
def bit_length (n : Nat) : Nat → Nat → Nat
  | 0, b => b
  | fuel + 1, b => if n < 2 ^ b then b else bit_length n fuel (b + 1)

/-- Integer square root, one binary digit at a time, from bit `b - 1` down. -/
def sqrt_bits (n : Nat) : Nat → Nat → Nat
  | 0, r => r
  | b + 1, r =>
    if (r + 2 ^ b) * (r + 2 ^ b) ≤ n then sqrt_bits n b (r + 2 ^ b) else sqrt_bits n b r

/-- `sqrt(n)` on `mpz_class` and the root of `mpz_sqrtrem`: the integer square root
(`mpz_sqrt_eq` shows it is `Nat.sqrt`). -/
def mpz_sqrt (n : Nat) : Nat := sqrt_bits n (bit_length n n 0) 0

/-- `mpz_powm_ui(current, x, 2, n)`. -/
def powm2 (x n : Nat) : Except Fault Nat :=
  if n = 0 then .error .division_by_zero else .ok (x ^ 2 % n)

/-! ## `sieve` (lines 103-148) -/

/-- The three output vectors of `sieve` with its local variables; `stores` lists the
indices `smooth_count` at which lines 142-144 stored, latest first. -/
structure SieveState where
  smooth_numbers : List Nat
  smooth_x : List Nat
  smooth_factors : Matrix
  smooth_count : Nat
  not_done : Bool
  stores : List Nat
deriving DecidableEq, Repr

/-- `for(int i=0; i<SIEVE_CHUNK; i++)` of lines 115-124, entered at `i`: the pairs
`(current_x[i], current_chunk[i])`. -/
def build_chunk (sqrt_n j n : Nat) : Nat → Nat → Except Fault (List (Nat × Nat))
  | 0, _ => .ok []
  | c + 1, i =>
    match powm2 (sqrt_n + j + i) n with
    | .error e => .error e
    | .ok current =>
      match build_chunk sqrt_n j n c (i + 1) with
      | .error e => .error e
      | .ok rest => .ok ((sqrt_n + j + i, current) :: rest)

/-- `for(size_t i=0; i<current_chunk.size(); i++)` of lines 129-147 over the remaining
candidates; the `break` leaves the loop with `not_done = false`. -/
def scan_chunk (fuel : Nat) (factor_base : List Nat) :
    List (Nat × Nat) → SieveState → Except Fault SieveState
  | [], st => .ok st
  | (x, current) :: rest, st =>
    match factor_smooth fuel (List.replicate factor_base.length 0) current factor_base with
    | .error e => .error e
    | .ok (factors, is_smooth) =>
      if is_smooth then
        if st.smooth_count > factor_base.length then .ok { st with not_done := false }
        else
          scan_chunk fuel factor_base rest
            { st with
              smooth_x := st.smooth_x.set st.smooth_count x
              smooth_numbers := st.smooth_numbers.set st.smooth_count current
              smooth_factors := st.smooth_factors.set st.smooth_count factors
              smooth_count := st.smooth_count + 1
              stores := st.smooth_count :: st.stores }
      else scan_chunk fuel factor_base rest st

/-- `while (not_done)` of `sieve`; the first `Nat` argument bounds the number of
chunks, `j` is the offset of the next chunk. -/
def sieve_loop (fuel n sqrt_n : Nat) (factor_base : List Nat) :
    Nat → Nat → SieveState → Except Fault SieveState
  | 0, _, _ => .error .out_of_fuel
  | rounds + 1, j, st =>
    if st.not_done then
      match build_chunk sqrt_n j n SIEVE_CHUNK 0 with
      | .error e => .error e
      | .ok chunk =>
        match scan_chunk fuel factor_base chunk st with
        | .error e => .error e
        | .ok st' => sieve_loop fuel n sqrt_n factor_base rounds (j + SIEVE_CHUNK) st'
    else .ok st

/-- `void sieve(mpz_vector &smooth_numbers, mpz_vector &smooth_x, matrix &smooth_factors,
const mpz_class &n, const mpz_vector &factor_base)`. -/
def sieve (fuel : Nat) (smooth_numbers smooth_x : List Nat) (smooth_factors : Matrix)
    (n : Nat) (factor_base : List Nat) : Except Fault SieveState :=
  sieve_loop fuel n (mpz_sqrt n) factor_base fuel 1
    { smooth_numbers, smooth_x, smooth_factors, smooth_count := 0, not_done := true,
      stores := [] }

/-! ## `gaussian_elimination` (lines 164-281) -/

/-- Row `i` of the transposed matrix: `A[i][j] = smooth_factors[j][i]` for `j` upwards. -/
def transpose_row (smooth_factors : Matrix) (i : Nat) : Nat → Nat → Except Fault (List Nat)
  | 0, _ => .ok []
  | c + 1, j =>
    match rd2 smooth_factors j i with
    | .error e => .error e
    | .ok a =>
      match transpose_row smooth_factors i c (j + 1) with
      | .error e => .error e
      | .ok rest => .ok (a :: rest)

/-- The rows `i, i+1, ...` of the transposed matrix (lines 170-178). -/
def transpose_rows (smooth_factors : Matrix) (Aj : Nat) : Nat → Nat → Except Fault Matrix
  | 0, _ => .ok []
  | c + 1, i =>
    match transpose_row smooth_factors i Aj 0 with
    | .error e => .error e
    | .ok row =>
      match transpose_rows smooth_factors Aj c (i + 1) with
      | .error e => .error e
      | .ok rest => .ok (row :: rest)

/-- `A[l].swap(A[k]);` -/
def swap_rows (A : Matrix) (l k : Nat) : Matrix :=
  (A.set l (A.getD k [])).set k (A.getD l [])

/-- `for(int j=0; j<Aj; j++) A[i][j] ^= A[k][j];` -/
def xor_row (A : Matrix) (i k : Nat) : Matrix :=
  A.set i (List.zipWith (· ^^^ ·) (A.getD i []) (A.getD k []))

/-- `for(int l=k; l<Ai; l++) if (A[l][k]==1) { A[l].swap(A[k]); break; }` entered at `l`. -/
def find_pivot (k : Nat) : Nat → Nat → Matrix → Except Fault Matrix
  | 0, _, A => .ok A
  | c + 1, l, A =>
    match rd2 A l k with
    | .error e => .error e
    | .ok a => if a = 1 then .ok (swap_rows A l k) else find_pivot k c (l + 1) A

/-- `for(int i=k+1; i<Ai; i++) if (A[i][k]) ...` entered at `i`. -/
def eliminate_below (k : Nat) : Nat → Nat → Matrix → Except Fault Matrix
  | 0, _, A => .ok A
  | c + 1, i, A =>
    match rd2 A i k with
    | .error e => .error e
    | .ok a => eliminate_below k c (i + 1) (if a ≠ 0 then xor_row A i k else A)

/-- `for(int k=0; k<Ai; k++)` of lines 187-214, entered at `k`. -/
def forward (Ai : Nat) : Nat → Nat → Matrix → Except Fault Matrix
  | 0, _, A => .ok A
  | c + 1, k, A =>
    match rd2 A k k with
    | .error e => .error e
    | .ok d =>
      match (if d = 0 then find_pivot k (Ai - k) k A else .ok A) with
      | .error e => .error e
      | .ok A1 =>
        match eliminate_below k (Ai - (k + 1)) (k + 1) A1 with
        | .error e => .error e
        | .ok A2 => forward Ai c (k + 1) A2

/-- `for(f=0; f<Aj; f++) if (A[f][f] != 1) break;` entered at `f` with `Aj - f`
iterations left; returns the final `f`. -/
def diagonal_scan (A : Matrix) : Nat → Nat → Except Fault Nat
  | 0, f => .ok f
  | c + 1, f =>
    match rd2 A f f with
    | .error e => .error e
    | .ok a => if a ≠ 1 then .ok f else diagonal_scan A c (f + 1)

/-- `for(int i=k-1; i>=0; i--) if (A[i][k]) ...`; the counter is `i + 1`. -/
def clear_above (k : Nat) : Nat → Matrix → Except Fault Matrix
  | 0, A => .ok A
  | i + 1, A =>
    match rd2 A i k with
    | .error e => .error e
    | .ok a => clear_above k i (if a ≠ 0 then xor_row A i k else A)

/-- `for(int k=f-1; k>=0; k--)` of lines 225-235; the counter is `k + 1`. -/
def back_substitution : Nat → Matrix → Except Fault Matrix
  | 0, A => .ok A
  | k + 1, A =>
    match clear_above k k A with
    | .error e => .error e
    | .ok A1 => back_substitution k A1

/-- `for(int i=0; i<f; i++) null_space[i] = A[i][f];` entered at `i`. -/
def fill_null_space (A : Matrix) (f : Nat) : Nat → Nat → List Nat → Except Fault (List Nat)
  | 0, _, ns => .ok ns
  | c + 1, i, ns =>
    match rd2 A i f with
    | .error e => .error e
    | .ok a => fill_null_space A f c (i + 1) (ns.set i a)

/-- `for(size_t i=0; i<null_space.size(); i++) if (null_space[i]) ...` of lines 256-261
over the remaining entries of `null_space`, entered at index `i`. -/
def products (smooth_numbers smooth_x : List Nat) :
    List Nat → Nat → Nat → Nat → Except Fault (Nat × Nat)
  | [], _, x_square, y => .ok (x_square, y)
  | b :: rest, i, x_square, y =>
    if b ≠ 0 then
      match rd smooth_numbers i with
      | .error e => .error e
      | .ok s =>
        match rd smooth_x i with
        | .error e => .error e
        | .ok x => products smooth_numbers smooth_x rest (i + 1) (x_square * s) (y * x)
    else products smooth_numbers smooth_x rest (i + 1) x_square y

/-- The outputs `x`, `y` of `gaussian_elimination` together with its locals: the reduced
matrix `A`, the boundary `f`, `null_space`, `x_square` and the remainder of
`mpz_sqrtrem`. -/
structure GaussOut where
  A : Matrix
  f : Nat
  null_space : List Nat
  x_square : Nat
  x : Nat
  rem : Nat
  y : Nat
deriving DecidableEq, Repr

/-- The values of a `GaussOut` other than the matrix: `f`, `null_space`, `x_square`, `x`,
`rem`, `y`. -/
def GaussOut.summary (g : GaussOut) : Nat × List Nat × Nat × Nat × Nat × Nat :=
  (g.f, g.null_space, g.x_square, g.x, g.rem, g.y)

/-- `void gaussian_elimination(mpz_class &y, const matrix &smooth_factors,
const mpz_vector &smooth_numbers, const mpz_vector &smooth_x, mpz_class &x)`. -/
def gaussian_elimination (smooth_factors : Matrix) (smooth_numbers smooth_x : List Nat) :
    Except Fault GaussOut :=
  match rd smooth_factors 0 with
  | .error e => .error e
  | .ok row0 =>
    let Ai := row0.length
    let Aj := smooth_factors.length
    match transpose_rows smooth_factors Aj Ai 0 with
    | .error e => .error e
    | .ok A0 =>
      match forward Ai Ai 0 A0 with
      | .error e => .error e
      | .ok A1 =>
        match diagonal_scan A1 Aj 0 with
        | .error e => .error e
        | .ok f =>
          match back_substitution f A1 with
          | .error e => .error e
          | .ok A2 =>
            match fill_null_space A2 f f 0 ((List.replicate Aj 0).set f 1) with
            | .error e => .error e
            | .ok null_space =>
              match products smooth_numbers smooth_x null_space 0 1 1 with
              | .error e => .error e
              | .ok (x_square, y) =>
                .ok { A := A2, f := f, null_space := null_space, x_square := x_square,
                      x := mpz_sqrt x_square,
                      rem := x_square - mpz_sqrt x_square ^ 2, y := y }

/-! ## `main` (lines 284-324) -/

/-- What `main` prints: whether the line "Factoring failure" appears, and the two
factors. -/
structure Report where
  failure : Bool
  factor_1 : Nat
  factor_2 : Nat
deriving DecidableEq, Repr

/-- Lines 311-321 of `main`: `dif = y - x`, `factor_1 = gcd(n, dif)`,
`factor_2 = n / factor_1`. -/
def final_division (n : Nat) (y x : Int) : Except Fault Report :=
  let dif := y - x
  let factor_1 := Int.gcd n dif
  if factor_1 = 0 then .error .division_by_zero
  else .ok { failure := factor_1 == 1 || factor_1 == n, factor_1 := factor_1,
             factor_2 := n / factor_1 }

/-- `main` with the number to factor as an argument (the source fixes
`n = 502560280658509` and names `90283` as a second test number). -/
def main (legendre : Nat → Nat → Int) (fuel n : Nat) : Except Fault Report :=
  let primes := eratosthenes TRIAL_BOUND
  let factor_base := create_factor_base legendre primes n
  let smooth_numbers := List.replicate (factor_base.length + 1) 0
  let smooth_x := List.replicate (factor_base.length + 1) 0
  let smooth_factors := List.replicate (factor_base.length + 1) [0]
  match sieve fuel smooth_numbers smooth_x smooth_factors n factor_base with
  | .error e => .error e
  | .ok st =>
    match gaussian_elimination st.smooth_factors st.smooth_numbers st.smooth_x with
    | .error e => .error e
    | .ok g => final_division n g.y g.x

/-- GMP's `mpz_legendre(a, p)` (an alias of `mpz_jacobi`): Euler's criterion for an odd
prime `p`, and the Kronecker value `(a|2)` for `p = 2`. -/
def mpz_legendre (a p : Nat) : Int :=
  if p = 2 then
    if a % 2 = 0 then 0 else if a % 8 = 1 ∨ a % 8 = 7 then 1 else -1
  else
    let r := a ^ ((p - 1) / 2) % p
    if r = 0 then 0 else if r = 1 then 1 else -1

/-! ## What `main` prints in its final step -/

/-- A line printed by lines 315-321 of `main`: the failure message, `Factor 1: v` or
`Factor 2: v`. -/
inductive Line
  | failure
  | factor_1 (v : Nat)
  | factor_2 (v : Nat)
deriving DecidableEq, Repr

/-- Lines 311-321 of `main` as the lines they print, in order: the failure message when
`factor_1 == 1 || factor_1 == n`, then (after the division `n / factor_1`) the two factor
lines. -/
def final_lines (n : Nat) (y x : Int) : Except Fault (List Line) :=
  let dif := y - x
  let factor_1 := Int.gcd n dif
  let message := if factor_1 = 1 ∨ factor_1 = n then [Line.failure] else []
  if factor_1 = 0 then .error .division_by_zero
  else .ok (message ++ [Line.factor_1 factor_1, Line.factor_2 (n / factor_1)])

/-! ## The indices `eratosthenes` stores to -/

/-- The indices the striking loops of `mark` store to, in order. -/
def mark_indices (bound : Nat) : Nat → Nat → List Bool → List Nat
  | 0, _, _ => []
  | fuel + 1, i, A =>
    if i * i < bound then
      (if A.getD i false then strike_indices bound i (bound + 1) (i * i) else []) ++
        mark_indices bound fuel (i + 1)
          (if A.getD i false then strike bound i (bound + 1) (i * i) A else A)
    else []

/-- Every index at which `eratosthenes` stores into the vector `A` of `bound` cells:
`A[0] = 0; A[1] = 0;` and then the stores `A[j] = 0` of the striking loops. -/
def eratosthenes_stores (bound : Nat) : List Nat :=
  0 :: 1 :: mark_indices bound bound 2 (((List.replicate bound true).set 0 false).set 1 false)

/-! ## `eratosthenes` with every access checked -/

/-- The loop `while (not_done)` of `sieve` with the batch size `SIEVE_CHUNK` of lines
113-126 as the argument `chunk` (`sieve_loop` is the case `chunk = SIEVE_CHUNK`, see
`sieve_loop_with_SIEVE_CHUNK`). -/
def sieve_loop_with (chunk fuel n sqrt_n : Nat) (factor_base : List Nat) :
    Nat → Nat → SieveState → Except Fault SieveState
  | 0, _, _ => .error .out_of_fuel
  | rounds + 1, j, st =>
    if st.not_done then
      match build_chunk sqrt_n j n chunk 0 with
      | .error e => .error e
      | .ok current_chunk =>
        match scan_chunk fuel factor_base current_chunk st with
        | .error e => .error e
        | .ok st' => sieve_loop_with chunk fuel n sqrt_n factor_base rounds (j + chunk) st'
    else .ok st

/-- The function `sieve` with the batch size as the argument `chunk`. -/
def sieve_with (chunk fuel : Nat) (smooth_numbers smooth_x : List Nat) (smooth_factors : Matrix)
    (n : Nat) (factor_base : List Nat) : Except Fault SieveState :=
  sieve_loop_with chunk fuel n (mpz_sqrt n) factor_base fuel 1
    { smooth_numbers, smooth_x, smooth_factors, smooth_count := 0, not_done := true,
      stores := [] }

/-- The scan in the words of the specification: the candidates `x, x + 1, x + 2, ...` are
examined one at a time, in increasing order, and each smooth one is recorded as the
relation `(x, x² mod n, parity vector)`, until `count` relations are recorded.  The first
argument bounds the number of candidates examined. -/
def plain_scan (fuel n : Nat) (factor_base : List Nat) :
    Nat → Nat → Nat → Except Fault (List (Nat × Nat × List Nat))
  | _, 0, _ => .ok []
  | 0, _ + 1, _ => .error .out_of_fuel
  | steps + 1, count + 1, x =>
    match factor_smooth fuel (List.replicate factor_base.length 0) (x ^ 2 % n) factor_base with
    | .error e => .error e
    | .ok (factors, is_smooth) =>
      if is_smooth then
        match plain_scan fuel n factor_base steps count (x + 1) with
        | .error e => .error e
        | .ok relations => .ok ((x, x ^ 2 % n, factors) :: relations)
      else plain_scan fuel n factor_base steps (count + 1) (x + 1)

/-! ## Predicates used in the proofs -/

/-- The state of the marking vector once all `d < I` have been handled: the cells still
set are the `m ≥ 2` without a proper divisor `d` in `[2, I)`. -/
def SieveInv (bound I : Nat) (A : List Bool) : Prop :=
  A.length = bound ∧
    ∀ m, m < bound → (A.getD m false = true ↔ 2 ≤ m ∧ ∀ d, 2 ≤ d → d < I → d ∣ m → d = m)

/-- Slot `i` of the output vectors of `sieve` holds a sound relation: `smooth_x[i]` is
`sqrt_n + j` for an offset `j ≥ 1`, `smooth_numbers[i]` is its square modulo `n`, and the
trial division of `smooth_numbers[i]` by the factor base, started on a zero vector, ends
with the parity vector `smooth_factors[i]` and remainder exactly `1`. -/
def SoundRelation (fuel n sqrt_n : Nat) (factor_base : List Nat) (st : SieveState)
    (i : Nat) : Prop :=
  ∃ j x s fs, 1 ≤ j ∧ x = sqrt_n + j ∧ s = x ^ 2 % n ∧
    st.smooth_x[i]? = some x ∧ st.smooth_numbers[i]? = some s ∧
    st.smooth_factors[i]? = some fs ∧
    factor_loop fuel 0 factor_base (List.replicate factor_base.length 0) s = .ok (fs, 1)

/-- Loop invariant of `sieve`, for output vectors of lengths `Ln`, `Lx`, `Lf`. -/
def SieveRecords (fuel n sqrt_n : Nat) (factor_base : List Nat) (Ln Lx Lf : Nat)
    (st : SieveState) : Prop :=
  st.smooth_numbers.length = Ln ∧ st.smooth_x.length = Lx ∧ st.smooth_factors.length = Lf ∧
    st.smooth_count ≤ factor_base.length + 1 ∧
    st.stores = (List.range st.smooth_count).reverse ∧
    (st.not_done = false → st.smooth_count = factor_base.length + 1) ∧
    ∀ i, i < st.smooth_count → SoundRelation fuel n sqrt_n factor_base st i

/-- Row `r` of a matrix (empty outside it). -/
def rowAt (A : Matrix) (r : Nat) : List Nat := A.getD r []

/-- Entry `A[r][c]` (`0` outside the matrix). -/
def entry (A : Matrix) (r c : Nat) : Nat := (rowAt A r).getD c 0

/-- The matrix has `Ai` rows of `Aj` entries each. -/
def Rect (Ai Aj : Nat) (A : Matrix) : Prop :=
  A.length = Ai ∧ ∀ r, r < Ai → (rowAt A r).length = Aj

/-- All entries are `0` or `1`. -/
def Bits (A : Matrix) : Prop := ∀ r c, entry A r c < 2

/-- Sum modulo 2 of the entries of `row` at the positions where `v` is not `0`. -/
def dot : List Nat → List Nat → Nat
  | a :: row, b :: v => (if b = 0 then 0 else a) ^^^ dot row v
  | _, _ => 0

/-- Every row of `A` has sum `0` over the positions selected by `v`. -/
def Annihilates (v : List Nat) (A : Matrix) : Prop := ∀ r, dot (rowAt A r) v = 0

/-- Columns `0, ..., kk - 1` are zero below the diagonal. -/
def LowerZero (A : Matrix) (kk : Nat) : Prop := ∀ c, c < kk → ∀ r, c < r → entry A r c = 0
/-- The product of the entries of `l` at the positions where `ns` is not `0`. -/
def selected_prod (ns l : List Nat) : Nat :=
  (((List.zip ns l).filter (fun p => p.1 ≠ 0)).map (fun p => p.2)).prod

/-- Column of the first non-zero entry of a row, if it has one. -/
def pivot : List Nat → Option Nat
  | [] => none
  | a :: row => if a ≠ 0 then some 0 else (pivot row).map (· + 1)

/-- Fully reduced row-echelon form: the pivots of the non-zero rows move strictly to the
right from one row to the next, each pivot is the only non-zero entry of its column, and
all zero rows are at the bottom. -/
def ReducedEchelon (A : Matrix) : Prop :=
  (∀ i j p q, i < j → pivot (rowAt A i) = some p → pivot (rowAt A j) = some q → p < q) ∧
    (∀ i p, pivot (rowAt A i) = some p → ∀ r, r ≠ i → entry A r p = 0) ∧
    (∀ i j, i < j → j < A.length → pivot (rowAt A i) = none → pivot (rowAt A j) = none)

/-- The candidates `s, s + 1, ..., s + N - 1` of the sieve with their squares modulo `n`. -/
def candidates (n s N : Nat) : List (Nat × Nat) :=
  (List.range' s N).map (fun x => (x, x ^ 2 % n))

/-- Whether `factor_smooth` reports the candidate `x` as smooth. -/
def accepts (fuel n : Nat) (factor_base : List Nat) (x : Nat) : Bool :=
  match factor_smooth fuel (List.replicate factor_base.length 0) (x ^ 2 % n) factor_base with
  | .ok (_, is_smooth) => is_smooth
  | .error _ => false

/-- The parity vector `factor_smooth` computes for the candidate `x`. -/
def parities (fuel n : Nat) (factor_base : List Nat) (x : Nat) : List Nat :=
  match factor_smooth fuel (List.replicate factor_base.length 0) (x ^ 2 % n) factor_base with
  | .ok (factors, _) => factors
  | .error _ => []

/-- The relation the sieve records for the candidate `x`. -/
def relation (fuel n : Nat) (factor_base : List Nat) (x : Nat) : Nat × Nat × List Nat :=
  (x, x ^ 2 % n, parities fuel n factor_base x)

/-! ## Two recorded runs of `main` -/

/-- The factor base `main` builds for `n = 309`. -/
def factor_base_309 : List Nat :=
  [2, 5, 7, 11, 13, 19, 47, 53, 61, 71, 79, 89, 97, 101, 113, 139, 163, 173, 191, 197, 223,
  227, 229, 233, 251, 257, 263, 281, 293, 313, 337, 353, 367, 373, 383, 389]

/-- The state in which `sieve` returns for `n = 309`. -/
def relations_309 : SieveState :=
  { smooth_numbers :=
      [52, 91, 175, 220, 7, 223, 97, 229, 133, 208, 55, 304, 28, 28, 244, 13, 79, 208, 163,
      265, 97, 76, 223, 61, 220, 235, 91, 19, 196, 247, 121, 64, 139, 25, 112, 4, 1]
    smooth_x :=
      [19, 20, 22, 23, 25, 29, 32, 34, 37, 38, 40, 43, 50, 53, 55, 61, 64, 65, 67, 70, 71, 73,
      74, 79, 80, 82, 83, 88, 89, 91, 92, 95, 97, 98, 100, 101, 104]
    smooth_factors :=
      [[0, 0, 0, 0, 1, 0, 0, 0, 0, 0, 0, 0, 0, 0, 0, 0, 0, 0, 0, 0, 0, 0, 0, 0, 0, 0, 0, 0, 0,
       0, 0, 0, 0, 0, 0, 0],
       [0, 0, 1, 0, 1, 0, 0, 0, 0, 0, 0, 0, 0, 0, 0, 0, 0, 0, 0, 0, 0, 0, 0, 0, 0, 0, 0, 0, 0,
       0, 0, 0, 0, 0, 0, 0],
       [0, 0, 1, 0, 0, 0, 0, 0, 0, 0, 0, 0, 0, 0, 0, 0, 0, 0, 0, 0, 0, 0, 0, 0, 0, 0, 0, 0, 0,
       0, 0, 0, 0, 0, 0, 0],
       [0, 1, 0, 1, 0, 0, 0, 0, 0, 0, 0, 0, 0, 0, 0, 0, 0, 0, 0, 0, 0, 0, 0, 0, 0, 0, 0, 0, 0,
       0, 0, 0, 0, 0, 0, 0],
       [0, 0, 1, 0, 0, 0, 0, 0, 0, 0, 0, 0, 0, 0, 0, 0, 0, 0, 0, 0, 0, 0, 0, 0, 0, 0, 0, 0, 0,
       0, 0, 0, 0, 0, 0, 0],
       [0, 0, 0, 0, 0, 0, 0, 0, 0, 0, 0, 0, 0, 0, 0, 0, 0, 0, 0, 0, 1, 0, 0, 0, 0, 0, 0, 0, 0,
       0, 0, 0, 0, 0, 0, 0],
       [0, 0, 0, 0, 0, 0, 0, 0, 0, 0, 0, 0, 1, 0, 0, 0, 0, 0, 0, 0, 0, 0, 0, 0, 0, 0, 0, 0, 0,
       0, 0, 0, 0, 0, 0, 0],
       [0, 0, 0, 0, 0, 0, 0, 0, 0, 0, 0, 0, 0, 0, 0, 0, 0, 0, 0, 0, 0, 0, 1, 0, 0, 0, 0, 0, 0,
       0, 0, 0, 0, 0, 0, 0],
       [0, 0, 1, 0, 0, 1, 0, 0, 0, 0, 0, 0, 0, 0, 0, 0, 0, 0, 0, 0, 0, 0, 0, 0, 0, 0, 0, 0, 0,
       0, 0, 0, 0, 0, 0, 0],
       [0, 0, 0, 0, 1, 0, 0, 0, 0, 0, 0, 0, 0, 0, 0, 0, 0, 0, 0, 0, 0, 0, 0, 0, 0, 0, 0, 0, 0,
       0, 0, 0, 0, 0, 0, 0],
       [0, 1, 0, 1, 0, 0, 0, 0, 0, 0, 0, 0, 0, 0, 0, 0, 0, 0, 0, 0, 0, 0, 0, 0, 0, 0, 0, 0, 0,
       0, 0, 0, 0, 0, 0, 0],
       [0, 0, 0, 0, 0, 1, 0, 0, 0, 0, 0, 0, 0, 0, 0, 0, 0, 0, 0, 0, 0, 0, 0, 0, 0, 0, 0, 0, 0,
       0, 0, 0, 0, 0, 0, 0],
       [0, 0, 1, 0, 0, 0, 0, 0, 0, 0, 0, 0, 0, 0, 0, 0, 0, 0, 0, 0, 0, 0, 0, 0, 0, 0, 0, 0, 0,
       0, 0, 0, 0, 0, 0, 0],
       [0, 0, 1, 0, 0, 0, 0, 0, 0, 0, 0, 0, 0, 0, 0, 0, 0, 0, 0, 0, 0, 0, 0, 0, 0, 0, 0, 0, 0,
       0, 0, 0, 0, 0, 0, 0],
       [0, 0, 0, 0, 0, 0, 0, 0, 1, 0, 0, 0, 0, 0, 0, 0, 0, 0, 0, 0, 0, 0, 0, 0, 0, 0, 0, 0, 0,
       0, 0, 0, 0, 0, 0, 0],
       [0, 0, 0, 0, 1, 0, 0, 0, 0, 0, 0, 0, 0, 0, 0, 0, 0, 0, 0, 0, 0, 0, 0, 0, 0, 0, 0, 0, 0,
       0, 0, 0, 0, 0, 0, 0],
       [0, 0, 0, 0, 0, 0, 0, 0, 0, 0, 1, 0, 0, 0, 0, 0, 0, 0, 0, 0, 0, 0, 0, 0, 0, 0, 0, 0, 0,
       0, 0, 0, 0, 0, 0, 0],
       [0, 0, 0, 0, 1, 0, 0, 0, 0, 0, 0, 0, 0, 0, 0, 0, 0, 0, 0, 0, 0, 0, 0, 0, 0, 0, 0, 0, 0,
       0, 0, 0, 0, 0, 0, 0],
       [0, 0, 0, 0, 0, 0, 0, 0, 0, 0, 0, 0, 0, 0, 0, 0, 1, 0, 0, 0, 0, 0, 0, 0, 0, 0, 0, 0, 0,
       0, 0, 0, 0, 0, 0, 0],
       [0, 1, 0, 0, 0, 0, 0, 1, 0, 0, 0, 0, 0, 0, 0, 0, 0, 0, 0, 0, 0, 0, 0, 0, 0, 0, 0, 0, 0,
       0, 0, 0, 0, 0, 0, 0],
       [0, 0, 0, 0, 0, 0, 0, 0, 0, 0, 0, 0, 1, 0, 0, 0, 0, 0, 0, 0, 0, 0, 0, 0, 0, 0, 0, 0, 0,
       0, 0, 0, 0, 0, 0, 0],
       [0, 0, 0, 0, 0, 1, 0, 0, 0, 0, 0, 0, 0, 0, 0, 0, 0, 0, 0, 0, 0, 0, 0, 0, 0, 0, 0, 0, 0,
       0, 0, 0, 0, 0, 0, 0],
       [0, 0, 0, 0, 0, 0, 0, 0, 0, 0, 0, 0, 0, 0, 0, 0, 0, 0, 0, 0, 1, 0, 0, 0, 0, 0, 0, 0, 0,
       0, 0, 0, 0, 0, 0, 0],
       [0, 0, 0, 0, 0, 0, 0, 0, 1, 0, 0, 0, 0, 0, 0, 0, 0, 0, 0, 0, 0, 0, 0, 0, 0, 0, 0, 0, 0,
       0, 0, 0, 0, 0, 0, 0],
       [0, 1, 0, 1, 0, 0, 0, 0, 0, 0, 0, 0, 0, 0, 0, 0, 0, 0, 0, 0, 0, 0, 0, 0, 0, 0, 0, 0, 0,
       0, 0, 0, 0, 0, 0, 0],
       [0, 1, 0, 0, 0, 0, 1, 0, 0, 0, 0, 0, 0, 0, 0, 0, 0, 0, 0, 0, 0, 0, 0, 0, 0, 0, 0, 0, 0,
       0, 0, 0, 0, 0, 0, 0],
       [0, 0, 1, 0, 1, 0, 0, 0, 0, 0, 0, 0, 0, 0, 0, 0, 0, 0, 0, 0, 0, 0, 0, 0, 0, 0, 0, 0, 0,
       0, 0, 0, 0, 0, 0, 0],
       [0, 0, 0, 0, 0, 1, 0, 0, 0, 0, 0, 0, 0, 0, 0, 0, 0, 0, 0, 0, 0, 0, 0, 0, 0, 0, 0, 0, 0,
       0, 0, 0, 0, 0, 0, 0],
       [0, 0, 0, 0, 0, 0, 0, 0, 0, 0, 0, 0, 0, 0, 0, 0, 0, 0, 0, 0, 0, 0, 0, 0, 0, 0, 0, 0, 0,
       0, 0, 0, 0, 0, 0, 0],
       [0, 0, 0, 0, 1, 1, 0, 0, 0, 0, 0, 0, 0, 0, 0, 0, 0, 0, 0, 0, 0, 0, 0, 0, 0, 0, 0, 0, 0,
       0, 0, 0, 0, 0, 0, 0],
       [0, 0, 0, 0, 0, 0, 0, 0, 0, 0, 0, 0, 0, 0, 0, 0, 0, 0, 0, 0, 0, 0, 0, 0, 0, 0, 0, 0, 0,
       0, 0, 0, 0, 0, 0, 0],
       [0, 0, 0, 0, 0, 0, 0, 0, 0, 0, 0, 0, 0, 0, 0, 0, 0, 0, 0, 0, 0, 0, 0, 0, 0, 0, 0, 0, 0,
       0, 0, 0, 0, 0, 0, 0],
       [0, 0, 0, 0, 0, 0, 0, 0, 0, 0, 0, 0, 0, 0, 0, 1, 0, 0, 0, 0, 0, 0, 0, 0, 0, 0, 0, 0, 0,
       0, 0, 0, 0, 0, 0, 0],
       [0, 0, 0, 0, 0, 0, 0, 0, 0, 0, 0, 0, 0, 0, 0, 0, 0, 0, 0, 0, 0, 0, 0, 0, 0, 0, 0, 0, 0,
       0, 0, 0, 0, 0, 0, 0],
       [0, 0, 1, 0, 0, 0, 0, 0, 0, 0, 0, 0, 0, 0, 0, 0, 0, 0, 0, 0, 0, 0, 0, 0, 0, 0, 0, 0, 0,
       0, 0, 0, 0, 0, 0, 0],
       [0, 0, 0, 0, 0, 0, 0, 0, 0, 0, 0, 0, 0, 0, 0, 0, 0, 0, 0, 0, 0, 0, 0, 0, 0, 0, 0, 0, 0,
       0, 0, 0, 0, 0, 0, 0],
       [0, 0, 0, 0, 0, 0, 0, 0, 0, 0, 0, 0, 0, 0, 0, 0, 0, 0, 0, 0, 0, 0, 0, 0, 0, 0, 0, 0, 0,
       0, 0, 0, 0, 0, 0, 0]]
    smooth_count := 37
    not_done := false
    stores :=
      [36, 35, 34, 33, 32, 31, 30, 29, 28, 27, 26, 25, 24, 23, 22, 21, 20, 19, 18, 17, 16, 15,
      14, 13, 12, 11, 10, 9, 8, 7, 6, 5, 4, 3, 2, 1, 0] }

/-- The boundary `f` and the null-space vector `gaussian_elimination` computes from
`relations_309`. -/
def null_space_309 : Nat × List Nat :=
  (2,
    [1, 1, 1, 0, 0, 0, 0, 0, 0, 0, 0, 0, 0, 0, 0, 0, 0, 0, 0, 0, 0, 0, 0, 0, 0, 0, 0, 0, 0, 0,
    0, 0, 0, 0, 0, 0, 0])

/-- The factor base `main` builds for `n = 90283`. -/
def factor_base_90283 : List Nat :=
  [2, 3, 7, 17, 23, 29, 37, 41, 53, 61, 73, 79, 97, 103, 109, 113, 127, 151, 163, 173, 179,
  181, 229, 233, 239, 251, 263, 271, 277, 283, 293, 307, 313, 349, 367, 373, 379, 383, 389]

/-- The state in which `sieve` returns for `n = 90283`. -/
def relations_90283 : SieveState :=
  { smooth_numbers :=
      [318, 921, 1526, 2133, 5198, 5817, 6438, 7061, 7686, 8313, 8942, 10206, 10841, 16646,
      17301, 17958, 19278, 19941, 21942, 23961, 24638, 25317, 30821, 31518, 32918, 35742,
      37881, 43673, 45141, 45878, 46617, 49593, 56406, 57942, 60261, 67326, 68121, 70518,
      72933, 75366]
    smooth_x :=
      [301, 302, 303, 304, 309, 310, 311, 312, 313, 314, 315, 317, 318, 327, 328, 329, 331,
      332, 335, 338, 339, 340, 348, 349, 351, 355, 358, 366, 368, 369, 370, 374, 383, 385, 388,
      397, 398, 401, 404, 407]
    smooth_factors :=
      [[1, 1, 0, 0, 0, 0, 0, 0, 1, 0, 0, 0, 0, 0, 0, 0, 0, 0, 0, 0, 0, 0, 0, 0, 0, 0, 0, 0, 0,
       0, 0, 0, 0, 0, 0, 0, 0, 0, 0],
       [0, 1, 0, 0, 0, 0, 0, 0, 0, 0, 0, 0, 0, 0, 0, 0, 0, 0, 0, 0, 0, 0, 0, 0, 0, 0, 0, 0, 0,
       0, 0, 1, 0, 0, 0, 0, 0, 0, 0],
       [1, 0, 1, 0, 0, 0, 0, 0, 0, 0, 0, 0, 0, 0, 1, 0, 0, 0, 0, 0, 0, 0, 0, 0, 0, 0, 0, 0, 0,
       0, 0, 0, 0, 0, 0, 0, 0, 0, 0],
       [0, 1, 0, 0, 0, 0, 0, 0, 0, 0, 0, 1, 0, 0, 0, 0, 0, 0, 0, 0, 0, 0, 0, 0, 0, 0, 0, 0, 0,
       0, 0, 0, 0, 0, 0, 0, 0, 0, 0],
       [1, 0, 0, 0, 1, 0, 0, 0, 0, 0, 0, 0, 0, 0, 0, 1, 0, 0, 0, 0, 0, 0, 0, 0, 0, 0, 0, 0, 0,
       0, 0, 0, 0, 0, 0, 0, 0, 0, 0],
       [0, 1, 1, 0, 0, 0, 0, 0, 0, 0, 0, 0, 0, 0, 0, 0, 0, 0, 0, 0, 0, 0, 0, 0, 0, 0, 0, 0, 1,
       0, 0, 0, 0, 0, 0, 0, 0, 0, 0],
       [1, 1, 0, 0, 0, 1, 1, 0, 0, 0, 0, 0, 0, 0, 0, 0, 0, 0, 0, 0, 0, 0, 0, 0, 0, 0, 0, 0, 0,
       0, 0, 0, 0, 0, 0, 0, 0, 0, 0],
       [0, 0, 0, 0, 1, 0, 0, 0, 0, 0, 0, 0, 0, 0, 0, 0, 0, 0, 0, 0, 0, 0, 0, 0, 0, 0, 0, 0, 0,
       0, 0, 1, 0, 0, 0, 0, 0, 0, 0],
       [1, 0, 1, 0, 0, 0, 0, 0, 0, 1, 0, 0, 0, 0, 0, 0, 0, 0, 0, 0, 0, 0, 0, 0, 0, 0, 0, 0, 0,
       0, 0, 0, 0, 0, 0, 0, 0, 0, 0],
       [0, 1, 0, 1, 0, 0, 0, 0, 0, 0, 0, 0, 0, 0, 0, 0, 0, 0, 1, 0, 0, 0, 0, 0, 0, 0, 0, 0, 0,
       0, 0, 0, 0, 0, 0, 0, 0, 0, 0],
       [1, 0, 0, 1, 0, 0, 0, 0, 0, 0, 0, 0, 0, 0, 0, 0, 0, 0, 0, 0, 0, 0, 0, 0, 0, 0, 1, 0, 0,
       0, 0, 0, 0, 0, 0, 0, 0, 0, 0],
       [1, 0, 1, 0, 0, 0, 0, 0, 0, 0, 0, 0, 0, 0, 0, 0, 0, 0, 0, 0, 0, 0, 0, 0, 0, 0, 0, 0, 0,
       0, 0, 0, 0, 0, 0, 0, 0, 0, 0],
       [0, 0, 0, 0, 0, 0, 1, 0, 0, 0, 0, 0, 0, 0, 0, 0, 0, 0, 0, 0, 0, 0, 0, 0, 0, 0, 0, 0, 0,
       0, 1, 0, 0, 0, 0, 0, 0, 0, 0],
       [1, 0, 1, 0, 0, 1, 0, 1, 0, 0, 0, 0, 0, 0, 0, 0, 0, 0, 0, 0, 0, 0, 0, 0, 0, 0, 0, 0, 0,
       0, 0, 0, 0, 0, 0, 0, 0, 0, 0],
       [0, 1, 0, 0, 0, 0, 0, 0, 0, 0, 1, 1, 0, 0, 0, 0, 0, 0, 0, 0, 0, 0, 0, 0, 0, 0, 0, 0, 0,
       0, 0, 0, 0, 0, 0, 0, 0, 0, 0],
       [1, 1, 0, 0, 0, 0, 0, 1, 0, 0, 1, 0, 0, 0, 0, 0, 0, 0, 0, 0, 0, 0, 0, 0, 0, 0, 0, 0, 0,
       0, 0, 0, 0, 0, 0, 0, 0, 0, 0],
       [1, 0, 1, 1, 0, 0, 0, 0, 0, 0, 0, 0, 0, 0, 0, 0, 0, 0, 0, 0, 0, 0, 0, 0, 0, 0, 0, 0, 0,
       0, 0, 0, 0, 0, 0, 0, 0, 0, 0],
       [0, 1, 0, 0, 1, 0, 0, 0, 0, 0, 0, 0, 0, 0, 0, 0, 0, 0, 0, 0, 0, 0, 0, 0, 0, 0, 0, 0, 0,
       0, 0, 0, 0, 0, 0, 0, 0, 0, 0],
       [1, 0, 0, 0, 1, 0, 0, 0, 1, 0, 0, 0, 0, 0, 0, 0, 0, 0, 0, 0, 0, 0, 0, 0, 0, 0, 0, 0, 0,
       0, 0, 0, 0, 0, 0, 0, 0, 0, 0],
       [0, 1, 0, 0, 0, 0, 0, 0, 0, 0, 0, 0, 0, 0, 0, 0, 0, 0, 1, 0, 0, 0, 0, 0, 0, 0, 0, 0, 0,
       0, 0, 0, 0, 0, 0, 0, 0, 0, 0],
       [1, 0, 0, 0, 0, 0, 0, 0, 0, 0, 0, 0, 1, 0, 0, 0, 1, 0, 0, 0, 0, 0, 0, 0, 0, 0, 0, 0, 0,
       0, 0, 0, 0, 0, 0, 0, 0, 0, 0],
       [0, 0, 0, 0, 0, 1, 0, 0, 0, 0, 0, 0, 1, 0, 0, 0, 0, 0, 0, 0, 0, 0, 0, 0, 0, 0, 0, 0, 0,
       0, 0, 0, 0, 0, 0, 0, 0, 0, 0],
       [0, 0, 0, 1, 0, 0, 1, 0, 0, 0, 0, 0, 0, 0, 0, 0, 0, 0, 0, 0, 0, 0, 0, 0, 0, 0, 0, 0, 0,
       0, 0, 0, 0, 0, 0, 0, 0, 0, 0],
       [1, 0, 0, 1, 0, 0, 0, 0, 0, 0, 0, 0, 0, 1, 0, 0, 0, 0, 0, 0, 0, 0, 0, 0, 0, 0, 0, 0, 0,
       0, 0, 0, 0, 0, 0, 0, 0, 0, 0],
       [1, 0, 0, 0, 0, 0, 0, 0, 0, 0, 0, 0, 0, 0, 1, 0, 0, 1, 0, 0, 0, 0, 0, 0, 0, 0, 0, 0, 0,
       0, 0, 0, 0, 0, 0, 0, 0, 0, 0],
       [1, 1, 1, 0, 1, 0, 1, 0, 0, 0, 0, 0, 0, 0, 0, 0, 0, 0, 0, 0, 0, 0, 0, 0, 0, 0, 0, 0, 0,
       0, 0, 0, 0, 0, 0, 0, 0, 0, 0],
       [0, 1, 0, 0, 1, 0, 0, 0, 0, 1, 0, 0, 0, 0, 0, 0, 0, 0, 0, 0, 0, 0, 0, 0, 0, 0, 0, 0, 0,
       0, 0, 0, 0, 0, 0, 0, 0, 0, 0],
       [0, 0, 1, 1, 0, 0, 0, 0, 0, 0, 0, 0, 0, 0, 0, 0, 0, 0, 0, 0, 0, 0, 0, 0, 0, 0, 0, 0, 0,
       0, 0, 0, 0, 0, 1, 0, 0, 0, 0],
       [0, 1, 0, 0, 0, 0, 0, 1, 0, 0, 0, 0, 0, 0, 0, 0, 0, 0, 0, 0, 0, 0, 0, 0, 0, 0, 0, 0, 0,
       0, 0, 0, 0, 0, 1, 0, 0, 0, 0],
       [1, 0, 1, 0, 0, 1, 0, 0, 0, 0, 0, 0, 0, 0, 0, 1, 0, 0, 0, 0, 0, 0, 0, 0, 0, 0, 0, 0, 0,
       0, 0, 0, 0, 0, 0, 0, 0, 0, 0],
       [0, 1, 0, 0, 0, 0, 0, 1, 0, 0, 0, 0, 0, 0, 0, 0, 0, 0, 0, 0, 0, 0, 0, 0, 0, 0, 0, 0, 0,
       0, 0, 0, 0, 0, 0, 0, 1, 0, 0],
       [0, 1, 0, 0, 0, 0, 0, 0, 0, 1, 0, 0, 0, 0, 0, 0, 0, 0, 0, 0, 0, 0, 0, 0, 0, 0, 0, 1, 0,
       0, 0, 0, 0, 0, 0, 0, 0, 0, 0],
       [1, 1, 1, 1, 0, 0, 0, 0, 0, 0, 0, 1, 0, 0, 0, 0, 0, 0, 0, 0, 0, 0, 0, 0, 0, 0, 0, 0, 0,
       0, 0, 0, 0, 0, 0, 0, 0, 0, 0],
       [1, 1, 0, 0, 0, 1, 1, 0, 0, 0, 0, 0, 0, 0, 0, 0, 0, 0, 0, 0, 0, 0, 0, 0, 0, 0, 0, 0, 0,
       0, 0, 0, 0, 0, 0, 0, 0, 0, 0],
       [0, 1, 0, 0, 0, 0, 0, 0, 1, 0, 0, 0, 0, 0, 0, 0, 0, 0, 0, 0, 0, 0, 0, 0, 0, 0, 0, 0, 0,
       0, 0, 0, 0, 0, 0, 0, 1, 0, 0],
       [1, 1, 0, 0, 0, 0, 0, 0, 0, 0, 0, 0, 0, 0, 0, 0, 0, 0, 0, 0, 0, 0, 1, 0, 0, 0, 0, 0, 0,
       0, 0, 0, 0, 0, 0, 0, 0, 0, 0],
       [0, 0, 0, 0, 0, 0, 0, 0, 0, 0, 0, 0, 0, 0, 0, 0, 0, 0, 0, 0, 0, 0, 0, 0, 0, 0, 0, 0, 0,
       0, 0, 0, 0, 0, 0, 0, 0, 0, 0],
       [1, 1, 1, 0, 1, 0, 0, 0, 0, 0, 1, 0, 0, 0, 0, 0, 0, 0, 0, 0, 0, 0, 0, 0, 0, 0, 0, 0, 0,
       0, 0, 0, 0, 0, 0, 0, 0, 0, 0],
       [0, 1, 1, 0, 1, 0, 0, 0, 0, 0, 0, 0, 0, 0, 0, 0, 0, 1, 0, 0, 0, 0, 0, 0, 0, 0, 0, 0, 0,
       0, 0, 0, 0, 0, 0, 0, 0, 0, 0],
       [1, 0, 0, 0, 0, 0, 0, 0, 1, 0, 0, 1, 0, 0, 0, 0, 0, 0, 0, 0, 0, 0, 0, 0, 0, 0, 0, 0, 0,
       0, 0, 0, 0, 0, 0, 0, 0, 0, 0]]
    smooth_count := 40
    not_done := false
    stores :=
      [39, 38, 37, 36, 35, 34, 33, 32, 31, 30, 29, 28, 27, 26, 25, 24, 23, 22, 21, 20, 19, 18,
      17, 16, 15, 14, 13, 12, 11, 10, 9, 8, 7, 6, 5, 4, 3, 2, 1, 0] }

/-- The boundary `f` and the null-space vector `gaussian_elimination` computes from
`relations_90283`. -/
def null_space_90283 : Nat × List Nat :=
  (17,
    [0, 1, 0, 0, 0, 0, 0, 1, 0, 0, 0, 0, 0, 0, 0, 0, 0, 1, 0, 0, 0, 0, 0, 0, 0, 0, 0, 0, 0, 0,
    0, 0, 0, 0, 0, 0, 0, 0, 0, 0])

/-! ## The final division (C4, C5) -/

theorem final_division_ok (n : Nat) (y x : Int) (hn : 0 < n) :
    final_division n y x =
      .ok { failure := Int.gcd n (y - x) == 1 || Int.gcd n (y - x) == n,
            factor_1 := Int.gcd n (y - x), factor_2 := n / Int.gcd n (y - x) } := by
  have h0 : Int.gcd (n : Int) (y - x) ≠ 0 := by
    intro h
    rw [Int.gcd_eq_zero_iff] at h
    omega
  simp [final_division, h0]

theorem gcd_ne_one_of_sq (n : Nat) (x y : Int) (hsq : x ^ 2 ≡ y ^ 2 [ZMOD n])
    (h2 : ¬ x ≡ -y [ZMOD n]) : Int.gcd n (y - x) ≠ 1 := by
  intro hg
  apply h2
  have hdvd : (n : Int) ∣ (y - x) * (y + x) := by
    have h := hsq.dvd
    have e : (y - x) * (y + x) = y ^ 2 - x ^ 2 := by ring
    rw [e]
    exact h
  have h3 : (n : Int) ∣ y + x := Int.dvd_of_dvd_mul_right_of_gcd_one hdvd hg
  have h4 : (n : Int) ∣ -y - x := by
    have : -y - x = -(y + x) := by ring
    rw [this]
    exact (Int.dvd_neg).mpr h3
  exact (Int.modEq_iff_dvd).mpr h4

theorem gcd_ne_self_of_not_modEq (n : Nat) (x y : Int) (h1 : ¬ x ≡ y [ZMOD n]) :
    Int.gcd n (y - x) ≠ n := by
  intro hg
  apply h1
  have h : ((Int.gcd (n : Int) (y - x) : Nat) : Int) ∣ y - x := Int.gcd_dvd_right
  rw [hg] at h
  exact (Int.modEq_iff_dvd).mpr h

theorem gcd_dvd_n (n : Nat) (d : Int) : Int.gcd n d ∣ n := by
  have h : ((Int.gcd (n : Int) d : Nat) : Int) ∣ (n : Int) := Int.gcd_dvd_left
  exact Int.natCast_dvd_natCast.mp h

/-- C4: when `x² ≡ y² (mod n)` and `x` is congruent neither to `y` nor to `-y`, the final
step of `main` returns `factor_1 = gcd(n, y - x)` and `factor_2 = n / factor_1`, both
strictly between `1` and `n`. -/
theorem C4_congruence_gives_nontrivial_factors (n : Nat) (x y : Int) (hn : 1 < n)
    (hsq : x ^ 2 ≡ y ^ 2 [ZMOD n]) (h1 : ¬ x ≡ y [ZMOD n]) (h2 : ¬ x ≡ -y [ZMOD n]) :
    ∃ r, final_division n y x = .ok r ∧ r.factor_1 = Int.gcd n (y - x) ∧
      r.factor_2 = n / r.factor_1 ∧ r.factor_1 ∣ n ∧ 1 < r.factor_1 ∧ r.factor_1 < n ∧
      1 < r.factor_2 ∧ r.factor_2 < n := by
  refine ⟨_, final_division_ok n y x (by omega), rfl, rfl, gcd_dvd_n n (y - x), ?_⟩
  simp only
  have hd := gcd_dvd_n n (y - x)
  have hg1 := gcd_ne_one_of_sq n x y hsq h2
  have hgn := gcd_ne_self_of_not_modEq n x y h1
  generalize Int.gcd (n : Int) (y - x) = g at hd hg1 hgn
  obtain ⟨c, hc⟩ := hd
  have hg0 : g ≠ 0 := by
    rintro rfl
    omega
  have hc0 : c ≠ 0 := by
    rintro rfl
    omega
  have hc1 : c ≠ 1 := by
    rintro rfl
    omega
  have hdiv : n / g = c := by
    rw [hc]
    exact Nat.mul_div_cancel_left c (Nat.pos_of_ne_zero hg0)
  rw [hdiv]
  have hg2 : 2 ≤ g := by omega
  have hc2 : 2 ≤ c := by omega
  refine ⟨by omega, ?_, by omega, ?_⟩
  · rw [hc]; nlinarith
  · rw [hc]; nlinarith

theorem C4_witness :
    1 < 15 ∧ (1 : Int) ^ 2 ≡ 4 ^ 2 [ZMOD (15 : Nat)] ∧ ¬ (1 : Int) ≡ 4 [ZMOD (15 : Nat)] ∧
      ¬ (1 : Int) ≡ -4 [ZMOD (15 : Nat)] ∧
    ∃ r, final_division 15 4 1 = .ok r ∧ r.factor_1 = Int.gcd (15 : Nat) (4 - 1) ∧
      r.factor_2 = 15 / r.factor_1 ∧ r.factor_1 ∣ 15 ∧ 1 < r.factor_1 ∧ r.factor_1 < 15 ∧
      1 < r.factor_2 ∧ r.factor_2 < 15 :=
  ⟨by decide, by decide, by decide, by decide,
    C4_congruence_gives_nontrivial_factors 15 1 4 (by decide) (by decide) (by decide)
      (by decide)⟩

/-- C5: for `n > 0` and all integers `x`, `y`, the final step of `main` returns
`factor_1 = gcd(n, y - x)`, which divides `n`, and `factor_2 = n / factor_1`, with
`factor_1 * factor_2 = n`. -/
theorem C5_factors_multiply_to_n (n : Nat) (x y : Int) (hn : 0 < n) :
    ∃ r, final_division n y x = .ok r ∧ r.factor_1 = Int.gcd n (y - x) ∧
      r.factor_2 = n / r.factor_1 ∧ r.factor_1 ∣ n ∧ r.factor_1 * r.factor_2 = n := by
  refine ⟨_, final_division_ok n y x hn, rfl, rfl, gcd_dvd_n n (y - x), ?_⟩
  exact Nat.mul_div_cancel' (gcd_dvd_n n (y - x))

theorem C5_witness :
    0 < 15 ∧ ∃ r, final_division 15 1 4 = .ok r ∧ r.factor_1 = Int.gcd (15 : Nat) (1 - 4) ∧
      r.factor_2 = 15 / r.factor_1 ∧ r.factor_1 ∣ 15 ∧ r.factor_1 * r.factor_2 = 15 :=
  ⟨by decide, C5_factors_multiply_to_n 15 4 1 (by decide)⟩

/-! ## `create_factor_base` (C10) -/

theorem factor_base_loop_eq (legendre : Nat → Nat → Int) (bound n : Nat) (primes : List Nat) :
    factor_base_loop legendre bound n primes =
      (primes.takeWhile (fun p => decide (p ≤ bound))).filter
        (fun p => decide (legendre n p = 1)) := by
  induction primes with
  | nil => rfl
  | cons p rest ih =>
    by_cases hp : p > bound
    · have : ¬ p ≤ bound := by omega
      simp [factor_base_loop, hp, List.takeWhile_cons, this]
    · have hle : p ≤ bound := by omega
      by_cases hl : legendre n p = 1
      · simp [factor_base_loop, hp, hl, List.takeWhile_cons, hle, ih]
      · simp [factor_base_loop, hp, hl, List.takeWhile_cons, hle, ih]

/-- C10: `create_factor_base` returns `2` followed by, in input order, exactly the
primes of the list that come before the first one exceeding `SMOOTH_BOUND` and have
`legendre(n, p) = 1`; every entry is at most `SMOOTH_BOUND`. -/
theorem C10_create_factor_base_contents (legendre : Nat → Nat → Int) (n : Nat)
    (primes : List Nat) :
    create_factor_base legendre primes n =
        2 :: (primes.takeWhile (fun p => decide (p ≤ SMOOTH_BOUND))).filter
          (fun p => decide (legendre n p = 1)) ∧
      ∀ p ∈ create_factor_base legendre primes n, p ≤ SMOOTH_BOUND := by
  have h : create_factor_base legendre primes n =
      2 :: (primes.takeWhile (fun p => decide (p ≤ SMOOTH_BOUND))).filter
        (fun p => decide (legendre n p = 1)) := by
    simp only [create_factor_base, create_factor_base_upto, factor_base_loop_eq]
  refine ⟨h, ?_⟩
  intro p hp
  rw [h] at hp
  rcases List.mem_cons.mp hp with rfl | hp
  · decide
  · have h1 := (List.mem_filter.mp hp).1
    have h2 := List.mem_takeWhile_imp h1
    simpa using h2

/-! ## `eratosthenes`: the cells after the marking loop -/

theorem getD_set_false (A : List Bool) (j m : Nat) :
    (A.set j false).getD m false = (A.getD m false && !decide (m = j)) := by
  simp only [List.getD_eq_getElem?_getD, List.getElem?_set]
  by_cases h : j = m
  · subst h
    by_cases hl : j < A.length <;> simp [hl]
  · have h' : ¬ m = j := fun e => h e.symm
    simp [h, h']

theorem strike_length (bound i : Nat) (fuel j : Nat) (A : List Bool) :
    (strike bound i fuel j A).length = A.length := by
  induction fuel generalizing j A with
  | zero => rfl
  | succ fuel ih =>
    unfold strike
    split
    · rw [ih]; simp
    · rfl

theorem strike_getD (bound i : Nat) (hi : 0 < i) (fuel j : Nat) (A : List Bool) (m : Nat)
    (hfuel : bound + 1 ≤ fuel + j) :
    (strike bound i fuel j A).getD m false =
      (A.getD m false && !decide (j ≤ m ∧ m ≤ bound ∧ i ∣ m - j)) := by
  induction fuel generalizing j A with
  | zero =>
    have : ¬ (j ≤ m ∧ m ≤ bound ∧ i ∣ m - j) := by omega
    simp [strike, this]
  | succ fuel ih =>
    unfold strike
    by_cases hj : j ≤ bound
    · rw [if_pos hj, ih (j + i) _ (by omega), getD_set_false]
      have key : (¬ m = j ∧ ¬ (j + i ≤ m ∧ m ≤ bound ∧ i ∣ m - (j + i))) ↔
          ¬ (j ≤ m ∧ m ≤ bound ∧ i ∣ m - j) := by
        constructor
        · rintro ⟨h1, h2⟩ ⟨h3, h4, h5⟩
          have hpos : 0 < m - j := by omega
          have hle : i ≤ m - j := Nat.le_of_dvd hpos h5
          apply h2
          refine ⟨by omega, h4, ?_⟩
          have : m - (j + i) = (m - j) - i := by omega
          rw [this]
          exact Nat.dvd_sub' h5 (dvd_refl i)
        · intro h
          refine ⟨?_, ?_⟩
          · rintro rfl
            exact h ⟨le_refl _, hj, by simp⟩
          · rintro ⟨h3, h4, h5⟩
            apply h
            refine ⟨by omega, h4, ?_⟩
            have : m - j = (m - (j + i)) + i := by omega
            rw [this]
            exact Dvd.dvd.add h5 (dvd_refl i)
      by_cases hA : A.getD m false = true
      · by_cases hc : (j ≤ m ∧ m ≤ bound ∧ i ∣ m - j)
        · have := key.not.mpr (not_not.mpr hc)
          simp only [hA, Bool.true_and, hc, decide_True, Bool.not_true]
          by_cases hmj : m = j
          · simp [hmj]
          · have h2 : (j + i ≤ m ∧ m ≤ bound ∧ i ∣ m - (j + i)) := by
              by_contra hcon
              exact this ⟨hmj, hcon⟩
            simp [h2]
        · have := key.mpr hc
          simp [hA, hc, this.1, this.2]
      · simp at hA
        simp [hA]
    · rw [if_neg hj]
      have : ¬ (j ≤ m ∧ m ≤ bound ∧ i ∣ m - j) := by omega
      simp [this]

theorem sieveInv_init (bound : Nat) :
    SieveInv bound 2 (((List.replicate bound true).set 0 false).set 1 false) := by
  refine ⟨by simp, ?_⟩
  intro m hm
  rw [getD_set_false, getD_set_false]
  have h1 : (List.replicate bound true).getD m false = true := by
    simp [List.getD_eq_getElem?_getD, List.getElem?_replicate, hm]
  rw [h1]
  constructor
  · intro h
    simp at h
    refine ⟨by omega, ?_⟩
    intro d hd hd2
    omega
  · rintro ⟨h, -⟩
    have h0 : ¬ m = 0 := by omega
    have h1 : ¬ m = 1 := by omega
    simp [h0, h1]

theorem sieveInv_step (bound i : Nat) (hi : 2 ≤ i) (A : List Bool) (h : SieveInv bound i A) :
    SieveInv bound (i + 1)
      (if A.getD i false then strike bound i (bound + 1) (i * i) A else A) := by
  obtain ⟨hlen, hA⟩ := h
  by_cases hAi : A.getD i false = true
  · rw [if_pos hAi]
    refine ⟨by rw [strike_length, hlen], ?_⟩
    intro m hm
    rw [strike_getD bound i (by omega) _ _ _ _ (by omega)]
    simp only [Bool.and_eq_true, Bool.not_eq_true', decide_eq_false_iff_not, hA m hm]
    constructor
    · rintro ⟨⟨h2, hdiv⟩, hns⟩
      refine ⟨h2, ?_⟩
      intro d hd hdi hdm
      by_cases hlt : d < i
      · exact hdiv d hd hlt hdm
      · have hdeq : d = i := by omega
        subst hdeq
        obtain ⟨c, hc⟩ := hdm
        by_contra hne
        have hc0 : c ≠ 0 := by
          rintro rfl
          omega
        have hc1 : c ≠ 1 := by
          rintro rfl
          omega
        by_cases hcd : c < d
        · have := hdiv c (by omega) hcd ⟨d, by rw [hc, Nat.mul_comm]⟩
          subst this
          have : d * c ≥ 2 * c := Nat.mul_le_mul_right c hd
          omega
        · apply hns
          have hge : d * d ≤ m := by
            rw [hc]
            exact Nat.mul_le_mul_left d (by omega)
          refine ⟨hge, by omega, ?_⟩
          have : m - d * d = d * (c - d) := by
            rw [hc, Nat.mul_sub]
          rw [this]
          exact Dvd.intro _ rfl
    · rintro ⟨h2, hdiv⟩
      refine ⟨⟨h2, fun d hd hdi hdm => hdiv d hd (by omega) hdm⟩, ?_⟩
      rintro ⟨hge, -, hdvd⟩
      have hdm : i ∣ m := by
        have : m = (m - i * i) + i * i := by omega
        rw [this]
        exact Dvd.dvd.add hdvd (Dvd.intro _ rfl)
      have := hdiv i hi (by omega) hdm
      subst this
      have : i * i ≥ 2 * i := Nat.mul_le_mul_right i hi
      omega
  · rw [if_neg hAi]
    refine ⟨hlen, ?_⟩
    intro m hm
    rw [hA m hm]
    constructor
    · rintro ⟨h2, hdiv⟩
      refine ⟨h2, ?_⟩
      intro d hd hdi hdm
      by_cases hlt : d < i
      · exact hdiv d hd hlt hdm
      · have hdeq : d = i := by omega
        subst hdeq
        by_contra hne
        have hdle : d ≤ m := Nat.le_of_dvd (by omega) hdm
        have hdb : d < bound := by omega
        have hnot := (hA d hdb).not.mp hAi
        apply hnot
        refine ⟨hd, ?_⟩
        intro e he hed hedvd
        have := hdiv e he hed (dvd_trans hedvd hdm)
        omega
    · rintro ⟨h2, hdiv⟩
      exact ⟨h2, fun d hd hdi hdm => hdiv d hd (by omega) hdm⟩

theorem mark_inv (bound : Nat) (fuel i : Nat) (A : List Bool) (hi : 2 ≤ i)
    (hfuel : bound ≤ fuel + i) (h : SieveInv bound i A) :
    ∃ I, bound ≤ I * I ∧ SieveInv bound I (mark bound fuel i A) := by
  induction fuel generalizing i A with
  | zero =>
    refine ⟨i, ?_, h⟩
    have : i * i ≥ 2 * i := Nat.mul_le_mul_right i hi
    omega
  | succ fuel ih =>
    unfold mark
    by_cases hlt : i * i < bound
    · rw [if_pos hlt]
      exact ih (i + 1) _ (by omega) (by omega) (sieveInv_step bound i hi A h)
    · rw [if_neg hlt]
      exact ⟨i, by omega, h⟩

theorem sieveInv_prime (bound I : Nat) (A : List Bool) (hI : bound ≤ I * I)
    (h : SieveInv bound I A) (m : Nat) (hm : m < bound) :
    A.getD m false = true ↔ m.Prime := by
  rw [h.2 m hm, Nat.prime_def_le_sqrt]
  constructor
  · rintro ⟨h2, hdiv⟩
    refine ⟨h2, ?_⟩
    intro d hd hds hdm
    have hdd : d * d ≤ m := Nat.le_sqrt.mp hds
    have hdI : d < I := by
      by_contra hge
      have : I * I ≤ d * d := Nat.mul_le_mul (by omega) (by omega)
      omega
    have := hdiv d hd hdI hdm
    subst this
    have : d * d ≥ 2 * d := Nat.mul_le_mul_right d hd
    omega
  · rintro ⟨h2, hdiv⟩
    refine ⟨h2, ?_⟩
    intro d hd _ hdm
    by_contra hne
    obtain ⟨c, hc⟩ := hdm
    have hc0 : c ≠ 0 := by
      rintro rfl
      omega
    have hc1 : c ≠ 1 := by
      rintro rfl
      omega
    by_cases hcd : d ≤ c
    · apply hdiv d hd _ ⟨c, hc⟩
      apply Nat.le_sqrt.mpr
      rw [hc]
      exact Nat.mul_le_mul_left d hcd
    · apply hdiv c (by omega) _ ⟨d, by rw [hc, Nat.mul_comm]⟩
      apply Nat.le_sqrt.mpr
      rw [hc]
      exact Nat.mul_le_mul_right c (by omega)

/-- The list `eratosthenes` gives is the list of primes below the bound. -/
theorem eratosthenes_eq (bound : Nat) :
    eratosthenes bound = (List.range bound).filter (fun p => decide p.Prime) := by
  unfold eratosthenes
  obtain ⟨I, hI, hinv⟩ := mark_inv bound bound 2 _ (le_refl 2) (by omega) (sieveInv_init bound)
  apply List.filter_congr
  intro m hm
  have hm' : m < bound := List.mem_range.mp hm
  have := sieveInv_prime bound I _ hI hinv m hm'
  by_cases hp : m.Prime
  · have ht := this.mpr hp
    simp only [hp, decide_True]
    exact ht
  · have hf : ¬ (List.getD (mark bound bound 2
        (((List.replicate bound true).set 0 false).set 1 false)) m false = true) :=
      fun e => hp (this.mp e)
    simp only [Bool.not_eq_true] at hf
    simp only [hp, decide_False]
    exact hf

/-- In the runs described by `eratosthenes` (the stores past the end of `A` doing no harm),
for every bound `B ≥ 2` the list is strictly ascending, each of its elements is a prime
below `B`, and every prime below `B` occurs in it exactly once. -/
theorem eratosthenes_sorted_primes (B : Nat) (hB : 2 ≤ B) :
    List.Sorted (· < ·) (eratosthenes B) ∧
      (∀ p ∈ eratosthenes B, p.Prime ∧ p < B) ∧
      (∀ p, p.Prime → p < B → (eratosthenes B).count p = 1) := by
  have _ := hB
  rw [eratosthenes_eq]
  have hs : List.Sorted (· < ·) ((List.range B).filter (fun p => decide p.Prime)) :=
    List.Pairwise.sublist (List.filter_sublist _) (List.pairwise_lt_range B)
  refine ⟨hs, ?_, ?_⟩
  · intro p hp
    have := List.mem_filter.mp hp
    exact ⟨by simpa using this.2, List.mem_range.mp this.1⟩
  · intro p hp hpB
    apply List.count_eq_one_of_mem hs.nodup
    exact List.mem_filter.mpr ⟨List.mem_range.mpr hpB, by simpa using hp⟩

theorem eratosthenes_sorted_primes_30 :
    2 ≤ 30 ∧ (List.Sorted (· < ·) (eratosthenes 30) ∧
      (∀ p ∈ eratosthenes 30, p.Prime ∧ p < 30) ∧
      (∀ p, p.Prime → p < 30 → (eratosthenes 30).count p = 1)) :=
  ⟨by decide, eratosthenes_sorted_primes 30 (by decide)⟩

theorem eratosthenes_30 : eratosthenes 30 = [2, 3, 5, 7, 11, 13, 17, 19, 23, 29] := by
  decide

/-! ## `factor_smooth` (C7) -/

theorem xor_at_append (done : List Nat) (b : Nat) (zs : List Nat) :
    xor_at (done ++ b :: zs) done.length = done ++ (b ^^^ 1) :: zs := by
  induction done with
  | nil => simp [xor_at]
  | cons a done ih =>
    simp only [xor_at, List.cons_append, List.length_cons, List.set_cons_succ,
      List.getD_cons_succ] at ih ⊢
    rw [ih]

theorem xor_one_of_lt_two (b : Nat) (hb : b < 2) : b ^^^ 1 = (b + 1) % 2 := by
  interval_cases b <;> rfl

/-- The inner `while` loop for a prime `factor`: with more fuel than the exponent of the
prime in `n`, it divides the prime out completely and adds the exponent to the parity
bit. -/
theorem divide_out_prime (p : Nat) (hp : p.Prime) (fuel : Nat) (done : List Nat) (b : Nat)
    (zs : List Nat) (n : Nat) (hb : b < 2) (hn : n ≠ 0) (hfuel : n.factorization p < fuel) :
    divide_out done.length p fuel (done ++ b :: zs) n =
      .ok (done ++ ((b + n.factorization p) % 2) :: zs, n / p ^ n.factorization p) := by
  induction fuel generalizing b n with
  | zero => omega
  | succ fuel ih =>
    unfold divide_out
    rw [if_neg hp.ne_zero]
    by_cases hdvd : n % p = 0
    · rw [if_pos hdvd, xor_at_append]
      have hpn : p ∣ n := Nat.dvd_of_mod_eq_zero hdvd
      have hv : 0 < n.factorization p :=
        hp.factorization_pos_of_dvd hn hpn
      have hn' : n / p ≠ 0 := by
        intro h0
        have := Nat.div_mul_cancel hpn
        rw [h0] at this
        omega
      have hfac : (n / p).factorization p = n.factorization p - 1 := by
        rw [Nat.factorization_div hpn]
        simp [hp.factorization_self]
      rw [xor_one_of_lt_two b hb,
        ih ((b + 1) % 2) (n / p) (Nat.mod_lt _ (by omega)) hn' (by rw [hfac]; omega), hfac]
      have e1 : ((b + 1) % 2 + (n.factorization p - 1)) % 2 = (b + n.factorization p) % 2 := by
        omega
      have e2 : n / p / p ^ (n.factorization p - 1) = n / p ^ n.factorization p := by
        rw [Nat.div_div_eq_div_mul, ← pow_succ']
        congr 2
        omega
      rw [e1, e2]
    · rw [if_neg hdvd]
      have hv : n.factorization p = 0 :=
        Nat.factorization_eq_zero_of_not_dvd (fun h => hdvd (Nat.mod_eq_zero_of_dvd h))
      rw [hv]
      have : (b + 0) % 2 = b := by omega
      rw [this]
      simp

theorem factor_loop_primes (fuel : Nat) (rest : List Nat) :
    ∀ (done : List Nat) (n : Nat), (∀ p ∈ rest, p.Prime) → rest.Nodup → n ≠ 0 → n ≤ fuel →
      ∃ n', factor_loop fuel done.length rest (done ++ List.replicate rest.length 0) n =
          .ok (done ++ rest.map (fun p => n.factorization p % 2), n') ∧
        n' ≠ 0 ∧ n' ≤ n ∧
        ∀ q, n'.factorization q = if q ∈ rest then 0 else n.factorization q := by
  induction rest with
  | nil =>
    intro done n _ _ hn _
    exact ⟨n, by simp [factor_loop], hn, le_refl n, by simp⟩
  | cons p rest ih =>
    intro done n hprime hnodup hn hfuel
    have hp : p.Prime := hprime p (List.mem_cons_self _ _)
    have hlt : n.factorization p < fuel :=
      lt_of_lt_of_le (Nat.factorization_lt p hn) hfuel
    have hpos : 0 < p ^ n.factorization p := Nat.pow_pos hp.pos
    have hdvd : p ^ n.factorization p ∣ n := Nat.ordProj_dvd n p
    have hn1 : n / p ^ n.factorization p ≠ 0 := by
      intro h0
      have := Nat.div_mul_cancel hdvd
      rw [h0] at this
      omega
    have hle : n / p ^ n.factorization p ≤ n := Nat.div_le_self _ _
    obtain ⟨n', hrun, hn'0, hn'le, hfac⟩ :=
      ih (done ++ [n.factorization p % 2]) (n / p ^ n.factorization p)
        (fun q hq => hprime q (List.mem_cons_of_mem _ hq)) (List.nodup_cons.mp hnodup).2 hn1
        (le_trans hle hfuel)
    refine ⟨n', ?_, hn'0, le_trans hn'le hle, ?_⟩
    · simp only [List.length_cons, List.replicate_succ, factor_loop]
      rw [divide_out_prime p hp fuel done 0 _ n (by omega) hn hlt]
      simp only [Nat.zero_add]
      have hlen : (done ++ [n.factorization p % 2]).length = done.length + 1 := by simp
      rw [hlen] at hrun
      have happ : done ++ n.factorization p % 2 :: List.replicate rest.length 0 =
          (done ++ [n.factorization p % 2]) ++ List.replicate rest.length 0 := by simp
      rw [happ, hrun]
      have hmap : rest.map (fun q => (n / p ^ n.factorization p).factorization q % 2) =
          rest.map (fun q => n.factorization q % 2) := by
        apply List.map_congr_left
        intro q hq
        have hqp : q ≠ p := by
          rintro rfl
          exact (List.nodup_cons.mp hnodup).1 hq
        rw [Nat.factorization_ordCompl n p, Finsupp.erase_ne hqp]
      rw [hmap]
      simp
    · intro q
      rw [hfac q, Nat.factorization_ordCompl n p]
      by_cases hqp : q = p
      · subst hqp
        simp
      · by_cases hq : q ∈ rest
        · simp [hq]
        · simp [hq, hqp, Finsupp.erase_ne hqp]

/-- C7: for `s ≥ 1`, a factor base of pairwise distinct primes and a zero-initialised
`factors` vector of the same length, `factor_smooth` returns (for every fuel of at least
`s`) the vector of parities of the exponents of the factor-base primes in `s`, and
`is_smooth` is true exactly when every prime factor of `s` is in the factor base. -/
theorem C7_factor_smooth_parities (fuel s : Nat) (factor_base : List Nat) (hs : 1 ≤ s)
    (hprime : ∀ p ∈ factor_base, p.Prime) (hnodup : factor_base.Nodup) (hfuel : s ≤ fuel) :
    ∃ is_smooth, factor_smooth fuel (List.replicate factor_base.length 0) s factor_base =
        .ok (factor_base.map (fun p => s.factorization p % 2), is_smooth) ∧
      (is_smooth = true ↔ ∀ q, q.Prime → q ∣ s → q ∈ factor_base) := by
  have hs0 : s ≠ 0 := by omega
  obtain ⟨n', hrun, hn'0, -, hfac⟩ :=
    factor_loop_primes fuel factor_base [] s hprime hnodup hs0 hfuel
  simp only [List.length_nil, List.nil_append] at hrun
  refine ⟨n' == 1, by simp [factor_smooth, hrun], ?_⟩
  rw [beq_iff_eq]
  constructor
  · intro h1 q hq hqs
    by_contra hmem
    have := hfac q
    rw [if_neg hmem, h1] at this
    have hpos := hq.factorization_pos_of_dvd hs0 hqs
    simp at this
    omega
  · intro hall
    have hz : n'.factorization = 0 := by
      ext q
      rw [hfac q]
      by_cases hq : q ∈ factor_base
      · simp [hq]
      · rw [if_neg hq]
        by_contra hne
        have hsup : q ∈ s.factorization.support := Finsupp.mem_support_iff.mpr hne
        rw [Nat.support_factorization] at hsup
        have hqp : q.Prime := Nat.prime_of_mem_primeFactors hsup
        exact hq (hall q hqp (Nat.dvd_of_mem_primeFactors hsup))
    rcases (Nat.factorization_eq_zero_iff' n').mp hz with h | h
    · exact absurd h hn'0
    · exact h

theorem C7_witness :
    1 ≤ 12 ∧ (∀ p ∈ [2, 3, 5], Nat.Prime p) ∧ [2, 3, 5].Nodup ∧ 12 ≤ 12 ∧
    ∃ is_smooth, factor_smooth 12 (List.replicate [2, 3, 5].length 0) 12 [2, 3, 5] =
        .ok ([2, 3, 5].map (fun p => (12 : Nat).factorization p % 2), is_smooth) ∧
      (is_smooth = true ↔ ∀ q, q.Prime → q ∣ 12 → q ∈ [2, 3, 5]) :=
  ⟨by decide, by decide, by decide, by decide,
    C7_factor_smooth_parities 12 12 [2, 3, 5] (by decide) (by decide) (by decide) (by decide)⟩

theorem factor_smooth_12 :
    factor_smooth 12 [0, 0, 0] 12 [2, 3, 5] = .ok ([0, 1, 0], true) := by decide

/-! ## Fuel: a settled outcome does not depend on the amount of fuel -/

theorem divide_out_mono (i factor : Nat) (fuel fuel' : Nat) (factors : List Nat) (n : Nat)
    (hle : fuel ≤ fuel') (h : divide_out i factor fuel factors n ≠ .error .out_of_fuel) :
    divide_out i factor fuel' factors n = divide_out i factor fuel factors n := by
  induction fuel generalizing fuel' factors n with
  | zero => exact absurd rfl h
  | succ fuel ih =>
    obtain ⟨g, rfl⟩ : ∃ g, fuel' = g + 1 := ⟨fuel' - 1, by omega⟩
    unfold divide_out at h ⊢
    by_cases h0 : factor = 0
    · simp [h0]
    · simp only [if_neg h0] at h ⊢
      by_cases hd : n % factor = 0
      · simp only [if_pos hd] at h ⊢
        exact ih g _ _ (by omega) h
      · simp only [if_neg hd]

theorem factor_loop_mono (fuel fuel' : Nat) (hle : fuel ≤ fuel') (rest : List Nat) :
    ∀ (i : Nat) (factors : List Nat) (n : Nat),
      factor_loop fuel i rest factors n ≠ .error .out_of_fuel →
      factor_loop fuel' i rest factors n = factor_loop fuel i rest factors n := by
  induction rest with
  | nil => intro i factors n _; rfl
  | cons p rest ih =>
    intro i factors n h
    unfold factor_loop at h ⊢
    have hd : divide_out i p fuel factors n ≠ .error .out_of_fuel := by
      intro hc
      rw [hc] at h
      exact h rfl
    rw [divide_out_mono i p fuel fuel' factors n hle hd]
    cases hres : divide_out i p fuel factors n with
    | error e => rfl
    | ok r =>
      obtain ⟨factors', n'⟩ := r
      rw [hres] at h
      exact ih (i + 1) factors' n' h

theorem factor_smooth_mono (fuel fuel' : Nat) (hle : fuel ≤ fuel') (factors : List Nat)
    (n : Nat) (factor_base : List Nat)
    (h : factor_smooth fuel factors n factor_base ≠ .error .out_of_fuel) :
    factor_smooth fuel' factors n factor_base = factor_smooth fuel factors n factor_base := by
  unfold factor_smooth at h ⊢
  have hd : factor_loop fuel 0 factor_base factors n ≠ .error .out_of_fuel := by
    intro hc
    rw [hc] at h
    exact h rfl
  rw [factor_loop_mono fuel fuel' hle factor_base 0 factors n hd]

theorem scan_chunk_mono (fuel fuel' : Nat) (hle : fuel ≤ fuel') (factor_base : List Nat)
    (chunk : List (Nat × Nat)) :
    ∀ st : SieveState, scan_chunk fuel factor_base chunk st ≠ .error .out_of_fuel →
      scan_chunk fuel' factor_base chunk st = scan_chunk fuel factor_base chunk st := by
  induction chunk with
  | nil => intro st _; rfl
  | cons c rest ih =>
    intro st h
    obtain ⟨x, current⟩ := c
    unfold scan_chunk at h ⊢
    have hd : factor_smooth fuel (List.replicate factor_base.length 0) current factor_base ≠
        .error .out_of_fuel := by
      intro hc
      rw [hc] at h
      exact h rfl
    rw [factor_smooth_mono fuel fuel' hle _ current factor_base hd]
    cases hres : factor_smooth fuel (List.replicate factor_base.length 0) current
        factor_base with
    | error e => rfl
    | ok r =>
      obtain ⟨factors, is_smooth⟩ := r
      rw [hres] at h
      simp only at h ⊢
      by_cases hs : is_smooth = true
      · simp only [if_pos hs] at h ⊢
        by_cases hc : st.smooth_count > factor_base.length
        · simp only [if_pos hc]
        · simp only [if_neg hc] at h ⊢
          exact ih _ h
      · simp only [if_neg hs] at h ⊢
        exact ih _ h

theorem sieve_loop_mono (n sqrt_n : Nat) (factor_base : List Nat) (fuel fuel' : Nat)
    (hle : fuel ≤ fuel') (rounds : Nat) :
    ∀ (rounds' j : Nat) (st : SieveState), rounds ≤ rounds' →
      sieve_loop fuel n sqrt_n factor_base rounds j st ≠ .error .out_of_fuel →
      sieve_loop fuel' n sqrt_n factor_base rounds' j st =
        sieve_loop fuel n sqrt_n factor_base rounds j st := by
  induction rounds with
  | zero => intro rounds' j st _ h; exact absurd rfl h
  | succ rounds ih =>
    intro rounds' j st hr h
    obtain ⟨g, rfl⟩ : ∃ g, rounds' = g + 1 := ⟨rounds' - 1, by omega⟩
    unfold sieve_loop at h ⊢
    by_cases hnd : st.not_done = true
    · simp only [if_pos hnd] at h ⊢
      cases hb : build_chunk sqrt_n j n SIEVE_CHUNK 0 with
      | error e => rfl
      | ok chunk =>
        simp only [hb] at h ⊢
        have hd : scan_chunk fuel factor_base chunk st ≠ .error .out_of_fuel := by
          intro hc
          rw [hc] at h
          exact h rfl
        rw [scan_chunk_mono fuel fuel' hle factor_base chunk st hd]
        cases hres : scan_chunk fuel factor_base chunk st with
        | error e => rfl
        | ok st' =>
          simp only [hres] at h ⊢
          exact ih g (j + SIEVE_CHUNK) st' (by omega) h
    · simp only [if_neg hnd]

theorem sieve_mono (fuel fuel' : Nat) (hle : fuel ≤ fuel') (sn sx : List Nat) (sf : Matrix)
    (n : Nat) (factor_base : List Nat)
    (h : sieve fuel sn sx sf n factor_base ≠ .error .out_of_fuel) :
    sieve fuel' sn sx sf n factor_base = sieve fuel sn sx sf n factor_base := by
  unfold sieve at h ⊢
  exact sieve_loop_mono n (mpz_sqrt n) factor_base fuel fuel' hle fuel fuel' 1 _ hle h

/-- More fuel does not change an outcome of `main` other than running out of fuel. -/
theorem main_mono (legendre : Nat → Nat → Int) (fuel fuel' n : Nat) (hle : fuel ≤ fuel')
    (h : main legendre fuel n ≠ .error .out_of_fuel) :
    main legendre fuel' n = main legendre fuel n := by
  unfold main at h ⊢
  simp only at h ⊢
  have hd : sieve fuel (List.replicate ((create_factor_base legendre
      (eratosthenes TRIAL_BOUND) n).length + 1) 0)
      (List.replicate ((create_factor_base legendre (eratosthenes TRIAL_BOUND) n).length + 1) 0)
      (List.replicate ((create_factor_base legendre (eratosthenes TRIAL_BOUND) n).length + 1) [0])
      n (create_factor_base legendre (eratosthenes TRIAL_BOUND) n) ≠ .error .out_of_fuel := by
    intro hc
    rw [hc] at h
    exact h rfl
  rw [sieve_mono fuel fuel' hle _ _ _ n _ hd]

/-! ## `sieve`: recorded relations (C6, C8) -/

theorem build_chunk_spec (sqrt_n j n : Nat) (c : Nat) :
    ∀ (i : Nat) (chunk : List (Nat × Nat)), build_chunk sqrt_n j n c i = .ok chunk →
      ∀ e ∈ chunk, ∃ t, e.1 = sqrt_n + (j + t) ∧ e.2 = e.1 ^ 2 % n := by
  induction c with
  | zero =>
    intro i chunk h e he
    simp only [build_chunk, Except.ok.injEq] at h
    subst h
    simp at he
  | succ c ih =>
    intro i chunk h e he
    unfold build_chunk at h
    unfold powm2 at h
    by_cases hn : n = 0
    · simp [hn] at h
    · simp only [if_neg hn] at h
      cases hrest : build_chunk sqrt_n j n c (i + 1) with
      | error err => simp [hrest] at h
      | ok rest =>
        simp only [hrest, Except.ok.injEq] at h
        subst h
        rcases List.mem_cons.mp he with rfl | he'
        · exact ⟨i, by simp [Nat.add_assoc], rfl⟩
        · exact ih (i + 1) rest hrest e he'

theorem xor_at_length (factors : List Nat) (i : Nat) :
    (xor_at factors i).length = factors.length := by
  simp [xor_at]

theorem divide_out_length (i factor fuel : Nat) :
    ∀ (factors : List Nat) (n : Nat) (r : List Nat × Nat),
      divide_out i factor fuel factors n = .ok r → r.1.length = factors.length := by
  induction fuel with
  | zero => intro factors n r h; simp [divide_out] at h
  | succ fuel ih =>
    intro factors n r h
    unfold divide_out at h
    by_cases h0 : factor = 0
    · simp [h0] at h
    · simp only [if_neg h0] at h
      by_cases hd : n % factor = 0
      · simp only [if_pos hd] at h
        rw [ih _ _ r h, xor_at_length]
      · simp only [if_neg hd, Except.ok.injEq] at h
        subst h
        rfl

theorem factor_loop_length (fuel : Nat) (rest : List Nat) :
    ∀ (i : Nat) (factors : List Nat) (n : Nat) (r : List Nat × Nat),
      factor_loop fuel i rest factors n = .ok r → r.1.length = factors.length := by
  induction rest with
  | nil =>
    intro i factors n r h
    simp only [factor_loop, Except.ok.injEq] at h
    subst h
    rfl
  | cons p rest ih =>
    intro i factors n r h
    unfold factor_loop at h
    cases hres : divide_out i p fuel factors n with
    | error e => simp [hres] at h
    | ok r1 =>
      obtain ⟨factors', n'⟩ := r1
      simp only [hres] at h
      rw [ih _ _ _ r h]
      exact divide_out_length i p fuel factors n _ hres

theorem divide_out_mul (i factor fuel : Nat) :
    ∀ (factors : List Nat) (n : Nat) (r : List Nat × Nat),
      divide_out i factor fuel factors n = .ok r → ∃ e, n = r.2 * factor ^ e := by
  induction fuel with
  | zero => intro factors n r h; simp [divide_out] at h
  | succ fuel ih =>
    intro factors n r h
    unfold divide_out at h
    by_cases h0 : factor = 0
    · simp [h0] at h
    · simp only [if_neg h0] at h
      by_cases hd : n % factor = 0
      · simp only [if_pos hd] at h
        obtain ⟨e, he⟩ := ih _ _ r h
        refine ⟨e + 1, ?_⟩
        have hdvd : factor ∣ n := Nat.dvd_of_mod_eq_zero hd
        calc n = n / factor * factor := (Nat.div_mul_cancel hdvd).symm
          _ = r.2 * factor ^ e * factor := by rw [he]
          _ = r.2 * factor ^ (e + 1) := by rw [pow_succ, Nat.mul_assoc]
      · simp only [if_neg hd, Except.ok.injEq] at h
        subst h
        exact ⟨0, by simp⟩

/-- What the trial division leaves: the input is the remainder times a product of powers of
the factor-base entries. -/
theorem factor_loop_mul (fuel : Nat) (rest : List Nat) :
    ∀ (i : Nat) (factors : List Nat) (n : Nat) (r : List Nat × Nat),
      factor_loop fuel i rest factors n = .ok r →
      ∃ es : List Nat, es.length = rest.length ∧
        n = r.2 * (List.zipWith (· ^ ·) rest es).prod := by
  induction rest with
  | nil =>
    intro i factors n r h
    simp only [factor_loop, Except.ok.injEq] at h
    subst h
    exact ⟨[], rfl, by simp⟩
  | cons p rest ih =>
    intro i factors n r h
    unfold factor_loop at h
    cases hres : divide_out i p fuel factors n with
    | error e => simp [hres] at h
    | ok r1 =>
      obtain ⟨factors', n'⟩ := r1
      simp only [hres] at h
      obtain ⟨es, hlen, hes⟩ := ih _ _ _ r h
      obtain ⟨e, he⟩ := divide_out_mul i p fuel factors n _ hres
      refine ⟨e :: es, by simp [hlen], ?_⟩
      simp only [List.zipWith_cons_cons, List.prod_cons]
      simp only at he hes
      rw [he, hes]
      ring

theorem soundRelation_of_eq (fuel n sqrt_n : Nat) (factor_base : List Nat)
    (st st' : SieveState) (i : Nat)
    (hx : st'.smooth_x[i]? = st.smooth_x[i]?)
    (hn : st'.smooth_numbers[i]? = st.smooth_numbers[i]?)
    (hf : st'.smooth_factors[i]? = st.smooth_factors[i]?)
    (h : SoundRelation fuel n sqrt_n factor_base st i) :
    SoundRelation fuel n sqrt_n factor_base st' i := by
  obtain ⟨j, x, s, fs, h1, h2, h3, h4, h5, h6, h7⟩ := h
  exact ⟨j, x, s, fs, h1, h2, h3, by rw [hx, h4], by rw [hn, h5], by rw [hf, h6], h7⟩

theorem scan_chunk_records (fuel n sqrt_n : Nat) (factor_base : List Nat) (Ln Lx Lf : Nat)
    (hLn : factor_base.length < Ln) (hLx : factor_base.length < Lx)
    (hLf : factor_base.length < Lf) (chunk : List (Nat × Nat)) :
    ∀ (st st' : SieveState),
      (∀ e ∈ chunk, ∃ j, 1 ≤ j ∧ e.1 = sqrt_n + j ∧ e.2 = e.1 ^ 2 % n) →
      SieveRecords fuel n sqrt_n factor_base Ln Lx Lf st → st.not_done = true →
      scan_chunk fuel factor_base chunk st = .ok st' →
      SieveRecords fuel n sqrt_n factor_base Ln Lx Lf st' := by
  induction chunk with
  | nil =>
    intro st st' _ hinv _ h
    simp only [scan_chunk, Except.ok.injEq] at h
    subst h
    exact hinv
  | cons c rest ih =>
    intro st st' hchunk hinv hnd h
    obtain ⟨x, current⟩ := c
    obtain ⟨hn, hx, hf, hcount, hstores, hdone, hrel⟩ := hinv
    unfold scan_chunk at h
    cases hres : factor_smooth fuel (List.replicate factor_base.length 0) current
        factor_base with
    | error e => simp [hres] at h
    | ok r =>
      obtain ⟨factors, is_smooth⟩ := r
      simp only [hres] at h
      have hrest : ∀ e ∈ rest, ∃ j, 1 ≤ j ∧ e.1 = sqrt_n + j ∧ e.2 = e.1 ^ 2 % n :=
        fun e he => hchunk e (List.mem_cons_of_mem _ he)
      by_cases hs : is_smooth = true
      · simp only [if_pos hs] at h
        by_cases hc : st.smooth_count > factor_base.length
        · simp only [if_pos hc, Except.ok.injEq] at h
          subst h
          refine ⟨hn, hx, hf, hcount, hstores, fun _ => by simp only; omega, ?_⟩
          intro i hi
          exact soundRelation_of_eq fuel n sqrt_n factor_base st _ i rfl rfl rfl (hrel i hi)
        · simp only [if_neg hc] at h
          have hlt : st.smooth_count ≤ factor_base.length := by omega
          refine ih _ st' hrest ?_ ?_ h
          swap
          · exact hnd
          refine ⟨by simp [hn], by simp [hx], by simp [hf], by simp only; omega, ?_, ?_, ?_⟩
          · simp only [hstores, List.range_succ, List.reverse_append, List.reverse_cons,
              List.reverse_nil, List.nil_append, List.singleton_append]
          · intro hfalse
            simp only at hfalse
            rw [hnd] at hfalse
            exact absurd hfalse (by decide)
          · intro i hi
            simp only at hi
            by_cases hic : i = st.smooth_count
            · subst hic
              obtain ⟨j, hj1, hjx, hjc⟩ := hchunk (x, current) (List.mem_cons_self _ _)
              simp only at hjx hjc
              refine ⟨j, x, current, factors, hj1, hjx, hjc, ?_, ?_, ?_, ?_⟩
              · simp only [List.getElem?_set]
                simp [hx]; omega
              · simp only [List.getElem?_set]
                simp [hn]; omega
              · simp only [List.getElem?_set]
                simp [hf]; omega
              · unfold factor_smooth at hres
                cases hfl : factor_loop fuel 0 factor_base
                    (List.replicate factor_base.length 0) current with
                | error e => simp [hfl] at hres
                | ok r2 =>
                  obtain ⟨f2, n2⟩ := r2
                  simp only [hfl, Except.ok.injEq, Prod.mk.injEq] at hres
                  obtain ⟨rfl, hsm⟩ := hres
                  rw [hs] at hsm
                  have : n2 = 1 := by simpa using hsm
                  rw [this]
            · have hilt : i < st.smooth_count := by omega
              have hne : st.smooth_count ≠ i := fun e => hic e.symm
              refine soundRelation_of_eq fuel n sqrt_n factor_base st _ i ?_ ?_ ?_ (hrel i hilt)
              · simp [List.getElem?_set, hne]
              · simp [List.getElem?_set, hne]
              · simp [List.getElem?_set, hne]
      · simp only [if_neg hs] at h
        exact ih st st' hrest ⟨hn, hx, hf, hcount, hstores, hdone, hrel⟩ hnd h

theorem sieve_loop_records (fuel n sqrt_n : Nat) (factor_base : List Nat) (Ln Lx Lf : Nat)
    (hLn : factor_base.length < Ln) (hLx : factor_base.length < Lx)
    (hLf : factor_base.length < Lf) (rounds : Nat) :
    ∀ (j : Nat) (st st' : SieveState), 1 ≤ j →
      SieveRecords fuel n sqrt_n factor_base Ln Lx Lf st →
      sieve_loop fuel n sqrt_n factor_base rounds j st = .ok st' →
      SieveRecords fuel n sqrt_n factor_base Ln Lx Lf st' ∧ st'.not_done = false := by
  induction rounds with
  | zero => intro j st st' _ _ h; simp [sieve_loop] at h
  | succ rounds ih =>
    intro j st st' hj hinv h
    unfold sieve_loop at h
    by_cases hnd : st.not_done = true
    · simp only [if_pos hnd] at h
      cases hb : build_chunk sqrt_n j n SIEVE_CHUNK 0 with
      | error e => simp [hb] at h
      | ok chunk =>
        simp only [hb] at h
        cases hsc : scan_chunk fuel factor_base chunk st with
        | error e => simp [hsc] at h
        | ok st1 =>
          simp only [hsc] at h
          refine ih (j + SIEVE_CHUNK) st1 st' (by omega) ?_ h
          refine scan_chunk_records fuel n sqrt_n factor_base Ln Lx Lf hLn hLx hLf chunk st st1
            ?_ hinv hnd hsc
          intro e he
          obtain ⟨t, h1, h2⟩ := build_chunk_spec sqrt_n j n SIEVE_CHUNK 0 chunk hb e he
          exact ⟨j + t, by omega, h1, h2⟩
    · simp only [if_neg hnd, Except.ok.injEq] at h
      subst h
      exact ⟨hinv, by simpa using hnd⟩

theorem sieve_records (fuel : Nat) (sn sx : List Nat) (sf : Matrix) (n : Nat)
    (factor_base : List Nat) (st : SieveState)
    (hn : factor_base.length < sn.length) (hx : factor_base.length < sx.length)
    (hf : factor_base.length < sf.length)
    (h : sieve fuel sn sx sf n factor_base = .ok st) :
    SieveRecords fuel n (mpz_sqrt n) factor_base sn.length sx.length sf.length st ∧
      st.not_done = false := by
  unfold sieve at h
  refine sieve_loop_records fuel n (mpz_sqrt n) factor_base _ _ _ hn hx hf fuel 1 _ st
    (le_refl 1) ?_ h
  refine ⟨rfl, rfl, rfl, by simp, by simp, by simp, ?_⟩
  intro i hi
  simp at hi

theorem bit_length_spec (n : Nat) (fuel : Nat) :
    ∀ b, n < 2 ^ (b + fuel) → n < 2 ^ bit_length n fuel b := by
  induction fuel with
  | zero => intro b h; simpa [bit_length] using h
  | succ fuel ih =>
    intro b h
    unfold bit_length
    by_cases hb : n < 2 ^ b
    · rw [if_pos hb]; exact hb
    · rw [if_neg hb]
      apply ih
      have : b + 1 + fuel = b + (fuel + 1) := by omega
      rw [this]
      exact h

theorem sqrt_bits_spec (n : Nat) (b : Nat) :
    ∀ r, r * r ≤ n → n < (r + 2 ^ b) * (r + 2 ^ b) →
      sqrt_bits n b r * sqrt_bits n b r ≤ n ∧
        n < (sqrt_bits n b r + 1) * (sqrt_bits n b r + 1) := by
  induction b with
  | zero => intro r h1 h2; simpa [sqrt_bits] using ⟨h1, h2⟩
  | succ b ih =>
    intro r h1 h2
    unfold sqrt_bits
    by_cases hc : (r + 2 ^ b) * (r + 2 ^ b) ≤ n
    · rw [if_pos hc]
      apply ih _ hc
      have : r + 2 ^ b + 2 ^ b = r + 2 ^ (b + 1) := by rw [pow_succ]; omega
      rw [this]
      exact h2
    · rw [if_neg hc]
      exact ih r h1 (by omega)

/-- The bit-by-bit square root is the integer square root. -/
theorem mpz_sqrt_eq (n : Nat) : mpz_sqrt n = Nat.sqrt n := by
  unfold mpz_sqrt
  have hb : n < 2 ^ bit_length n n 0 :=
    bit_length_spec n n 0 (by simpa using Nat.lt_two_pow n)
  have hsq : n < (0 + 2 ^ bit_length n n 0) * (0 + 2 ^ bit_length n n 0) := by
    have h1 : 1 ≤ 2 ^ bit_length n n 0 := Nat.one_le_two_pow
    simp only [Nat.zero_add]
    nlinarith
  exact Nat.eq_sqrt.mpr (sqrt_bits_spec n _ 0 (by simp) hsq)

/-- C6: every relation recorded by `sieve` is sound.  For output vectors with room for
`factor_base.size() + 1` entries and every index `i` the sieve stored at, `smooth_x[i]` is
`isqrt(n) + j` with `j ≥ 1`, `smooth_numbers[i]` is `smooth_x[i]² mod n`, `factor_smooth`
accepts it with parity vector `smooth_factors[i]`, the trial division leaves the
remainder exactly `1`, and `smooth_numbers[i]` is a product of powers of the factor-base
entries. -/
theorem C6_recorded_relations_sound (fuel n : Nat) (factor_base sn sx : List Nat)
    (sf : Matrix) (st : SieveState)
    (hn : factor_base.length < sn.length) (hx : factor_base.length < sx.length)
    (hf : factor_base.length < sf.length)
    (h : sieve fuel sn sx sf n factor_base = .ok st) :
    ∀ i ∈ st.stores, ∃ j x s fs, 1 ≤ j ∧ x = Nat.sqrt n + j ∧
      st.smooth_x[i]? = some x ∧ st.smooth_numbers[i]? = some s ∧ s = x ^ 2 % n ∧
      st.smooth_factors[i]? = some fs ∧
      factor_smooth fuel (List.replicate factor_base.length 0) s factor_base = .ok (fs, true) ∧
      factor_loop fuel 0 factor_base (List.replicate factor_base.length 0) s = .ok (fs, 1) ∧
      ∃ es : List Nat, es.length = factor_base.length ∧
        s = (List.zipWith (· ^ ·) factor_base es).prod := by
  obtain ⟨⟨-, -, -, -, hstores, -, hrel⟩, -⟩ :=
    sieve_records fuel sn sx sf n factor_base st hn hx hf h
  intro i hi
  rw [hstores] at hi
  have hlt : i < st.smooth_count := by simpa using hi
  obtain ⟨j, x, s, fs, h1, h2, h3, h4, h5, h6, h7⟩ := hrel i hlt
  rw [mpz_sqrt_eq] at h2
  refine ⟨j, x, s, fs, h1, h2, h4, h5, h3, h6, by simp [factor_smooth, h7], h7, ?_⟩
  obtain ⟨es, hlen, hes⟩ := factor_loop_mul fuel factor_base 0 _ s _ h7
  exact ⟨es, hlen, by simpa using hes⟩

theorem sieve_7 :
    sieve 8 [0, 0, 0] [0, 0, 0] [[0], [0], [0]] 7 [2, 3] =
      .ok { smooth_numbers := [2, 2, 4], smooth_x := [3, 4, 5],
            smooth_factors := [[1, 0], [1, 0], [0, 0]], smooth_count := 3,
            not_done := false, stores := [2, 1, 0] } := by
  decide

theorem C6_witness :
    [2, 3].length < [0, 0, 0].length ∧
    sieve 8 [0, 0, 0] [0, 0, 0] [[0], [0], [0]] 7 [2, 3] =
      .ok { smooth_numbers := [2, 2, 4], smooth_x := [3, 4, 5],
            smooth_factors := [[1, 0], [1, 0], [0, 0]], smooth_count := 3,
            not_done := false, stores := [2, 1, 0] } ∧
    ∀ i ∈ [2, 1, 0], ∃ j x s fs, 1 ≤ j ∧ x = Nat.sqrt 7 + j ∧
      [3, 4, 5][i]? = some x ∧ [2, 2, 4][i]? = some s ∧ s = x ^ 2 % 7 ∧
      [[1, 0], [1, 0], [0, 0]][i]? = some fs ∧
      factor_smooth 8 (List.replicate [2, 3].length 0) s [2, 3] = .ok (fs, true) ∧
      factor_loop 8 0 [2, 3] (List.replicate [2, 3].length 0) s = .ok (fs, 1) ∧
      ∃ es : List Nat, es.length = [2, 3].length ∧
        s = (List.zipWith (· ^ ·) [2, 3] es).prod :=
  ⟨by decide, sieve_7,
    C6_recorded_relations_sound 8 7 [2, 3] [0, 0, 0] [0, 0, 0] [[0], [0], [0]] _
      (by decide) (by decide) (by decide) sieve_7⟩

/-- C8: with the three output vectors preallocated to `factor_base.size() + 1` entries,
whenever `sieve` returns it has stored at exactly the indices `0, ..., k` (`k` the size of
the factor base), once each and in this order, so every store index is at most `k` and
inside the vectors; the vectors keep their length, and every slot `0..k` holds an accepted
relation whose parity vector has length `k`. -/
theorem C8_sieve_fills_all_slots (fuel n : Nat) (factor_base sn sx : List Nat)
    (sf : Matrix) (st : SieveState)
    (hn : sn.length = factor_base.length + 1) (hx : sx.length = factor_base.length + 1)
    (hf : sf.length = factor_base.length + 1)
    (h : sieve fuel sn sx sf n factor_base = .ok st) :
    st.smooth_count = factor_base.length + 1 ∧
      st.stores = (List.range (factor_base.length + 1)).reverse ∧
      (∀ i ∈ st.stores, i ≤ factor_base.length ∧ i < st.smooth_x.length ∧
        i < st.smooth_numbers.length ∧ i < st.smooth_factors.length) ∧
      st.smooth_x.length = factor_base.length + 1 ∧
      st.smooth_numbers.length = factor_base.length + 1 ∧
      st.smooth_factors.length = factor_base.length + 1 ∧
      ∀ i, i ≤ factor_base.length → ∃ x s fs, st.smooth_x[i]? = some x ∧
        st.smooth_numbers[i]? = some s ∧ st.smooth_factors[i]? = some fs ∧
        fs.length = factor_base.length ∧
        factor_smooth fuel (List.replicate factor_base.length 0) s factor_base =
          .ok (fs, true) := by
  obtain ⟨⟨h1, h2, h3, -, hstores, hdone, hrel⟩, hnd⟩ :=
    sieve_records fuel sn sx sf n factor_base st (by omega) (by omega) (by omega) h
  have hcount := hdone hnd
  rw [hcount] at hstores
  refine ⟨hcount, hstores, ?_, by omega, by omega, by omega, ?_⟩
  · intro i hi
    rw [hstores] at hi
    have : i < factor_base.length + 1 := by simpa using hi
    omega
  · intro i hi
    obtain ⟨j, x, s, fs, -, -, -, h4, h5, h6, h7⟩ := hrel i (by omega)
    refine ⟨x, s, fs, h4, h5, h6, ?_, by simp [factor_smooth, h7]⟩
    have := factor_loop_length fuel factor_base 0 _ s _ h7
    simpa using this

theorem sieve_7_single :
    sieve 5 [0, 0] [0, 0] [[0], [0]] 7 [2] =
      .ok { smooth_numbers := [2, 2], smooth_x := [3, 4], smooth_factors := [[1], [1]],
            smooth_count := 2, not_done := false, stores := [1, 0] } := by
  decide

theorem C8_witness :
    [0, 0].length = [2].length + 1 ∧ [[0], [0]].length = [2].length + 1 ∧
    sieve 5 [0, 0] [0, 0] [[0], [0]] 7 [2] =
      .ok { smooth_numbers := [2, 2], smooth_x := [3, 4], smooth_factors := [[1], [1]],
            smooth_count := 2, not_done := false, stores := [1, 0] } ∧
    (2 = [2].length + 1 ∧
      [1, 0] = (List.range ([2].length + 1)).reverse ∧
      (∀ i ∈ [1, 0], i ≤ [2].length ∧ i < [3, 4].length ∧
        i < [2, 2].length ∧ i < [[1], [1]].length) ∧
      [3, 4].length = [2].length + 1 ∧
      [2, 2].length = [2].length + 1 ∧
      [[1], [1]].length = [2].length + 1 ∧
      ∀ i, i ≤ [2].length → ∃ x s fs, [3, 4][i]? = some x ∧
        [2, 2][i]? = some s ∧ [[1], [1]][i]? = some fs ∧
        fs.length = [2].length ∧
        factor_smooth 5 (List.replicate [2].length 0) s [2] = .ok (fs, true)) :=
  ⟨by decide, by decide, sieve_7_single,
    C8_sieve_fills_all_slots 5 7 [2] [0, 0] [0, 0] [[0], [0]] _ (by decide) (by decide)
      (by decide) sieve_7_single⟩

/-! ## `gaussian_elimination`: partial correctness -/

/-! ## Matrices: rows, entries and row operations -/

theorem rd_ok_iff {α : Type} (v : List α) (i : Nat) (a : α) :
    rd v i = .ok a ↔ v[i]? = some a := by
  unfold rd
  rw [List.get?_eq_getElem?]
  cases h : v[i]? with
  | none => simp
  | some b => simp

theorem rd2_ok (A : Matrix) (i j : Nat) (a : Nat) (h : rd2 A i j = .ok a) :
    i < A.length ∧ j < (rowAt A i).length ∧ entry A i j = a := by
  unfold rd2 at h
  cases hr : rd A i with
  | error e => simp [hr] at h
  | ok row =>
    simp only [hr] at h
    have h1 := (rd_ok_iff A i row).mp hr
    have h2 := (rd_ok_iff row j a).mp h
    obtain ⟨hi, hrow⟩ := List.getElem?_eq_some_iff.mp h1
    obtain ⟨hj, ha⟩ := List.getElem?_eq_some_iff.mp h2
    have hrow' : rowAt A i = row := by
      simp [rowAt, List.getD_eq_getElem?_getD, h1]
    refine ⟨hi, by rw [hrow']; exact hj, ?_⟩
    simp [entry, hrow', List.getD_eq_getElem?_getD, h2]

theorem rd2_of_rect (Ai Aj : Nat) (A : Matrix) (hA : Rect Ai Aj A) (i j : Nat) (hi : i < Ai)
    (hj : j < Aj) : rd2 A i j = .ok (entry A i j) := by
  obtain ⟨hlen, hrows⟩ := hA
  have hi' : i < A.length := by omega
  have h1 : A[i]? = some A[i] := List.getElem?_eq_getElem hi'
  have hrow : rowAt A i = A[i] := by
    simp [rowAt, List.getD_eq_getElem?_getD, h1]
  have hj' : j < (A[i]).length := by
    have := hrows i hi
    rw [hrow] at this
    omega
  have h2 : (A[i])[j]? = some (A[i])[j] := List.getElem?_eq_getElem hj'
  unfold rd2
  rw [(rd_ok_iff A i _).mpr h1]
  simp only
  rw [(rd_ok_iff _ j _).mpr h2]
  simp [entry, hrow, List.getD_eq_getElem?_getD, h2]

theorem rowAt_set (A : Matrix) (i : Nat) (x : List Nat) (r : Nat) :
    rowAt (A.set i x) r = if r = i ∧ i < A.length then x else rowAt A r := by
  simp only [rowAt, List.getD_eq_getElem?_getD, List.getElem?_set]
  by_cases h : i = r
  · subst h
    by_cases hl : i < A.length
    · simp [hl]
    · simp [hl]
      rw [List.getElem?_eq_none (by omega)]
      rfl
  · have h' : ¬ r = i := fun e => h e.symm
    simp [h, h']

theorem rowAt_length_of_ge (A : Matrix) (r : Nat) (h : A.length ≤ r) : rowAt A r = [] := by
  simp [rowAt, List.getD_eq_getElem?_getD, List.getElem?_eq_none h]

theorem rowAt_xor_row (A : Matrix) (i k r : Nat) :
    rowAt (xor_row A i k) r =
      if r = i ∧ i < A.length then List.zipWith (· ^^^ ·) (rowAt A i) (rowAt A k)
      else rowAt A r := by
  unfold xor_row
  rw [rowAt_set]
  rfl

theorem rowAt_swap_rows (A : Matrix) (l k r : Nat) (hl : l < A.length) (hk : k < A.length) :
    rowAt (swap_rows A l k) r =
      if r = k then rowAt A l else if r = l then rowAt A k else rowAt A r := by
  unfold swap_rows
  rw [rowAt_set, rowAt_set]
  simp only [List.length_set]
  by_cases h1 : r = k
  · simp [h1, hk, rowAt]
  · by_cases h2 : r = l
    · subst h2
      simp [h1, hl, hk, rowAt]
    · simp [h1, h2]

theorem entry_xor_row (Ai Aj : Nat) (A : Matrix) (hA : Rect Ai Aj A) (i k : Nat) (hi : i < Ai)
    (hk : k < Ai) (r c : Nat) :
    entry (xor_row A i k) r c =
      if r = i then entry A i c ^^^ entry A k c else entry A r c := by
  unfold entry
  rw [rowAt_xor_row]
  by_cases h : r = i
  · have hi' : i < A.length := by rw [hA.1]; exact hi
    simp only [h, hi', and_self, if_true]
    have h1 := hA.2 i hi
    have h2 := hA.2 k hk
    simp only [List.getD_eq_getElem?_getD, List.getElem?_zipWith]
    by_cases hc : c < Aj
    · rw [List.getElem?_eq_getElem (by omega), List.getElem?_eq_getElem (by omega)]
      simp
    · rw [List.getElem?_eq_none (by omega), List.getElem?_eq_none (by omega)]
      simp
  · simp [h]

theorem rect_xor_row (Ai Aj : Nat) (A : Matrix) (hA : Rect Ai Aj A) (i k : Nat) (hi : i < Ai)
    (hk : k < Ai) : Rect Ai Aj (xor_row A i k) := by
  refine ⟨by simp [xor_row, hA.1], ?_⟩
  intro r hr
  rw [rowAt_xor_row]
  by_cases h : r = i ∧ i < A.length
  · rw [if_pos h, List.length_zipWith, hA.2 i hi, hA.2 k hk]
    simp
  · rw [if_neg h]
    exact hA.2 r hr

theorem rect_swap_rows (Ai Aj : Nat) (A : Matrix) (hA : Rect Ai Aj A) (l k : Nat) (hl : l < Ai)
    (hk : k < Ai) : Rect Ai Aj (swap_rows A l k) := by
  refine ⟨by simp [swap_rows, hA.1], ?_⟩
  intro r hr
  rw [rowAt_swap_rows A l k r (by rw [hA.1]; exact hl) (by rw [hA.1]; exact hk)]
  split
  · exact hA.2 l hl
  · split
    · exact hA.2 k hk
    · exact hA.2 r hr

theorem entry_swap_rows (Ai Aj : Nat) (A : Matrix) (hA : Rect Ai Aj A) (l k : Nat)
    (hl : l < Ai) (hk : k < Ai) (r c : Nat) :
    entry (swap_rows A l k) r c =
      if r = k then entry A l c else if r = l then entry A k c else entry A r c := by
  unfold entry
  rw [rowAt_swap_rows A l k r (by rw [hA.1]; exact hl) (by rw [hA.1]; exact hk)]
  split
  · rfl
  · split <;> rfl

theorem xor_lt_two (a b : Nat) (ha : a < 2) (hb : b < 2) : a ^^^ b < 2 := by
  interval_cases a <;> interval_cases b <;> decide

theorem bits_xor_row (Ai Aj : Nat) (A : Matrix) (hA : Rect Ai Aj A) (hB : Bits A) (i k : Nat)
    (hi : i < Ai) (hk : k < Ai) : Bits (xor_row A i k) := by
  intro r c
  rw [entry_xor_row Ai Aj A hA i k hi hk]
  split
  · exact xor_lt_two _ _ (hB i c) (hB k c)
  · exact hB r c

theorem bits_swap_rows (Ai Aj : Nat) (A : Matrix) (hA : Rect Ai Aj A) (hB : Bits A) (l k : Nat)
    (hl : l < Ai) (hk : k < Ai) : Bits (swap_rows A l k) := by
  intro r c
  rw [entry_swap_rows Ai Aj A hA l k hl hk]
  split
  · exact hB l c
  · split
    · exact hB k c
    · exact hB r c
/-! ## Sums modulo 2 along a row -/

theorem dot_zipWith_xor (r1 : List Nat) :
    ∀ (r2 v : List Nat), r1.length = r2.length →
      dot (List.zipWith (· ^^^ ·) r1 r2) v = dot r1 v ^^^ dot r2 v := by
  induction r1 with
  | nil =>
    intro r2 v h
    cases r2 with
    | nil => simp [dot]
    | cons b r2 => simp at h
  | cons a r1 ih =>
    intro r2 v h
    cases r2 with
    | nil => simp at h
    | cons b r2 =>
      cases v with
      | nil => simp [dot]
      | cons c v =>
        simp only [List.length_cons, Nat.add_right_cancel_iff] at h
        simp only [List.zipWith_cons_cons, dot, ih r2 v h]
        by_cases hc : c = 0
        · simp [hc]
        · simp only [if_neg hc]
          rw [Nat.xor_assoc, Nat.xor_assoc, ← Nat.xor_assoc (dot r1 v) b,
            Nat.xor_comm (dot r1 v) b, Nat.xor_assoc]

theorem xor_eq_zero_cancel (a b : Nat) (h : a ^^^ b = 0) (hb : b = 0) : a = 0 := by
  subst hb
  simpa using h

/-- Undoing `row_r ^= row_k`: a vector that annihilates the new rows annihilates the old
ones. -/
theorem annihilates_of_rows (Ai Aj : Nat) (A A' : Matrix) (hA : Rect Ai Aj A) (k : Nat)
    (hk : k < Ai) (S : Nat → Prop) [DecidablePred S] (hS : ¬ S k) (hSlt : ∀ r, S r → r < Ai)
    (hrows : ∀ r, rowAt A' r =
      if S r ∧ entry A r k ≠ 0 then List.zipWith (· ^^^ ·) (rowAt A r) (rowAt A k)
      else rowAt A r)
    (v : List Nat) (h : Annihilates v A') : Annihilates v A := by
  have hk' : dot (rowAt A k) v = 0 := by
    have := h k
    rw [hrows k, if_neg (fun hc => hS hc.1)] at this
    exact this
  intro r
  have hr := h r
  rw [hrows r] at hr
  by_cases hc : S r ∧ entry A r k ≠ 0
  · rw [if_pos hc, dot_zipWith_xor _ _ _ (by rw [hA.2 r (hSlt r hc.1), hA.2 k hk])] at hr
    exact xor_eq_zero_cancel _ _ hr hk'
  · rw [if_neg hc] at hr
    exact hr

theorem rect_of_rows (Ai Aj : Nat) (A A' : Matrix) (hA : Rect Ai Aj A) (hlen : A'.length = Ai)
    (k : Nat) (hk : k < Ai) (S : Nat → Prop) [DecidablePred S]
    (hrows : ∀ r, rowAt A' r =
      if S r ∧ entry A r k ≠ 0 then List.zipWith (· ^^^ ·) (rowAt A r) (rowAt A k)
      else rowAt A r) : Rect Ai Aj A' := by
  refine ⟨hlen, ?_⟩
  intro r hr
  rw [hrows r]
  split
  · rw [List.length_zipWith, hA.2 r hr, hA.2 k hk]
    simp
  · exact hA.2 r hr

theorem entry_of_rows (Ai Aj : Nat) (A A' : Matrix) (hA : Rect Ai Aj A)
    (k : Nat) (hk : k < Ai) (S : Nat → Prop) [DecidablePred S] (hSlt : ∀ r, S r → r < Ai)
    (hrows : ∀ r, rowAt A' r =
      if S r ∧ entry A r k ≠ 0 then List.zipWith (· ^^^ ·) (rowAt A r) (rowAt A k)
      else rowAt A r) (r c : Nat) :
    entry A' r c = if S r ∧ entry A r k ≠ 0 then entry A r c ^^^ entry A k c
      else entry A r c := by
  unfold entry at *
  rw [hrows r]
  by_cases hc : S r ∧ (rowAt A r).getD k 0 ≠ 0
  · simp only [if_pos hc]
    have h1 := hA.2 r (hSlt r hc.1)
    have h2 := hA.2 k hk
    simp only [List.getD_eq_getElem?_getD, List.getElem?_zipWith]
    by_cases hcc : c < Aj
    · rw [List.getElem?_eq_getElem (by omega), List.getElem?_eq_getElem (by omega)]
      simp
    · rw [List.getElem?_eq_none (by omega), List.getElem?_eq_none (by omega)]
      simp
  · simp only [if_neg hc]

theorem bits_of_rows (Ai Aj : Nat) (A A' : Matrix) (hA : Rect Ai Aj A) (hB : Bits A)
    (k : Nat) (hk : k < Ai) (S : Nat → Prop) [DecidablePred S] (hSlt : ∀ r, S r → r < Ai)
    (hrows : ∀ r, rowAt A' r =
      if S r ∧ entry A r k ≠ 0 then List.zipWith (· ^^^ ·) (rowAt A r) (rowAt A k)
      else rowAt A r) : Bits A' := by
  intro r c
  rw [entry_of_rows Ai Aj A A' hA k hk S hSlt hrows]
  split
  · exact xor_lt_two _ _ (hB r c) (hB k c)
  · exact hB r c

/-! ## The two row-clearing loops in closed form -/

theorem eliminate_below_rows (Ai Aj k : Nat) (c : Nat) :
    ∀ (i : Nat) (A A' : Matrix), Rect Ai Aj A → k < i → i + c = Ai →
      eliminate_below k c i A = .ok A' →
      A'.length = Ai ∧ ∀ r, rowAt A' r =
        if (i ≤ r ∧ r < Ai) ∧ entry A r k ≠ 0 then
          List.zipWith (· ^^^ ·) (rowAt A r) (rowAt A k)
        else rowAt A r := by
  induction c with
  | zero =>
    intro i A A' hA _ hic h
    simp only [eliminate_below, Except.ok.injEq] at h
    subst h
    refine ⟨hA.1, fun r => ?_⟩
    rw [if_neg]
    omega
  | succ c ih =>
    intro i A A' hA hki hic h
    unfold eliminate_below at h
    cases hr : rd2 A i k with
    | error e => simp [hr] at h
    | ok a =>
      simp only [hr] at h
      obtain ⟨-, -, ha⟩ := rd2_ok A i k a hr
      have hi : i < Ai := by omega
      have hk : k < Ai := by omega
      have hA1 : Rect Ai Aj (if a ≠ 0 then xor_row A i k else A) := by
        split
        · exact rect_xor_row Ai Aj A hA i k hi hk
        · exact hA
      obtain ⟨hlen, hrows⟩ := ih (i + 1) _ A' hA1 (by omega) (by omega) h
      refine ⟨hlen, fun r => ?_⟩
      rw [hrows r]
      have hrow : ∀ r', r' ≠ i → rowAt (if a ≠ 0 then xor_row A i k else A) r' = rowAt A r' := by
        intro r' hr'
        split
        · rw [rowAt_xor_row, if_neg (fun hc => hr' hc.1)]
        · rfl
      have hent : ∀ r', r' ≠ i →
          entry (if a ≠ 0 then xor_row A i k else A) r' k = entry A r' k := by
        intro r' hr'
        unfold entry
        rw [hrow r' hr']
      by_cases hri : r = i
      · subst hri
        rw [if_neg (by omega)]
        by_cases ha0 : a ≠ 0
        · rw [if_pos ha0, rowAt_xor_row, if_pos ⟨rfl, by rw [hA.1]; exact hi⟩,
            if_pos ⟨⟨le_refl _, hi⟩, by rw [ha]; exact ha0⟩]
        · rw [if_neg ha0, if_neg (fun hc => ha0 (by rw [← ha]; exact hc.2))]
      · rw [hrow r hri, hrow k (by omega), hent r hri]
        by_cases hc : (i + 1 ≤ r ∧ r < Ai) ∧ entry A r k ≠ 0
        · rw [if_pos hc, if_pos ⟨⟨by omega, hc.1.2⟩, hc.2⟩]
        · rw [if_neg hc, if_neg]
          intro hc'
          exact hc ⟨⟨by omega, hc'.1.2⟩, hc'.2⟩

theorem clear_above_rows (Ai Aj k : Nat) (hk : k < Ai) (cnt : Nat) :
    ∀ (A A' : Matrix), Rect Ai Aj A → cnt ≤ k →
      clear_above k cnt A = .ok A' →
      A'.length = Ai ∧ ∀ r, rowAt A' r =
        if r < cnt ∧ entry A r k ≠ 0 then
          List.zipWith (· ^^^ ·) (rowAt A r) (rowAt A k)
        else rowAt A r := by
  induction cnt with
  | zero =>
    intro A A' hA _ h
    simp only [clear_above, Except.ok.injEq] at h
    subst h
    refine ⟨hA.1, fun r => ?_⟩
    rw [if_neg]
    omega
  | succ i ih =>
    intro A A' hA hik h
    unfold clear_above at h
    cases hr : rd2 A i k with
    | error e => simp [hr] at h
    | ok a =>
      simp only [hr] at h
      obtain ⟨-, -, ha⟩ := rd2_ok A i k a hr
      have hi : i < Ai := by omega
      have hA1 : Rect Ai Aj (if a ≠ 0 then xor_row A i k else A) := by
        split
        · exact rect_xor_row Ai Aj A hA i k hi hk
        · exact hA
      obtain ⟨hlen, hrows⟩ := ih _ A' hA1 (by omega) h
      refine ⟨hlen, fun r => ?_⟩
      rw [hrows r]
      have hrow : ∀ r', r' ≠ i → rowAt (if a ≠ 0 then xor_row A i k else A) r' = rowAt A r' := by
        intro r' hr'
        split
        · rw [rowAt_xor_row, if_neg (fun hc => hr' hc.1)]
        · rfl
      have hent : ∀ r', r' ≠ i →
          entry (if a ≠ 0 then xor_row A i k else A) r' k = entry A r' k := by
        intro r' hr'
        unfold entry
        rw [hrow r' hr']
      by_cases hri : r = i
      · subst hri
        rw [if_neg (by omega)]
        by_cases ha0 : a ≠ 0
        · rw [if_pos ha0, rowAt_xor_row, if_pos ⟨rfl, by rw [hA.1]; exact hi⟩,
            if_pos ⟨by omega, by rw [ha]; exact ha0⟩]
        · rw [if_neg ha0, if_neg (fun hc => ha0 (by rw [← ha]; exact hc.2))]
      · rw [hrow r hri, hrow k (by omega), hent r hri]
        by_cases hc : r < i ∧ entry A r k ≠ 0
        · rw [if_pos hc, if_pos ⟨by omega, hc.2⟩]
        · rw [if_neg hc, if_neg]
          intro hc'
          exact hc ⟨by omega, hc'.2⟩
/-! ## Forward elimination -/

theorem entry_of_ge (A : Matrix) (r c : Nat) (h : A.length ≤ r) : entry A r c = 0 := by
  simp [entry, rowAt_length_of_ge A r h]

theorem eq_zero_of_bit_ne_one (a : Nat) (h2 : a < 2) (h1 : a ≠ 1) : a = 0 := by omega

theorem eq_one_of_bit_ne_zero (a : Nat) (h2 : a < 2) (h0 : a ≠ 0) : a = 1 := by omega

theorem find_pivot_spec (Ai Aj k : Nat) (c : Nat) :
    ∀ (l : Nat) (A A' : Matrix), Rect Ai Aj A → l + c = Ai → find_pivot k c l A = .ok A' →
      (A' = A ∧ ∀ r, l ≤ r → r < Ai → entry A r k ≠ 1) ∨
        ∃ p, l ≤ p ∧ p < Ai ∧ entry A p k = 1 ∧ A' = swap_rows A p k := by
  induction c with
  | zero =>
    intro l A A' _ hl h
    simp only [find_pivot, Except.ok.injEq] at h
    left
    exact ⟨h.symm, fun r h1 h2 => by omega⟩
  | succ c ih =>
    intro l A A' hA hl h
    unfold find_pivot at h
    cases hr : rd2 A l k with
    | error e => simp [hr] at h
    | ok a =>
      simp only [hr] at h
      obtain ⟨-, -, ha⟩ := rd2_ok A l k a hr
      by_cases ha1 : a = 1
      · simp only [if_pos ha1, Except.ok.injEq] at h
        right
        exact ⟨l, le_refl l, by omega, by rw [ha, ha1], h.symm⟩
      · simp only [if_neg ha1] at h
        rcases ih (l + 1) A A' hA (by omega) h with ⟨hAA, hall⟩ | ⟨p, hp1, hp2, hp3, hp4⟩
        · left
          refine ⟨hAA, fun r h1 h2 => ?_⟩
          by_cases hrl : r = l
          · subst hrl
            rw [ha]
            exact ha1
          · exact hall r (by omega) h2
        · right
          exact ⟨p, by omega, hp2, hp3, hp4⟩

theorem annihilates_of_swap (A : Matrix) (l k : Nat) (hl : l < A.length) (hk : k < A.length)
    (v : List Nat) (h : Annihilates v (swap_rows A l k)) : Annihilates v A := by
  intro r
  by_cases h1 : r = k
  · have := h l
    rw [rowAt_swap_rows A l k l hl hk] at this
    subst h1
    by_cases hlr : l = r
    · subst hlr
      simpa using this
    · simpa [hlr] using this
  · by_cases h2 : r = l
    · have := h k
      rw [rowAt_swap_rows A l k k hl hk] at this
      subst h2
      simpa using this
    · have := h r
      rw [rowAt_swap_rows A l k r hl hk] at this
      simpa [h1, h2] using this

/-- One round of the outer loop of the forward elimination. -/
theorem forward_step (Ai Aj kk : Nat) (A A1 A2 : Matrix) (d : Nat) (hA : Rect Ai Aj A)
    (hB : Bits A) (hkk : kk < Ai) (hL : LowerZero A kk)
    (hd : rd2 A kk kk = .ok d)
    (h1 : (if d = 0 then find_pivot kk (Ai - kk) kk A else .ok A) = .ok A1)
    (h2 : eliminate_below kk (Ai - (kk + 1)) (kk + 1) A1 = .ok A2) :
    Rect Ai Aj A2 ∧ Bits A2 ∧ LowerZero A2 (kk + 1) ∧
      ∀ v, Annihilates v A2 → Annihilates v A := by
  obtain ⟨-, -, hde⟩ := rd2_ok A kk kk d hd
  -- the matrix after the pivot search
  have hA1 : Rect Ai Aj A1 ∧ Bits A1 ∧ LowerZero A1 kk ∧
      (∀ v, Annihilates v A1 → Annihilates v A) ∧
      (entry A1 kk kk = 1 ∨ ∀ r, kk ≤ r → entry A1 r kk = 0) := by
    by_cases hd0 : d = 0
    · rw [if_pos hd0] at h1
      rcases find_pivot_spec Ai Aj kk (Ai - kk) kk A A1 hA (by omega) h1 with
        ⟨hAA, hall⟩ | ⟨p, hp1, hp2, hp3, hp4⟩
      · subst hAA
        refine ⟨hA, hB, hL, fun v h => h, Or.inr ?_⟩
        intro r hr
        by_cases hrA : r < Ai
        · exact eq_zero_of_bit_ne_one _ (hB r kk) (hall r hr hrA)
        · exact entry_of_ge _ r kk (by rw [hA.1]; omega)
      · subst hp4
        refine ⟨rect_swap_rows Ai Aj A hA p kk hp2 hkk, bits_swap_rows Ai Aj A hA hB p kk hp2 hkk,
          ?_, fun v h => annihilates_of_swap A p kk (by rw [hA.1]; exact hp2)
            (by rw [hA.1]; exact hkk) v h, Or.inl ?_⟩
        · intro c hc r hr
          rw [entry_swap_rows Ai Aj A hA p kk hp2 hkk]
          split
          · exact hL c hc p (by omega)
          · split
            · exact hL c hc kk (by omega)
            · exact hL c hc r hr
        · rw [entry_swap_rows Ai Aj A hA p kk hp2 hkk, if_pos rfl]
          exact hp3
    · rw [if_neg hd0] at h1
      have := Except.ok.inj h1
      subst this
      refine ⟨hA, hB, hL, fun v h => h, Or.inl ?_⟩
      rw [hde]
      exact eq_one_of_bit_ne_zero d (by rw [← hde]; exact hB kk kk) hd0
  obtain ⟨hR1, hB1, hL1, hAnn1, hpiv⟩ := hA1
  obtain ⟨hlen, hrows⟩ :=
    eliminate_below_rows Ai Aj kk (Ai - (kk + 1)) (kk + 1) A1 A2 hR1 (by omega) (by omega) h2
  have hSlt : ∀ r, (kk + 1 ≤ r ∧ r < Ai) → r < Ai := fun r h => h.2
  have hent := entry_of_rows Ai Aj A1 A2 hR1 kk hkk (fun r => kk + 1 ≤ r ∧ r < Ai) hSlt hrows
  refine ⟨rect_of_rows Ai Aj A1 A2 hR1 hlen kk hkk (fun r => kk + 1 ≤ r ∧ r < Ai) hrows,
    bits_of_rows Ai Aj A1 A2 hR1 hB1 kk hkk (fun r => kk + 1 ≤ r ∧ r < Ai) hSlt hrows, ?_, ?_⟩
  · intro c hc r hr
    rw [hent r c]
    by_cases hck : c < kk
    · have e1 : entry A1 r c = 0 := hL1 c hck r hr
      have e2 : entry A1 kk c = 0 := hL1 c hck kk hck
      rw [e1, e2]
      simp
    · have hck' : c = kk := by omega
      subst hck'
      by_cases hcond : (c + 1 ≤ r ∧ r < Ai) ∧ entry A1 r c ≠ 0
      · rw [if_pos hcond]
        rcases hpiv with hp | hp
        · rw [hp, eq_one_of_bit_ne_zero _ (hB1 r c) hcond.2]
          rfl
        · exact absurd (hp r (by omega)) hcond.2
      · rw [if_neg hcond]
        by_cases hrA : r < Ai
        · by_contra hne
          exact hcond ⟨⟨by omega, hrA⟩, hne⟩
        · exact entry_of_ge _ r c (by rw [hR1.1]; omega)
  · intro v h
    apply hAnn1 v
    exact annihilates_of_rows Ai Aj A1 A2 hR1 kk hkk (fun r => kk + 1 ≤ r ∧ r < Ai)
      (by simp) hSlt hrows v h

theorem forward_spec (Ai Aj : Nat) (c : Nat) :
    ∀ (k : Nat) (A A' : Matrix), Rect Ai Aj A → Bits A → LowerZero A k → k + c = Ai →
      forward Ai c k A = .ok A' →
      Rect Ai Aj A' ∧ Bits A' ∧ LowerZero A' Ai ∧ ∀ v, Annihilates v A' → Annihilates v A := by
  induction c with
  | zero =>
    intro k A A' hA hB hL hk h
    simp only [forward, Except.ok.injEq] at h
    subst h
    have : k = Ai := by omega
    subst this
    exact ⟨hA, hB, hL, fun v h => h⟩
  | succ c ih =>
    intro k A A' hA hB hL hk h
    unfold forward at h
    cases hd : rd2 A k k with
    | error e => simp [hd] at h
    | ok d =>
      simp only [hd] at h
      cases h1 : (if d = 0 then find_pivot k (Ai - k) k A else Except.ok A) with
      | error e => simp [h1] at h
      | ok A1 =>
        simp only [h1] at h
        cases h2 : eliminate_below k (Ai - (k + 1)) (k + 1) A1 with
        | error e => simp [h2] at h
        | ok A2 =>
          simp only [h2] at h
          obtain ⟨hR2, hB2, hL2, hAnn2⟩ :=
            forward_step Ai Aj k A A1 A2 d hA hB (by omega) hL hd h1 h2
          obtain ⟨hR', hB', hL', hAnn'⟩ := ih (k + 1) A2 A' hR2 hB2 hL2 (by omega) h
          exact ⟨hR', hB', hL', fun v hv => hAnn2 v (hAnn' v hv)⟩
/-! ## Diagonal scan and back substitution -/

theorem diagonal_scan_spec (A : Matrix) (c : Nat) :
    ∀ (f0 f : Nat), diagonal_scan A c f0 = .ok f →
      f0 ≤ f ∧ f ≤ f0 + c ∧ (∀ d, f0 ≤ d → d < f → entry A d d = 1) ∧
        (f < f0 + c → f < A.length ∧ entry A f f ≠ 1) := by
  induction c with
  | zero =>
    intro f0 f h
    simp only [diagonal_scan, Except.ok.injEq] at h
    subst h
    exact ⟨le_refl _, le_refl _, fun d h1 h2 => by omega, fun h => by omega⟩
  | succ c ih =>
    intro f0 f h
    unfold diagonal_scan at h
    cases hr : rd2 A f0 f0 with
    | error e => simp [hr] at h
    | ok a =>
      simp only [hr] at h
      obtain ⟨hlt, -, ha⟩ := rd2_ok A f0 f0 a hr
      by_cases ha1 : a ≠ 1
      · simp only [if_pos ha1, Except.ok.injEq] at h
        subst h
        exact ⟨le_refl _, by omega, fun d h1 h2 => by omega,
          fun _ => ⟨hlt, by rw [ha]; exact ha1⟩⟩
      · simp only [if_neg ha1] at h
        obtain ⟨h1, h2, h3, h4⟩ := ih (f0 + 1) f h
        refine ⟨by omega, by omega, ?_, fun hf => h4 (by omega)⟩
        intro d hd1 hd2
        by_cases hdf : d = f0
        · subst hdf
          rw [ha]
          exact not_not.mp ha1
        · exact h3 d (by omega) hd2

/-- State of the matrix during back substitution, with the columns `kk, ..., f - 1`
already cleared above the diagonal. -/
theorem back_substitution_spec (Ai Aj f : Nat) (hf : f ≤ Ai) (kk : Nat) :
    ∀ (A A' : Matrix), Rect Ai Aj A → Bits A → LowerZero A Ai → kk ≤ f →
      (∀ c, c < f → entry A c c = 1) →
      (∀ c, kk ≤ c → c < f → ∀ r, r < c → entry A r c = 0) →
      (∀ r, f ≤ r → entry A r f = 0) →
      back_substitution kk A = .ok A' →
      Rect Ai Aj A' ∧ Bits A' ∧ (∀ c, c < f → ∀ r, entry A' r c = if r = c then 1 else 0) ∧
        (∀ r, f ≤ r → entry A' r f = 0) ∧ ∀ v, Annihilates v A' → Annihilates v A := by
  induction kk with
  | zero =>
    intro A A' hA hB hU _ hD hC hF h
    simp only [back_substitution, Except.ok.injEq] at h
    subst h
    refine ⟨hA, hB, ?_, hF, fun v h => h⟩
    intro c hc r
    by_cases hrc : r = c
    · subst hrc
      simp [hD r hc]
    · rw [if_neg hrc]
      by_cases hlt : r < c
      · exact hC c (Nat.zero_le c) hc r hlt
      · exact hU c (by omega) r (by omega)
  | succ k0 ih =>
    intro A A' hA hB hU hkf hD hC hF h
    unfold back_substitution at h
    cases h1 : clear_above k0 k0 A with
    | error e => simp [h1] at h
    | ok A1 =>
      simp only [h1] at h
      have hk0 : k0 < Ai := by omega
      obtain ⟨hlen, hrows⟩ := clear_above_rows Ai Aj k0 hk0 k0 A A1 hA (le_refl _) h1
      have hSlt : ∀ r, r < k0 → r < Ai := fun r h => by omega
      have hent := entry_of_rows Ai Aj A A1 hA k0 hk0 (fun r => r < k0) hSlt hrows
      have hR1 := rect_of_rows Ai Aj A A1 hA hlen k0 hk0 (fun r => r < k0) hrows
      have hB1 := bits_of_rows Ai Aj A A1 hA hB k0 hk0 (fun r => r < k0) hSlt hrows
      have hAnn1 : ∀ v, Annihilates v A1 → Annihilates v A := fun v hv =>
        annihilates_of_rows Ai Aj A A1 hA k0 hk0 (fun r => r < k0) (by simp) hSlt hrows v hv
      have hU1 : LowerZero A1 Ai := by
        intro c hc r hr
        rw [hent r c]
        by_cases hcond : r < k0 ∧ entry A r k0 ≠ 0
        · rw [if_pos hcond, hU c hc r hr, hU c hc k0 (by omega)]
          rfl
        · rw [if_neg hcond]
          exact hU c hc r hr
      have hD1 : ∀ c, c < f → entry A1 c c = 1 := by
        intro c hc
        rw [hent c c]
        by_cases hcond : c < k0 ∧ entry A c k0 ≠ 0
        · rw [if_pos hcond, hD c hc, hU c (by omega) k0 hcond.1]
          rfl
        · rw [if_neg hcond]
          exact hD c hc
      have hC1 : ∀ c, k0 ≤ c → c < f → ∀ r, r < c → entry A1 r c = 0 := by
        intro c hc1 hc2 r hr
        rw [hent r c]
        by_cases hck : c = k0
        · subst hck
          by_cases hcond : r < c ∧ entry A r c ≠ 0
          · rw [if_pos hcond, hD c hc2, eq_one_of_bit_ne_zero _ (hB r c) hcond.2]
            rfl
          · rw [if_neg hcond]
            by_contra hne
            exact hcond ⟨hr, hne⟩
        · have e1 : entry A r c = 0 := hC c (by omega) hc2 r hr
          have e2 : entry A k0 c = 0 := hC c (by omega) hc2 k0 (by omega)
          rw [e1, e2]
          simp
      have hF1 : ∀ r, f ≤ r → entry A1 r f = 0 := by
        intro r hr
        rw [hent r f, if_neg (by omega)]
        exact hF r hr
      obtain ⟨hR', hB', hI', hF', hAnn'⟩ :=
        ih A1 A' hR1 hB1 hU1 (by omega) hD1 hC1 hF1 h
      exact ⟨hR', hB', hI', hF', fun v hv => hAnn1 v (hAnn' v hv)⟩

/-! ## The null-space vector -/

theorem fill_null_space_spec (A : Matrix) (f : Nat) (cnt : Nat) :
    ∀ (i : Nat) (ns ns' : List Nat), i + cnt = f → fill_null_space A f cnt i ns = .ok ns' →
      ns'.length = ns.length ∧
        ∀ j, ns'.getD j 0 = if i ≤ j ∧ j < f ∧ j < ns.length then entry A j f
          else ns.getD j 0 := by
  induction cnt with
  | zero =>
    intro i ns ns' hi h
    simp only [fill_null_space, Except.ok.injEq] at h
    subst h
    refine ⟨rfl, fun j => ?_⟩
    rw [if_neg (by omega)]
  | succ cnt ih =>
    intro i ns ns' hi h
    unfold fill_null_space at h
    cases hr : rd2 A i f with
    | error e => simp [hr] at h
    | ok a =>
      simp only [hr] at h
      obtain ⟨-, -, ha⟩ := rd2_ok A i f a hr
      obtain ⟨hlen, hget⟩ := ih (i + 1) _ ns' (by omega) h
      rw [List.length_set] at hlen
      refine ⟨hlen, fun j => ?_⟩
      rw [hget j, List.length_set]
      by_cases hji : j = i
      · subst hji
        rw [if_neg (by omega)]
        by_cases hjl : j < ns.length
        · rw [if_pos ⟨le_refl _, by omega, hjl⟩]
          simp [List.getD_eq_getElem?_getD, List.getElem?_set, hjl, ha]
        · rw [if_neg (by omega)]
          simp [List.getD_eq_getElem?_getD, List.getElem?_set, hjl,
            List.getElem?_eq_none (show ns.length ≤ j by omega)]
      · have hset : (ns.set i a).getD j 0 = ns.getD j 0 := by
          simp only [List.getD_eq_getElem?_getD, List.getElem?_set]
          rw [if_neg (fun e => hji e.symm)]
        rw [hset]
        by_cases hc : i + 1 ≤ j ∧ j < f ∧ j < ns.length
        · rw [if_pos hc, if_pos ⟨by omega, hc.2⟩]
        · rw [if_neg hc, if_neg]
          intro hc'
          exact hc ⟨by omega, hc'.2⟩

/-- The contribution of position `j` to `dot row v`. -/
theorem dot_cons (a b : Nat) (row v : List Nat) :
    dot (a :: row) (b :: v) = (if b = 0 then 0 else a) ^^^ dot row v := rfl

theorem dot_eq_zero (row : List Nat) :
    ∀ v : List Nat, (∀ j, v.getD j 0 = 0 ∨ row.getD j 0 = 0) → dot row v = 0 := by
  induction row with
  | nil => intro v _; simp [dot]
  | cons a row ih =>
    intro v h
    cases v with
    | nil => simp [dot]
    | cons b v =>
      rw [dot_cons, ih v (fun j => by simpa using h (j + 1))]
      have h0 := h 0
      simp only [List.getD_cons_zero] at h0
      rcases h0 with h0 | h0
      · simp [h0]
      · simp [h0]

theorem dot_eq_single (row : List Nat) :
    ∀ (v : List Nat) (p : Nat), (∀ j, j ≠ p → v.getD j 0 = 0 ∨ row.getD j 0 = 0) →
      dot row v = if v.getD p 0 = 0 then 0 else row.getD p 0 := by
  induction row with
  | nil => intro v p _; simp [dot]
  | cons a row ih =>
    intro v p h
    cases v with
    | nil => simp [dot]
    | cons b v =>
      rw [dot_cons]
      cases p with
      | zero =>
        rw [dot_eq_zero row v (fun j => by simpa using h (j + 1) (by omega))]
        simp
      | succ p =>
        rw [ih v p (fun j hj => by simpa using h (j + 1) (by omega))]
        have h0 := h 0 (by omega)
        simp only [List.getD_cons_zero] at h0
        rcases h0 with h0 | h0
        · simp [h0]
        · simp [h0]

theorem dot_eq_pair (row : List Nat) :
    ∀ (v : List Nat) (p q : Nat), p < q →
      (∀ j, j ≠ p → j ≠ q → v.getD j 0 = 0 ∨ row.getD j 0 = 0) →
      dot row v = (if v.getD p 0 = 0 then 0 else row.getD p 0) ^^^
        (if v.getD q 0 = 0 then 0 else row.getD q 0) := by
  induction row with
  | nil => intro v p q _ _; simp [dot]
  | cons a row ih =>
    intro v p q hpq h
    cases v with
    | nil => simp [dot]
    | cons b v =>
      rw [dot_cons]
      obtain ⟨q', rfl⟩ : ∃ q', q = q' + 1 := ⟨q - 1, by omega⟩
      cases p with
      | zero =>
        rw [dot_eq_single row v q' (fun j hj => by simpa using h (j + 1) (by omega) (by omega))]
        simp
      | succ p =>
        rw [ih v p q' (by omega)
          (fun j hj1 hj2 => by simpa using h (j + 1) (by omega) (by omega))]
        have h0 := h 0 (by omega) (by omega)
        simp only [List.getD_cons_zero] at h0
        rcases h0 with h0 | h0
        · simp [h0]
        · simp [h0]
/-! ## Transposition -/

theorem transpose_row_spec (sf : Matrix) (i : Nat) (c : Nat) :
    ∀ (j : Nat) (row : List Nat), j + c = sf.length → transpose_row sf i c j = .ok row →
      row = (sf.drop j).map (fun v => v.getD i 0) := by
  induction c with
  | zero =>
    intro j row hj h
    simp only [transpose_row, Except.ok.injEq] at h
    subst h
    rw [List.drop_eq_nil_of_le (by omega)]
    rfl
  | succ c ih =>
    intro j row hj h
    unfold transpose_row at h
    cases hr : rd2 sf j i with
    | error e => simp [hr] at h
    | ok a =>
      simp only [hr] at h
      cases hrest : transpose_row sf i c (j + 1) with
      | error e => simp [hrest] at h
      | ok rest =>
        simp only [hrest, Except.ok.injEq] at h
        subst h
        obtain ⟨hlt, -, ha⟩ := rd2_ok sf j i a hr
        rw [ih (j + 1) rest (by omega) hrest, List.drop_eq_getElem_cons hlt, List.map_cons]
        congr 1
        rw [← ha]
        simp [entry, rowAt, List.getD_eq_getElem?_getD, List.getElem?_eq_getElem hlt]

theorem transpose_rows_spec (sf : Matrix) (c : Nat) :
    ∀ (i : Nat) (A : Matrix), transpose_rows sf sf.length c i = .ok A →
      A.length = c ∧ ∀ t, t < c → rowAt A t = sf.map (fun v => v.getD (i + t) 0) := by
  induction c with
  | zero =>
    intro i A h
    simp only [transpose_rows, Except.ok.injEq] at h
    subst h
    exact ⟨rfl, fun t ht => by omega⟩
  | succ c ih =>
    intro i A h
    unfold transpose_rows at h
    cases hr : transpose_row sf i sf.length 0 with
    | error e => simp [hr] at h
    | ok row =>
      simp only [hr] at h
      cases hrest : transpose_rows sf sf.length c (i + 1) with
      | error e => simp [hrest] at h
      | ok rest =>
        simp only [hrest, Except.ok.injEq] at h
        subst h
        obtain ⟨hlen, hrows⟩ := ih (i + 1) rest hrest
        refine ⟨by simp [hlen], ?_⟩
        intro t ht
        cases t with
        | zero =>
          have := transpose_row_spec sf i sf.length 0 row (by omega) hr
          simpa [rowAt] using this
        | succ t =>
          have := hrows t (by omega)
          simp only [rowAt, List.getD_cons_succ] at this ⊢
          rw [this]
          congr 2
          funext v
          congr 1
          omega

theorem fill_null_space_reads (A : Matrix) (f c i : Nat) (ns ns' : List Nat)
    (h : fill_null_space A f (c + 1) i ns = .ok ns') : ∃ a, rd2 A i f = .ok a := by
  unfold fill_null_space at h
  cases hr : rd2 A i f with
  | error e => simp [hr] at h
  | ok a => exact ⟨a, rfl⟩

/-! ## What `gaussian_elimination` returns -/

/-- Partial correctness of `gaussian_elimination` on bit vectors: whenever it returns, the
boundary `f` is a column of the matrix, `null_space` has one bit per relation with
`null_space[f] = 1`, and for every coordinate `i` the entries `smooth_factors[j][i]` over
the selected `j` sum to `0` modulo 2. -/
theorem gaussian_elimination_null_space (sf : Matrix) (sn sx : List Nat) (g : GaussOut)
    (hbits : ∀ v ∈ sf, ∀ a ∈ v, a < 2)
    (h : gaussian_elimination sf sn sx = .ok g) :
    g.f < sf.length ∧ g.null_space.length = sf.length ∧ g.null_space.getD g.f 0 = 1 ∧
      (∀ j, g.null_space.getD j 0 < 2) ∧
      (∀ i, i < (sf.headD []).length →
        dot (sf.map (fun v => v.getD i 0)) g.null_space = 0) ∧
      products sn sx g.null_space 0 1 1 = .ok (g.x_square, g.y) ∧
      g.x = mpz_sqrt g.x_square ∧ g.rem = g.x_square - g.x ^ 2 := by
  unfold gaussian_elimination at h
  cases h0 : rd sf 0 with
  | error e => simp [h0] at h
  | ok row0 =>
  simp only [h0] at h
  have hrow0 : sf[0]? = some row0 := (rd_ok_iff sf 0 row0).mp h0
  have hne : 0 < sf.length := (List.getElem?_eq_some_iff.mp hrow0).1
  have hhead : sf.headD [] = row0 := by
    cases sf with
    | nil => simp at hne
    | cons v sf' => simpa using hrow0
  cases hT : transpose_rows sf sf.length row0.length 0 with
  | error e => simp [hT] at h
  | ok A0 =>
  simp only [hT] at h
  cases hF : forward row0.length row0.length 0 A0 with
  | error e => simp [hF] at h
  | ok A1 =>
  simp only [hF] at h
  cases hS : diagonal_scan A1 sf.length 0 with
  | error e => simp [hS] at h
  | ok f =>
  simp only [hS] at h
  cases hBk : back_substitution f A1 with
  | error e => simp [hBk] at h
  | ok A2 =>
  simp only [hBk] at h
  cases hN : fill_null_space A2 f f 0 ((List.replicate sf.length 0).set f 1) with
  | error e => simp [hN] at h
  | ok ns =>
  simp only [hN] at h
  cases hP : products sn sx ns 0 1 1 with
  | error e => simp [hP] at h
  | ok xy =>
  obtain ⟨x_square, y⟩ := xy
  simp only [hP, Except.ok.injEq] at h
  subst h
  simp only
  -- the transposed matrix
  obtain ⟨hlen0, hrows0⟩ := transpose_rows_spec sf row0.length 0 A0 hT
  have hR0 : Rect row0.length sf.length A0 := by
    refine ⟨hlen0, fun r hr => ?_⟩
    rw [hrows0 r hr]
    simp
  have hB0 : Bits A0 := by
    intro r c
    by_cases hr : r < row0.length
    · unfold entry
      rw [hrows0 r hr]
      simp only [Nat.zero_add, List.getD_eq_getElem?_getD, List.getElem?_map]
      cases hc : sf[c]? with
      | none => simp
      | some v =>
        simp only [Option.map_some', Option.getD_some]
        have hv : v ∈ sf := List.getElem?_mem hc
        cases hvr : v[r]? with
        | none => simp
        | some a =>
          simp only [Option.getD_some]
          exact hbits v hv a (List.getElem?_mem hvr)
    · rw [entry_of_ge A0 r c (by omega)]
      omega
  -- forward elimination
  obtain ⟨hR1, hB1, hL1, hAnn1⟩ := forward_spec row0.length sf.length row0.length 0 A0 A1
    hR0 hB0 (fun c hc => by omega) (by omega) hF
  -- the diagonal scan
  obtain ⟨-, hfle, hdiag, hfound⟩ := diagonal_scan_spec A1 sf.length 0 f hS
  have hfAi : f ≤ row0.length := by
    by_contra hcon
    have h1 := hdiag row0.length (Nat.zero_le _) (by omega)
    rw [entry_of_ge A1 _ _ (by rw [hR1.1])] at h1
    omega
  -- back substitution
  have hfz : f < sf.length → ∀ r, f ≤ r → entry A1 r f = 0 := by
    intro hlt r hr
    obtain ⟨hfA, hf1⟩ := hfound (by omega)
    by_cases hrf : r = f
    · subst hrf
      exact eq_zero_of_bit_ne_one _ (hB1 r r) hf1
    · exact hL1 f (by rw [← hR1.1]; exact hfA) r (by omega)
  have hflt : f < sf.length := by
    by_contra hcon
    have hfe : f = sf.length := by omega
    obtain ⟨f', hf'⟩ : ∃ f', f = f' + 1 := ⟨f - 1, by omega⟩
    rw [hf'] at hN
    obtain ⟨a, ha⟩ := fill_null_space_reads A2 (f' + 1) f' 0 _ ns hN
    obtain ⟨h1, h2, -⟩ := rd2_ok A2 0 (f' + 1) a ha
    have hR2len : A2.length = row0.length ∧ (rowAt A2 0).length = sf.length := by
      have hdummy : ∀ r, f ≤ r → entry A1 r f = 0 := by
        intro r hr
        unfold entry
        rw [List.getD_eq_getElem?_getD, List.getElem?_eq_none]
        · rfl
        · by_cases hrA : r < row0.length
          · rw [hR1.2 r hrA]; omega
          · rw [rowAt_length_of_ge A1 r (by rw [hR1.1]; omega)]; simp
      obtain ⟨hR2, -⟩ := back_substitution_spec row0.length sf.length f hfAi f A1 A2 hR1 hB1 hL1
        (le_refl _) (fun c hc => hdiag c (Nat.zero_le _) hc) (fun c h1 h2 => by omega)
        hdummy hBk
      exact ⟨hR2.1, hR2.2 0 (by rw [← hR2.1]; exact h1)⟩
    rw [hR2len.2] at h2
    omega
  obtain ⟨hR2, hB2, hI2, hF2, hAnn2⟩ :=
    back_substitution_spec row0.length sf.length f hfAi f A1 A2 hR1 hB1 hL1 (le_refl _)
      (fun c hc => hdiag c (Nat.zero_le _) hc) (fun c h1 h2 => by omega) (hfz hflt) hBk
  -- the null-space vector
  obtain ⟨hnslen, hnsget⟩ := fill_null_space_spec A2 f f 0 _ ns (by omega) hN
  rw [List.length_set, List.length_replicate] at hnslen
  have hns : ∀ j, ns.getD j 0 =
      if j < f then entry A2 j f else if j = f then 1 else 0 := by
    intro j
    rw [hnsget j, List.length_set, List.length_replicate]
    by_cases hjf : j < f
    · rw [if_pos ⟨Nat.zero_le _, hjf, by omega⟩, if_pos hjf]
    · rw [if_neg (fun hc => hjf hc.2.1), if_neg hjf]
      simp only [List.getD_eq_getElem?_getD, List.getElem?_set, List.length_replicate]
      by_cases hjf' : j = f
      · subst hjf'
        simp [hflt]
      · rw [if_neg (fun e => hjf' e.symm), if_neg hjf', List.getElem?_replicate]
        split <;> rfl
  have hAnn : Annihilates ns A2 := by
    intro r
    have hrow : ∀ j, (rowAt A2 r).getD j 0 = entry A2 r j := fun j => rfl
    by_cases hrf : r < f
    · rw [dot_eq_pair (rowAt A2 r) ns r f hrf]
      · have e1 : ns.getD r 0 = entry A2 r f := by rw [hns r, if_pos hrf]
        have e2 : ns.getD f 0 = 1 := by rw [hns f, if_neg (lt_irrefl f), if_pos rfl]
        have e3 : entry A2 r r = 1 := by rw [hI2 r hrf r, if_pos rfl]
        rw [e1, e2, hrow, hrow, e3]
        have hb := hB2 r f
        by_cases he : entry A2 r f = 0
        · rw [he]; rfl
        · rw [if_neg he, eq_one_of_bit_ne_zero _ hb he]; rfl
      · intro j hj1 hj2
        by_cases hjf : j < f
        · right
          rw [hrow, hI2 j hjf r, if_neg (fun e => hj1 e.symm)]
        · left
          rw [hns j, if_neg hjf, if_neg hj2]
    · apply dot_eq_zero
      intro j
      by_cases hjf : j < f
      · right
        rw [hrow, hI2 j hjf r, if_neg (by omega)]
      · by_cases hjf' : j = f
        · right
          rw [hrow, hjf']
          exact hF2 r (by omega)
        · left
          rw [hns j, if_neg hjf, if_neg hjf']
  have hAnn0 : Annihilates ns A0 := hAnn1 ns (hAnn2 ns hAnn)
  refine ⟨hflt, hnslen, ?_, ?_, ?_, hP, by trivial, by trivial⟩
  · rw [hns f, if_neg (by omega), if_pos rfl]
  · intro j
    rw [hns j]
    split
    · exact hB2 j f
    · split <;> omega
  · intro i hi
    rw [hhead] at hi
    have := hAnn0 i
    rw [hrows0 i hi] at this
    simpa using this

/-! ## From the dependency to a congruence of squares -/

theorem divide_out_exponent (p : Nat) (fuel : Nat) (done zs : List Nat) :
    ∀ (b n : Nat) (r : List Nat × Nat), b < 2 →
      divide_out done.length p fuel (done ++ b :: zs) n = .ok r →
      ∃ e, n = r.2 * p ^ e ∧ r.1 = done ++ ((b + e) % 2) :: zs := by
  induction fuel with
  | zero => intro b n r _ h; simp [divide_out] at h
  | succ fuel ih =>
    intro b n r hb h
    unfold divide_out at h
    by_cases h0 : p = 0
    · simp [h0] at h
    · simp only [if_neg h0] at h
      by_cases hd : n % p = 0
      · simp only [if_pos hd] at h
        rw [xor_at_append, xor_one_of_lt_two b hb] at h
        obtain ⟨e, he1, he2⟩ := ih ((b + 1) % 2) (n / p) r (Nat.mod_lt _ (by omega)) h
        refine ⟨e + 1, ?_, ?_⟩
        · have hdvd : p ∣ n := Nat.dvd_of_mod_eq_zero hd
          calc n = n / p * p := (Nat.div_mul_cancel hdvd).symm
            _ = r.2 * p ^ e * p := by rw [he1]
            _ = r.2 * p ^ (e + 1) := by rw [pow_succ, Nat.mul_assoc]
        · rw [he2]
          congr 2
          omega
      · simp only [if_neg hd, Except.ok.injEq] at h
        subst h
        refine ⟨0, by simp, ?_⟩
        simp only [Nat.add_zero]
        rw [Nat.mod_eq_of_lt hb]

theorem factor_loop_exponents (fuel : Nat) (rest : List Nat) :
    ∀ (done : List Nat) (n : Nat) (r : List Nat × Nat),
      factor_loop fuel done.length rest (done ++ List.replicate rest.length 0) n = .ok r →
      ∃ es : List Nat, es.length = rest.length ∧
        n = r.2 * (List.zipWith (· ^ ·) rest es).prod ∧
        r.1 = done ++ es.map (· % 2) := by
  induction rest with
  | nil =>
    intro done n r h
    simp only [factor_loop, List.length_nil, List.replicate_zero, List.append_nil,
      Except.ok.injEq] at h
    subst h
    exact ⟨[], rfl, by simp, by simp⟩
  | cons p rest ih =>
    intro done n r h
    simp only [List.length_cons, List.replicate_succ] at h
    unfold factor_loop at h
    cases hres : divide_out done.length p fuel (done ++ 0 :: List.replicate rest.length 0) n with
    | error e => simp [hres] at h
    | ok r1 =>
      obtain ⟨factors', n'⟩ := r1
      simp only [hres] at h
      obtain ⟨e, he1, he2⟩ := divide_out_exponent p fuel done _ 0 n _ (by omega) hres
      simp only [Nat.zero_add] at he1 he2
      have happ : done ++ e % 2 :: List.replicate rest.length 0 =
          (done ++ [e % 2]) ++ List.replicate rest.length 0 := by simp
      have hlen : (done ++ [e % 2]).length = done.length + 1 := by simp
      rw [he2, happ, ← hlen] at h
      obtain ⟨es, hes1, hes2, hes3⟩ := ih (done ++ [e % 2]) n' r h
      refine ⟨e :: es, by simp [hes1], ?_, ?_⟩
      · simp only [List.zipWith_cons_cons, List.prod_cons]
        rw [he1, hes2]
        ring
      · rw [hes3]
        simp

theorem dot_lt_two (row : List Nat) :
    ∀ v : List Nat, (∀ a ∈ row, a < 2) → dot row v < 2 := by
  induction row with
  | nil => intro v _; simp [dot]
  | cons a row ih =>
    intro v h
    cases v with
    | nil => simp [dot]
    | cons b v =>
      rw [dot_cons]
      apply xor_lt_two
      · split
        · omega
        · exact h a (List.mem_cons_self _ _)
      · exact ih v (fun x hx => h x (List.mem_cons_of_mem _ hx))

theorem xor_eq_add_mod_two (a b : Nat) (ha : a < 2) (hb : b < 2) : a ^^^ b = (a + b) % 2 := by
  interval_cases a <;> interval_cases b <;> rfl

theorem prod_pow_zero (fb : List Nat) :
    (List.zipWith (· ^ ·) fb (List.replicate fb.length 0)).prod = 1 := by
  induction fb with
  | nil => rfl
  | cons p fb ih => simp [List.replicate_succ, ih]

theorem prod_pow_add (fb : List Nat) :
    ∀ (E e : List Nat), E.length = fb.length → e.length = fb.length →
      (List.zipWith (· ^ ·) fb (List.zipWith (· + ·) E e)).prod =
        (List.zipWith (· ^ ·) fb E).prod * (List.zipWith (· ^ ·) fb e).prod := by
  induction fb with
  | nil => intro E e _ _; simp
  | cons p fb ih =>
    intro E e hE he
    cases E with
    | nil => simp at hE
    | cons a E =>
      cases e with
      | nil => simp at he
      | cons b e =>
        simp only [List.length_cons, Nat.add_right_cancel_iff] at hE he
        simp only [List.zipWith_cons_cons, List.prod_cons, ih E e hE he, pow_add]
        ring

theorem prod_pow_even (fb : List Nat) :
    ∀ E : List Nat, (∀ t, E.getD t 0 % 2 = 0) →
      (List.zipWith (· ^ ·) fb E).prod =
        (List.zipWith (· ^ ·) fb (E.map (· / 2))).prod ^ 2 := by
  induction fb with
  | nil => intro E _; simp
  | cons p fb ih =>
    intro E h
    cases E with
    | nil => simp
    | cons a E =>
      have h0 : a % 2 = 0 := by simpa using h 0
      have ha : a = a / 2 * 2 := by omega
      simp only [List.map_cons, List.zipWith_cons_cons, List.prod_cons,
        ih E (fun t => by simpa using h (t + 1))]
      rw [mul_pow, ← pow_mul, ← ha]

theorem drop_of_rd {α : Type} (l : List α) (i : Nat) (a : α) (h : rd l i = .ok a) :
    l.drop i = a :: l.drop (i + 1) := by
  have h1 := (rd_ok_iff l i a).mp h
  obtain ⟨hi, ha⟩ := List.getElem?_eq_some_iff.mp h1
  rw [List.drop_eq_getElem_cons hi, ha]

/-- The loop of lines 256-261 multiplies the selected entries. -/
theorem products_eq (sn sx : List Nat) (ns : List Nat) :
    ∀ (i x_square y : Nat) (r : Nat × Nat), products sn sx ns i x_square y = .ok r →
      r = (x_square * selected_prod ns (sn.drop i), y * selected_prod ns (sx.drop i)) := by
  induction ns with
  | nil =>
    intro i x_square y r h
    simp only [products, Except.ok.injEq] at h
    subst h
    simp [selected_prod]
  | cons b ns ih =>
    intro i x_square y r h
    unfold products at h
    by_cases hb : b ≠ 0
    · simp only [if_pos hb] at h
      cases hs : rd sn i with
      | error e => simp [hs] at h
      | ok s =>
        simp only [hs] at h
        cases hx : rd sx i with
        | error e => simp [hx] at h
        | ok x =>
          simp only [hx] at h
          rw [ih (i + 1) _ _ r h, drop_of_rd sn i s hs, drop_of_rd sx i x hx]
          simp only [selected_prod, List.zip_cons_cons, List.filter_cons]
          simp [hb, Nat.mul_assoc]
    · simp only [if_neg hb] at h
      have hb0 : b = 0 := not_not.mp hb
      rw [ih (i + 1) _ _ r h]
      cases hsn : sn.drop i with
      | nil =>
        have : sn.drop (i + 1) = [] := by
          rw [← List.drop_drop, hsn]; rfl
        rw [this]
        cases hsx : sx.drop i with
        | nil =>
          have : sx.drop (i + 1) = [] := by
            rw [← List.drop_drop, hsx]; rfl
          rw [this]
          simp [selected_prod]
        | cons x' sx' =>
          have : sx.drop (i + 1) = sx' := by
            rw [← List.drop_drop, hsx]; rfl
          rw [this]
          simp [selected_prod, hb0]
      | cons s' sn' =>
        have : sn.drop (i + 1) = sn' := by
          rw [← List.drop_drop, hsn]; rfl
        rw [this]
        cases hsx : sx.drop i with
        | nil =>
          have : sx.drop (i + 1) = [] := by
            rw [← List.drop_drop, hsx]; rfl
          rw [this]
          simp [selected_prod, hb0]
        | cons x' sx' =>
          have : sx.drop (i + 1) = sx' := by
            rw [← List.drop_drop, hsx]; rfl
          rw [this]
          simp [selected_prod, hb0]

theorem getD_zipWith_add (E e : List Nat) (h : E.length = e.length) (t : Nat) :
    (List.zipWith (· + ·) E e).getD t 0 = E.getD t 0 + e.getD t 0 := by
  simp only [List.getD_eq_getElem?_getD, List.getElem?_zipWith]
  by_cases ht : t < E.length
  · rw [List.getElem?_eq_getElem ht, List.getElem?_eq_getElem (by omega)]
    simp
  · rw [List.getElem?_eq_none (by omega), List.getElem?_eq_none (by omega)]
    simp

theorem getD_map_mod_two (e : List Nat) (t : Nat) :
    (e.map (· % 2)).getD t 0 = e.getD t 0 % 2 := by
  simp only [List.getD_eq_getElem?_getD, List.getElem?_map]
  cases e[t]? with
  | none => rfl
  | some a => rfl

/-- Invariant of the product loop: `x_square` is a product of powers of the factor base,
`y² ≡ x_square (mod n)`, and the parities of the exponents follow the selected parity
vectors. -/
theorem products_exponents (n fuel : Nat) (fb : List Nat) (sf : Matrix) (sn sx : List Nat)
    (hrel : ∀ j, j < sf.length → ∃ x s fs, sx[j]? = some x ∧ sn[j]? = some s ∧
      sf[j]? = some fs ∧ s = x ^ 2 % n ∧
      factor_loop fuel 0 fb (List.replicate fb.length 0) s = .ok (fs, 1))
    (hbits : ∀ v ∈ sf, ∀ a ∈ v, a < 2) (ns : List Nat) :
    ∀ (i : Nat) (E : List Nat) (x_square y : Nat) (r : Nat × Nat),
      i + ns.length = sf.length → E.length = fb.length →
      x_square = (List.zipWith (· ^ ·) fb E).prod → y ^ 2 ≡ x_square [MOD n] →
      products sn sx ns i x_square y = .ok r →
      ∃ E' : List Nat, E'.length = fb.length ∧
        r.1 = (List.zipWith (· ^ ·) fb E').prod ∧ r.2 ^ 2 ≡ r.1 [MOD n] ∧
        ∀ t, E'.getD t 0 % 2 =
          (E.getD t 0 + dot ((sf.drop i).map (fun v => v.getD t 0)) ns) % 2 := by
  induction ns with
  | nil =>
    intro i E x_square y r _ hE hx hy h
    simp only [products, Except.ok.injEq] at h
    subst h
    refine ⟨E, hE, hx, hy, fun t => ?_⟩
    cases (sf.drop i).map (fun v => v.getD t 0) <;> simp [dot]
  | cons b ns ih =>
    intro i E x_square y r hi hE hx hy h
    simp only [List.length_cons] at hi
    obtain ⟨x, s, fs, hsx, hsn, hsf, hs, hfl⟩ := hrel i (by omega)
    have hdrop : sf.drop i = fs :: sf.drop (i + 1) :=
      drop_of_rd sf i fs ((rd_ok_iff sf i fs).mpr hsf)
    have hrowbits : ∀ t, ∀ a ∈ (sf.drop (i + 1)).map (fun v => v.getD t 0), a < 2 := by
      intro t a ha
      obtain ⟨v, hv, rfl⟩ := List.mem_map.mp ha
      have hvsf : v ∈ sf := List.mem_of_mem_drop hv
      rw [List.getD_eq_getElem?_getD]
      cases hvt : v[t]? with
      | none => simp
      | some c => exact hbits v hvsf c (List.getElem?_mem hvt)
    unfold products at h
    by_cases hb : b ≠ 0
    · simp only [if_pos hb, (rd_ok_iff sn i s).mpr hsn, (rd_ok_iff sx i x).mpr hsx] at h
      have hfl' : factor_loop fuel ([] : List Nat).length fb
          ([] ++ List.replicate fb.length 0) s = .ok (fs, 1) := by simpa using hfl
      obtain ⟨e, he1, he2, he3⟩ := factor_loop_exponents fuel fb [] s _ hfl'
      simp only [Nat.one_mul, List.nil_append] at he2 he3
      have hx1 : x_square * s =
          (List.zipWith (· ^ ·) fb (List.zipWith (· + ·) E e)).prod := by
        rw [prod_pow_add fb E e hE he1, ← hx, ← he2]
      have hy1 : (y * x) ^ 2 ≡ x_square * s [MOD n] := by
        rw [mul_pow]
        apply Nat.ModEq.mul hy
        rw [hs]
        exact (Nat.mod_modEq _ _).symm
      obtain ⟨E', hE', hr1, hr2, hpar⟩ :=
        ih (i + 1) (List.zipWith (· + ·) E e) (x_square * s) (y * x) r (by omega)
          (by simp [hE, he1]) hx1 hy1 h
      refine ⟨E', hE', hr1, hr2, fun t => ?_⟩
      rw [hpar t, getD_zipWith_add E e (by omega), hdrop, List.map_cons, dot_cons, if_neg hb,
        he3, getD_map_mod_two]
      have hd := dot_lt_two _ ns (hrowbits t)
      rw [xor_eq_add_mod_two _ _ (Nat.mod_lt _ (by omega)) hd]
      omega
    · simp only [if_neg hb] at h
      have hb0 : b = 0 := not_not.mp hb
      obtain ⟨E', hE', hr1, hr2, hpar⟩ := ih (i + 1) E x_square y r (by omega) hE hx hy h
      refine ⟨E', hE', hr1, hr2, fun t => ?_⟩
      rw [hpar t, hdrop, List.map_cons, dot_cons, if_pos hb0]
      simp

/-- Partial correctness of `gaussian_elimination` on relations: when every
`smooth_numbers[j]` is `smooth_x[j]² mod n` and is divided down to `1` by the trial
division with parity vector `smooth_factors[j]`, then whenever `gaussian_elimination`
returns, `x_square` is the product of the selected smooth numbers and a perfect square
with root `x` (remainder `0`), `y` is the product of the selected `smooth_x`, and
`x² ≡ y² (mod n)`. -/
theorem gaussian_elimination_congruence (n fuel : Nat) (fb : List Nat) (sf : Matrix)
    (sn sx : List Nat) (g : GaussOut)
    (hrel : ∀ j, j < sf.length → ∃ x s fs, sx[j]? = some x ∧ sn[j]? = some s ∧
      sf[j]? = some fs ∧ s = x ^ 2 % n ∧
      factor_loop fuel 0 fb (List.replicate fb.length 0) s = .ok (fs, 1))
    (h : gaussian_elimination sf sn sx = .ok g) :
    g.x_square = selected_prod g.null_space sn ∧ g.y = selected_prod g.null_space sx ∧
      g.x ^ 2 = g.x_square ∧ g.rem = 0 ∧ g.x ^ 2 ≡ g.y ^ 2 [MOD n] := by
  -- the parity vectors are bit vectors of the length of the factor base
  have hvec : ∀ v ∈ sf, ∃ e : List Nat, e.length = fb.length ∧ v = e.map (· % 2) := by
    intro v hv
    obtain ⟨j, hj, hvj⟩ := List.getElem_of_mem hv
    obtain ⟨x, s, fs, -, -, hsf, -, hfl⟩ := hrel j hj
    rw [List.getElem?_eq_getElem hj, hvj] at hsf
    have hfl' : factor_loop fuel ([] : List Nat).length fb
        ([] ++ List.replicate fb.length 0) s = .ok (fs, 1) := by simpa using hfl
    obtain ⟨e, he1, -, he3⟩ := factor_loop_exponents fuel fb [] s _ hfl'
    exact ⟨e, he1, by rw [Option.some.inj hsf]; simpa using he3⟩
  have hbits : ∀ v ∈ sf, ∀ a ∈ v, a < 2 := by
    intro v hv a ha
    obtain ⟨e, -, rfl⟩ := hvec v hv
    obtain ⟨c, -, rfl⟩ := List.mem_map.mp ha
    exact Nat.mod_lt _ (by omega)
  obtain ⟨hf, hlen, -, -, hdot, hprod, hx, hrem⟩ :=
    gaussian_elimination_null_space sf sn sx g hbits h
  have hhead : (sf.headD []).length = fb.length := by
    cases hsf : sf with
    | nil => rw [hsf] at hf; simp at hf
    | cons v sf' =>
      obtain ⟨e, he, hv⟩ := hvec v (by rw [hsf]; exact List.mem_cons_self _ _)
      simp [hv, he]
  obtain ⟨E', hE', hr1, hr2, hpar⟩ :=
    products_exponents n fuel fb sf sn sx hrel hbits g.null_space 0
      (List.replicate fb.length 0) 1 1 _ (by omega) (by simp) (prod_pow_zero fb).symm
      (Nat.ModEq.refl _) hprod
  simp only at hr1 hr2
  have heven : ∀ t, E'.getD t 0 % 2 = 0 := by
    intro t
    by_cases ht : t < fb.length
    · rw [hpar t, List.drop_zero, hdot t (by rw [hhead]; exact ht)]
      simp [List.getD_eq_getElem?_getD, List.getElem?_replicate, ht]
    · rw [List.getD_eq_getElem?_getD, List.getElem?_eq_none (by omega)]
      rfl
  have hsq : g.x_square =
      (List.zipWith (· ^ ·) fb (E'.map (· / 2))).prod ^ 2 := by
    rw [hr1, prod_pow_even fb E' heven]
  have hroot : g.x = (List.zipWith (· ^ ·) fb (E'.map (· / 2))).prod := by
    rw [hx, mpz_sqrt_eq, hsq]
    exact Nat.sqrt_eq' _
  have hxx : g.x ^ 2 = g.x_square := by rw [hroot, ← hsq]
  have hpe := products_eq sn sx g.null_space 0 1 1 _ hprod
  simp only [List.drop_zero, Nat.one_mul, Prod.mk.injEq] at hpe
  refine ⟨hpe.1, hpe.2, hxx, by rw [hrem, hxx]; simp, ?_⟩
  rw [hxx]
  exact hr2.symm

/-! ## `gaussian_elimination` on two small inputs (C2, C3)

`gaussian_elimination_null_space` and `gaussian_elimination_congruence` above show that the
null-space vector and the congruence are right whenever `gaussian_elimination` returns.  It
does not return when the first `k` parity vectors are linearly independent: the diagonal
scan then runs past the last row of the matrix. -/

/-- C2 fails on the two vectors `[1]`, `[0]` (`k = 1`, `m = 2`): the transposed matrix is
`[[1, 0]]`, forward elimination leaves it unchanged, and the diagonal scan, after
`A[0][0] = 1`, loads `A[1][1]` from a matrix with one row; no `null_space` is computed. -/
theorem C2_diagonal_scan_leaves_matrix (smooth_numbers smooth_x : List Nat) :
    transpose_rows [[1], [0]] 2 1 0 = .ok [[1, 0]] ∧
      forward 1 1 0 [[1, 0]] = .ok [[1, 0]] ∧
      rd2 [[1, 0]] 0 0 = .ok 1 ∧
      rd2 [[1, 0]] 1 1 = .error .out_of_range ∧
      diagonal_scan [[1, 0]] 2 0 = .error .out_of_range ∧
      gaussian_elimination [[1], [0]] smooth_numbers smooth_x = .error .out_of_range :=
  ⟨rfl, rfl, rfl, rfl, rfl, rfl⟩

/-- C3 fails on the relations `sieve` records for `n = 7` with the factor base `[2]`:
`smooth_x = [3, 4]`, `smooth_numbers = [2, 2]` (`3² ≡ 4² ≡ 2 (mod 7)`), parity vectors
`[1]`, `[1]`.  The matrix is `[[1, 1]]` and the diagonal scan loads `A[1][1]`, outside
it, so no `x`, `y` are computed. -/
theorem C3_relations_of_7_out_of_range :
    sieve 5 [0, 0] [0, 0] [[0], [0]] 7 [2] =
        .ok { smooth_numbers := [2, 2], smooth_x := [3, 4], smooth_factors := [[1], [1]],
              smooth_count := 2, not_done := false, stores := [1, 0] } ∧
      2 = 3 ^ 2 % 7 ∧ 2 = 4 ^ 2 % 7 ∧
      factor_smooth 5 [0] 2 [2] = .ok ([1], true) ∧
      diagonal_scan [[1, 1]] 2 0 = .error .out_of_range ∧
      gaussian_elimination [[1], [1]] [2, 2] [3, 4] = .error .out_of_range := by
  decide

/-! ## The model of `mpz_legendre` -/

/-- For an odd prime `p` the model of `mpz_legendre` is the Legendre symbol. -/
theorem mpz_legendre_eq_legendreSym (p : Nat) [hp : Fact p.Prime] (hp2 : p ≠ 2) (a : Nat) :
    mpz_legendre a p = legendreSym p a := by
  have hprime := hp.out
  have hodd : (p - 1) / 2 = p / 2 := by
    have := hprime.eq_two_or_odd
    omega
  have hgt : 2 < p := by
    have := hprime.two_le
    omega
  have hcast : ((a ^ ((p - 1) / 2) % p : Nat) : ZMod p) = (legendreSym p a : ZMod p) := by
    rw [legendreSym.eq_pow, hodd]
    simp
  have hlt : a ^ ((p - 1) / 2) % p < p := Nat.mod_lt _ hprime.pos
  unfold mpz_legendre
  rw [if_neg hp2]
  simp only
  generalize a ^ ((p - 1) / 2) % p = r at hcast hlt
  have hone : (1 : ZMod p) ≠ 0 := one_ne_zero
  have hneg : (-1 : ZMod p) ≠ 1 := by
    haveI : Fact (2 < p) := ⟨hgt⟩
    exact ZMod.neg_one_ne_one
  have hr0 : r = 0 ↔ (r : ZMod p) = 0 := by
    rw [ZMod.natCast_zmod_eq_zero_iff_dvd]
    constructor
    · rintro rfl; simp
    · intro h
      exact Nat.eq_zero_of_dvd_of_lt h hlt
  have hr1 : r = 1 ↔ (r : ZMod p) = 1 := by
    constructor
    · rintro rfl; simp
    · intro h
      have h1 : ((r : Nat) : ZMod p) = ((1 : Nat) : ZMod p) := by simpa using h
      rw [ZMod.natCast_eq_natCast_iff'] at h1
      rw [Nat.mod_eq_of_lt hlt, Nat.mod_eq_of_lt (by omega)] at h1
      exact h1
  by_cases h0 : legendreSym p a = 0
  · rw [h0] at hcast ⊢
    simp only [Int.cast_zero] at hcast
    rw [if_pos (hr0.mpr hcast)]
  · have ha0 : ((a : Int) : ZMod p) ≠ 0 := fun h => h0 ((legendreSym.eq_zero_iff p a).mpr h)
    rcases legendreSym.eq_one_or_neg_one p ha0 with h1 | h1
    · rw [h1] at hcast ⊢
      simp only [Int.cast_one] at hcast
      have hr : r = 1 := hr1.mpr hcast
      subst hr
      simp
    · rw [h1] at hcast ⊢
      simp only [Int.cast_neg, Int.cast_one] at hcast
      have hn0 : r ≠ 0 := by
        intro h
        rw [hr0.mp h] at hcast
        exact neg_ne_zero.mpr hone hcast.symm
      have hn1 : r ≠ 1 := by
        intro h
        rw [hr1.mp h] at hcast
        exact hneg hcast.symm
      rw [if_neg hn0, if_neg hn1]

/-! ## The pipeline of `main` (C1) -/

set_option maxRecDepth 1000000 in
/-- The primes `main` starts from. -/
theorem eratosthenes_TRIAL_BOUND : eratosthenes TRIAL_BOUND =
    [2, 3, 5, 7, 11, 13, 17, 19, 23, 29, 31, 37, 41, 43, 47, 53, 59, 61, 67, 71, 73, 79, 83, 89,
     97, 101, 103, 107, 109, 113, 127, 131, 137, 139, 149, 151, 157, 163, 167, 173, 179, 181,
     191, 193, 197, 199, 211, 223, 227, 229, 233, 239, 241, 251, 257, 263, 269, 271, 277, 281,
     283, 293, 307, 311, 313, 317, 331, 337, 347, 349, 353, 359, 367, 373, 379, 383, 389,
     397] := by
  decide!

theorem summary_of_map (r : Except Fault GaussOut) (v : Nat × List Nat × Nat × Nat × Nat × Nat)
    (h : r.map GaussOut.summary = .ok v) : ∃ g, r = .ok g ∧ g.summary = v := by
  cases r with
  | error e => simp [Except.map] at h
  | ok g => exact ⟨g, rfl, by simpa [Except.map] using h⟩

/-- The run of `main` is the composition of its stages. -/
theorem main_stages (legendre : Nat → Nat → Int) (fuel n : Nat) (factor_base : List Nat)
    (st : SieveState) (g : GaussOut)
    (hfb : create_factor_base legendre (eratosthenes TRIAL_BOUND) n = factor_base)
    (hs : sieve fuel (List.replicate (factor_base.length + 1) 0)
      (List.replicate (factor_base.length + 1) 0)
      (List.replicate (factor_base.length + 1) [0]) n factor_base = .ok st)
    (hg : gaussian_elimination st.smooth_factors st.smooth_numbers st.smooth_x = .ok g) :
    main legendre fuel n = final_division n g.y g.x := by
  subst hfb
  unfold main
  simp only [hs, hg]

set_option maxRecDepth 1000000 in
theorem create_factor_base_309 :
    create_factor_base mpz_legendre (eratosthenes TRIAL_BOUND) 309 = factor_base_309 := by
  rw [eratosthenes_TRIAL_BOUND]
  decide!

set_option maxRecDepth 1000000 in
theorem sieve_309 :
    sieve 100 (List.replicate (factor_base_309.length + 1) 0)
      (List.replicate (factor_base_309.length + 1) 0)
      (List.replicate (factor_base_309.length + 1) [0]) 309 factor_base_309 =
      .ok relations_309 := by
  decide!

set_option maxRecDepth 1000000 in
theorem gaussian_elimination_309 :
    (gaussian_elimination relations_309.smooth_factors relations_309.smooth_numbers
      relations_309.smooth_x).map GaussOut.summary =
      .ok (null_space_309.1, null_space_309.2, 828100, 910, 0, 8360) := by
  decide!

/-- The run of `main` for `n = 309`. -/
theorem main_309 :
    main mpz_legendre 100 309 =
      .ok { failure := true, factor_1 := 1, factor_2 := 309 } := by
  obtain ⟨g, hg, hsum⟩ := summary_of_map _ _ gaussian_elimination_309
  simp only [GaussOut.summary, Prod.mk.injEq] at hsum
  obtain ⟨-, -, -, hx, -, hy⟩ := hsum
  rw [main_stages mpz_legendre 100 309 factor_base_309 relations_309 g
    create_factor_base_309 sieve_309 hg, hx, hy]
  decide

set_option maxRecDepth 1000000 in
theorem create_factor_base_90283 :
    create_factor_base mpz_legendre (eratosthenes TRIAL_BOUND) 90283 = factor_base_90283 := by
  rw [eratosthenes_TRIAL_BOUND]
  decide!

set_option maxRecDepth 1000000 in
theorem sieve_90283 :
    sieve 100 (List.replicate (factor_base_90283.length + 1) 0)
      (List.replicate (factor_base_90283.length + 1) 0)
      (List.replicate (factor_base_90283.length + 1) [0]) 90283 factor_base_90283 =
      .ok relations_90283 := by
  decide!

set_option maxRecDepth 1000000 in
theorem gaussian_elimination_90283 :
    (gaussian_elimination relations_90283.smooth_factors relations_90283.smooth_numbers
      relations_90283.smooth_x).map GaussOut.summary =
      .ok (null_space_90283.1, null_space_90283.2, 129679932321, 360111, 0, 31282368) := by
  decide!

/-- The run of `main` for `n = 90283`. -/
theorem main_90283 :
    main mpz_legendre 100 90283 =
      .ok { failure := false, factor_1 := 659, factor_2 := 137 } := by
  obtain ⟨g, hg, hsum⟩ := summary_of_map _ _ gaussian_elimination_90283
  simp only [GaussOut.summary, Prod.mk.injEq] at hsum
  obtain ⟨-, -, -, hx, -, hy⟩ := hsum
  rw [main_stages mpz_legendre 100 90283 factor_base_90283 relations_90283 g
    create_factor_base_90283 sieve_90283 hg, hx, hy]
  decide

theorem main_ok_final (legendre : Nat → Nat → Int) (fuel n : Nat) (rep : Report)
    (h : main legendre fuel n = .ok rep) : ∃ y x : Int, final_division n y x = .ok rep := by
  unfold main at h
  simp only at h
  split at h
  · simp at h
  · split at h
    · simp at h
    · exact ⟨_, _, h⟩

theorem dvd_prime_mul_cases (p q d : Nat) (hp : p.Prime) (hq : q.Prime) (h : d ∣ p * q) :
    d = 1 ∨ d = p ∨ d = q ∨ d = p * q := by
  by_cases hpd : p ∣ d
  · obtain ⟨c, rfl⟩ := hpd
    have hc : c ∣ q := Nat.dvd_of_mul_dvd_mul_left hp.pos h
    rcases (Nat.dvd_prime hq).mp hc with rfl | rfl
    · right; left; simp
    · right; right; right; rfl
  · have hcop : Nat.Coprime d p := ((Nat.Prime.coprime_iff_not_dvd hp).mpr hpd).symm
    have hdq : d ∣ q := hcop.dvd_of_dvd_mul_left h
    rcases (Nat.dvd_prime hq).mp hdq with rfl | rfl
    · left; rfl
    · right; right; left; rfl

/-- C1 (amended): for `n = p * q` with `p`, `q` distinct primes, whenever the pipeline of
`main` returns, `factor_1 * factor_2 = n`; the failure line is printed exactly when
`factor_1` is `1` or `n`; and when it is not printed, `{factor_1, factor_2} = {p, q}`. -/
theorem C1_main_returns_factors_or_failure (legendre : Nat → Nat → Int) (fuel p q : Nat)
    (rep : Report) (hp : p.Prime) (hq : q.Prime) (hpq : p ≠ q)
    (h : main legendre fuel (p * q) = .ok rep) :
    rep.factor_1 * rep.factor_2 = p * q ∧
      (rep.failure = true ↔ rep.factor_1 = 1 ∨ rep.factor_1 = p * q) ∧
      (rep.failure = false →
        (rep.factor_1 = p ∧ rep.factor_2 = q) ∨ (rep.factor_1 = q ∧ rep.factor_2 = p)) := by
  have hn : 0 < p * q := Nat.mul_pos hp.pos hq.pos
  obtain ⟨y, x, hfin⟩ := main_ok_final legendre fuel (p * q) rep h
  rw [final_division_ok (p * q) y x hn] at hfin
  have hrep := Except.ok.inj hfin
  have hd : Int.gcd ((p * q : Nat) : Int) (y - x) ∣ p * q := gcd_dvd_n (p * q) (y - x)
  generalize Int.gcd ((p * q : Nat) : Int) (y - x) = d at hrep hd
  subst hrep
  simp only [Bool.or_eq_true, beq_iff_eq, Bool.or_eq_false_iff, beq_eq_false_iff_ne]
  refine ⟨Nat.mul_div_cancel' hd, trivial, ?_⟩
  rintro ⟨h1, hn'⟩
  rcases dvd_prime_mul_cases p q d hp hq hd with rfl | rfl | rfl | rfl
  · exact absurd rfl h1
  · left
    exact ⟨rfl, Nat.mul_div_cancel_left q hp.pos⟩
  · right
    exact ⟨rfl, Nat.mul_div_cancel p hq.pos⟩
  · exact absurd rfl hn'

theorem C1_witness :
    Nat.Prime 137 ∧ Nat.Prime 659 ∧ (137 : Nat) ≠ 659 ∧
    main mpz_legendre 100 (137 * 659) = .ok { failure := false, factor_1 := 659, factor_2 := 137 } ∧
    ((659 : Nat) * 137 = 137 * 659 ∧
      (false = true ↔ (659 : Nat) = 1 ∨ 659 = 137 * 659) ∧
      (false = false → ((659 : Nat) = 137 ∧ 137 = 659) ∨ ((659 : Nat) = 659 ∧ (137 : Nat) = 137))) :=
  ⟨by norm_num, by norm_num, by decide, main_90283,
    C1_main_returns_factors_or_failure mpz_legendre 100 137 659 _ (by norm_num) (by norm_num)
      (by decide) main_90283⟩

/-- C1 fails for `n = 309 = 3 * 103`: the run of `main` returns with `factor_1 = 1` and the
failure line, and no amount of fuel makes it end with the factors `3` and `103`. -/
theorem C1_counterexample_309 :
    Nat.Prime 3 ∧ Nat.Prime 103 ∧ (3 : Nat) ≠ 103 ∧
    main mpz_legendre 100 (3 * 103) = .ok { failure := true, factor_1 := 1, factor_2 := 309 } ∧
    ¬ ∃ fuel rep, main mpz_legendre fuel (3 * 103) = .ok rep ∧
      ((rep.factor_1 = 3 ∧ rep.factor_2 = 103) ∨ (rep.factor_1 = 103 ∧ rep.factor_2 = 3)) := by
  refine ⟨by norm_num, by norm_num, by decide, main_309, ?_⟩
  rintro ⟨fuel, rep, h, hcase⟩
  have h1 : main mpz_legendre (max fuel 100) 309 = main mpz_legendre fuel 309 :=
    main_mono mpz_legendre fuel (max fuel 100) 309 (le_max_left _ _) (by rw [h]; simp)
  have h2 : main mpz_legendre (max fuel 100) 309 = main mpz_legendre 100 309 :=
    main_mono mpz_legendre 100 (max fuel 100) 309 (le_max_right _ _) (by rw [main_309]; simp)
  rw [h1, main_309] at h2
  have h3 : main mpz_legendre fuel 309 = .ok rep := h
  rw [h3] at h2
  have hrep := Except.ok.inj h2
  subst hrep
  simp at hcase

/-! ## The test value 90283 (C13) -/

/-- C13: with the constants of the source (`SMOOTH_BOUND = 500`, `TRIAL_BOUND = 400`,
`SIEVE_CHUNK = 60`) the run of `main` for `n = 90283` returns, for every fuel from `100`
on, without the failure line and with `factor_1 = 659`, `factor_2 = 137`, so that
`{factor_1, factor_2} = {137, 659}`. -/
theorem C13_main_90283_factors :
    SMOOTH_BOUND = 500 ∧ TRIAL_BOUND = 400 ∧ SIEVE_CHUNK = 60 ∧
    (∀ fuel, 100 ≤ fuel →
      main mpz_legendre fuel 90283 = .ok { failure := false, factor_1 := 659, factor_2 := 137 }) ∧
    (137 : Nat) * 659 = 90283 := by
  refine ⟨rfl, rfl, rfl, ?_, by norm_num⟩
  intro fuel hfuel
  rw [main_mono mpz_legendre 100 fuel 90283 hfuel (by rw [main_90283]; simp), main_90283]

/-! ## The factor base of 8051 (C14) -/

/-- The primes below 20. -/
theorem eratosthenes_20 : eratosthenes 20 = [2, 3, 5, 7, 11, 13, 17, 19] := by
  decide

/-- The factor base of `n = 8051` for the primes below 20, with the smoothness bound 20
and with the bound `SMOOTH_BOUND` of the source. -/
theorem create_factor_base_8051 :
    create_factor_base_upto mpz_legendre 20 (eratosthenes 20) 8051 = [2, 5, 7, 13] ∧
      create_factor_base mpz_legendre (eratosthenes 20) 8051 = [2, 5, 7, 13] := by
  rw [eratosthenes_20]
  decide

/-- C14 fails: for `n = 8051` and the primes below 20 the residue test rejects `11`, `17`
and `19` (`mpz_legendre` gives `-1`), so they are not in the factor base. -/
theorem C14_counterexample_8051 :
    mpz_legendre 8051 11 = -1 ∧ mpz_legendre 8051 17 = -1 ∧ mpz_legendre 8051 19 = -1 ∧
    11 ∉ create_factor_base_upto mpz_legendre 20 (eratosthenes 20) 8051 ∧
    17 ∉ create_factor_base_upto mpz_legendre 20 (eratosthenes 20) 8051 ∧
    19 ∉ create_factor_base_upto mpz_legendre 20 (eratosthenes 20) 8051 := by
  rw [create_factor_base_8051.1]
  decide

/-- C14, amended: for `n = 8051`, smoothness bound 20 and the primes `eratosthenes(20)` the
factor base is `[2, 5, 7, 13]`; it includes `2`, `7` and `13`. -/
theorem C14_factor_base_8051 :
    create_factor_base_upto mpz_legendre 20 (eratosthenes 20) 8051 = [2, 5, 7, 13] ∧
    2 ∈ create_factor_base_upto mpz_legendre 20 (eratosthenes 20) 8051 ∧
    7 ∈ create_factor_base_upto mpz_legendre 20 (eratosthenes 20) 8051 ∧
    13 ∈ create_factor_base_upto mpz_legendre 20 (eratosthenes 20) 8051 := by
  rw [create_factor_base_8051.1]
  decide

/-! ## Order of the factor base (C11) -/

/-- The loop of `create_factor_base` keeps a sublist of the primes it is given. -/
theorem factor_base_loop_sublist (legendre : Nat → Nat → Int) (bound n : Nat)
    (primes : List Nat) :
    List.Sublist (factor_base_loop legendre bound n primes) primes := by
  rw [factor_base_loop_eq]
  exact (List.filter_sublist _).trans (List.takeWhile_sublist _)

/-- When the residue test does not return `1` for `p = 2`, the factor base of a strictly
ascending prime list that starts with `2` is strictly ascending. -/
theorem create_factor_base_sorted (legendre : Nat → Nat → Int) (n : Nat) (rest : List Nat)
    (hs : List.Sorted (· < ·) (2 :: rest)) (h2 : legendre n 2 ≠ 1) :
    List.Sorted (· < ·) (create_factor_base legendre (2 :: rest) n) := by
  have hloop : factor_base_loop legendre SMOOTH_BOUND n (2 :: rest) =
      factor_base_loop legendre SMOOTH_BOUND n rest := by
    have : ¬ 2 > SMOOTH_BOUND := by decide
    simp only [factor_base_loop, if_neg this, if_neg h2]
  unfold create_factor_base create_factor_base_upto
  rw [hloop]
  exact hs.sublist ((factor_base_loop_sublist legendre SMOOTH_BOUND n rest).cons₂ 2)

/-- When the residue test returns `1` for `p = 2`, the factor base of a prime list that
starts with `2` starts with `2, 2`. -/
theorem create_factor_base_two_twice (legendre : Nat → Nat → Int) (n : Nat) (rest : List Nat)
    (h2 : legendre n 2 = 1) :
    create_factor_base legendre (2 :: rest) n =
      2 :: 2 :: factor_base_loop legendre SMOOTH_BOUND n rest := by
  have : ¬ 2 > SMOOTH_BOUND := by decide
  simp only [create_factor_base, create_factor_base_upto, factor_base_loop, if_neg this,
    if_pos h2]

set_option maxRecDepth 1000000 in
/-- C11 fails for `n = 15` (`15 ≡ 7 (mod 8)`, so `mpz_legendre(15, 2) = 1`): the loop over the
primes does not skip `2`, which was already pushed, and the factor base built from
`eratosthenes(TRIAL_BOUND)` starts `2, 2, 7`: the value `2` sits at the indices `0` and `1`
and the sequence is not strictly ascending.  The same happens for every residue test that
returns `1` for `p = 2`. -/
theorem C11_factor_base_repeats_two :
    mpz_legendre 15 2 = 1 ∧
    (create_factor_base mpz_legendre (eratosthenes TRIAL_BOUND) 15).take 3 = [2, 2, 7] ∧
    ¬ List.Sorted (· < ·) (create_factor_base mpz_legendre (eratosthenes TRIAL_BOUND) 15) ∧
    ∀ (legendre : Nat → Nat → Int) (n : Nat) (rest : List Nat), legendre n 2 = 1 →
      (create_factor_base legendre (2 :: rest) n)[0]? = some 2 ∧
      (create_factor_base legendre (2 :: rest) n)[1]? = some 2 := by
  have h : create_factor_base mpz_legendre (eratosthenes TRIAL_BOUND) 15 =
      2 :: 2 :: factor_base_loop mpz_legendre SMOOTH_BOUND 15 (eratosthenes TRIAL_BOUND).tail := by
    rw [eratosthenes_TRIAL_BOUND]
    exact create_factor_base_two_twice mpz_legendre 15 _ (by decide)
  refine ⟨by decide, ?_, ?_, ?_⟩
  · rw [h, eratosthenes_TRIAL_BOUND]
    decide!
  · rw [h]
    intro hs
    have := List.rel_of_sorted_cons hs 2 (List.mem_cons_self _ _)
    omega
  · intro legendre n rest h2
    rw [create_factor_base_two_twice legendre n rest h2]
    exact ⟨by simp, by simp⟩

/-! ## The report of the final step (C12) -/

/-- On `n > 0` the final step prints the failure line exactly when the gcd is `1` or `n`,
and then the two factor lines. -/
theorem final_lines_ok (n : Nat) (y x : Int) (hn : 0 < n) :
    final_lines n y x =
      .ok ((if Int.gcd n (y - x) = 1 ∨ Int.gcd n (y - x) = n then [Line.failure] else []) ++
        [Line.factor_1 (Int.gcd n (y - x)), Line.factor_2 (n / Int.gcd n (y - x))]) := by
  have h0 : Int.gcd (n : Int) (y - x) ≠ 0 := by
    intro h
    rw [Int.gcd_eq_zero_iff] at h
    omega
  simp only [final_lines, if_neg h0]

/-- C12 fails on the values `main` reaches for `n = 309` (`y = 8360`, `x = 910`,
`gcd(309, 7450) = 1`): the failure line is printed, and after it the factor pair `(1, 309)`
is printed all the same. -/
theorem C12_counterexample_309 :
    Int.gcd (309 : Nat) (8360 - 910) = 1 ∧
    final_lines 309 8360 910 = .ok [Line.failure, Line.factor_1 1, Line.factor_2 309] ∧
    ¬ (1 < Int.gcd (309 : Nat) (8360 - 910) ∧ Int.gcd (309 : Nat) (8360 - 910) < 309) := by
  decide

/-- C12, amended: for `n > 0` the final step of `main` prints the failure line exactly when
`factor_1 = gcd(n, y - x)` is `1` or `n`, and in every case, after it, the two lines of the
pair `factor_1`, `factor_2 = n / factor_1`. -/
theorem C12_final_step_lines (n : Nat) (y x : Int) (hn : 0 < n) :
    ∃ lines, final_lines n y x = .ok lines ∧
      (Line.failure ∈ lines ↔ Int.gcd n (y - x) = 1 ∨ Int.gcd n (y - x) = n) ∧
      lines.filter (fun l => decide (l ≠ Line.failure)) =
        [Line.factor_1 (Int.gcd n (y - x)), Line.factor_2 (n / Int.gcd n (y - x))] := by
  refine ⟨_, final_lines_ok n y x hn, ?_, ?_⟩
  · by_cases h : Int.gcd (n : Int) (y - x) = 1 ∨ Int.gcd (n : Int) (y - x) = n
    · simp [h]
    · simp [h]
  · by_cases h : Int.gcd (n : Int) (y - x) = 1 ∨ Int.gcd (n : Int) (y - x) = n
    · simp [h, List.filter_cons]
    · simp [h, List.filter_cons]

theorem C12_witness :
    0 < 15 ∧
    ∃ lines, final_lines 15 4 1 = .ok lines ∧
      (Line.failure ∈ lines ↔ Int.gcd (15 : Nat) (4 - 1) = 1 ∨ Int.gcd (15 : Nat) (4 - 1) = 15) ∧
      lines.filter (fun l => decide (l ≠ Line.failure)) =
        [Line.factor_1 (Int.gcd (15 : Nat) (4 - 1)),
         Line.factor_2 (15 / Int.gcd (15 : Nat) (4 - 1))] :=
  ⟨by decide, C12_final_step_lines 15 4 1 (by decide)⟩

/-! ## Indices used by `gaussian_elimination` (C18) -/

/-- When the diagonal of a matrix with fewer rows than `Aj` is `1` throughout, the
diagonal scan loads the row after the last one. -/
theorem diagonal_scan_full_diagonal (A : Matrix) (hd : ∀ i, i < A.length → rd2 A i i = .ok 1)
    (c : Nat) :
    ∀ f, f ≤ A.length → A.length < f + c → diagonal_scan A c f = .error .out_of_range := by
  induction c with
  | zero => intro f h1 h2; omega
  | succ c ih =>
    intro f h1 h2
    unfold diagonal_scan
    by_cases hf : f < A.length
    · rw [hd f hf]
      simp only [ne_eq, not_true_eq_false, if_false]
      exact ih (f + 1) hf (by omega)
    · have hnone : A.get? f = none := by
        rw [List.get?_eq_getElem?]
        exact List.getElem?_eq_none (by omega)
      simp only [rd2, rd, hnone]

/-- C18 fails on the three vectors `[1, 0]`, `[0, 1]`, `[1, 1]` (`k = 2`, `m = 3`): the
transposed matrix `[[1, 0, 1], [0, 1, 1]]` has `1` on its diagonal, forward elimination
leaves it unchanged, and the diagonal scan, bounded by `Aj = 3`, loads `A[2][2]` from a
matrix with two rows.  So it is for every matrix with fewer rows than `Aj` whose diagonal
is `1` throughout. -/
theorem C18_diagonal_scan_reads_row_k (smooth_numbers smooth_x : List Nat) :
    transpose_rows [[1, 0], [0, 1], [1, 1]] 3 2 0 = .ok [[1, 0, 1], [0, 1, 1]] ∧
      forward 2 2 0 [[1, 0, 1], [0, 1, 1]] = .ok [[1, 0, 1], [0, 1, 1]] ∧
      rd2 [[1, 0, 1], [0, 1, 1]] 0 0 = .ok 1 ∧
      rd2 [[1, 0, 1], [0, 1, 1]] 1 1 = .ok 1 ∧
      rd2 [[1, 0, 1], [0, 1, 1]] 2 2 = .error .out_of_range ∧
      diagonal_scan [[1, 0, 1], [0, 1, 1]] 3 0 = .error .out_of_range ∧
      gaussian_elimination [[1, 0], [0, 1], [1, 1]] smooth_numbers smooth_x =
        .error .out_of_range ∧
      ∀ (A : Matrix) (Aj : Nat), A.length < Aj → (∀ i, i < A.length → rd2 A i i = .ok 1) →
        diagonal_scan A Aj 0 = .error .out_of_range :=
  ⟨rfl, rfl, rfl, rfl, rfl, rfl, rfl,
    fun A Aj hlt hd => diagonal_scan_full_diagonal A hd Aj 0 (Nat.zero_le _) (by omega)⟩

/-! ## Indices used by `eratosthenes` (C19) -/

theorem strike_indices_le (bound i : Nat) (fuel : Nat) :
    ∀ j, ∀ x ∈ strike_indices bound i fuel j, x ≤ bound := by
  induction fuel with
  | zero => intro j x hx; simp [strike_indices] at hx
  | succ fuel ih =>
    intro j x hx
    unfold strike_indices at hx
    by_cases hj : j ≤ bound
    · rw [if_pos hj] at hx
      rcases List.mem_cons.mp hx with rfl | hx
      · exact hj
      · exact ih _ x hx
    · rw [if_neg hj] at hx
      simp at hx

theorem mark_indices_le (bound : Nat) (fuel : Nat) :
    ∀ (i : Nat) (A : List Bool), ∀ x ∈ mark_indices bound fuel i A, x ≤ bound := by
  induction fuel with
  | zero => intro i A x hx; simp [mark_indices] at hx
  | succ fuel ih =>
    intro i A x hx
    unfold mark_indices at hx
    by_cases hi : i * i < bound
    · rw [if_pos hi] at hx
      rcases List.mem_append.mp hx with hx | hx
      · by_cases ha : A.getD i false = true
        · rw [if_pos ha] at hx
          exact strike_indices_le bound i _ _ x hx
        · rw [if_neg ha] at hx
          simp at hx
      · exact ih _ _ x hx
    · rw [if_neg hi] at hx
      simp at hx

/-- The striking loop for `i = 2` reaches every index of the parity of its start, up to
and including `bound`. -/
theorem strike_indices_two (bound : Nat) (fuel : Nat) :
    ∀ j, j ≤ bound → (bound - j) % 2 = 0 → bound - j < 2 * fuel →
      bound ∈ strike_indices bound 2 fuel j := by
  induction fuel with
  | zero => intro j h1 h2 h3; omega
  | succ fuel ih =>
    intro j h1 h2 h3
    unfold strike_indices
    rw [if_pos h1]
    by_cases hj : j = bound
    · rw [hj]
      exact List.mem_cons_self _ _
    · exact List.mem_cons_of_mem _ (ih (j + 2) (by omega) (by omega) (by omega))

/-- For an even bound above `4` the first striking loop (`i = 2`) stores at index `bound`. -/
theorem eratosthenes_stores_even (B : Nat) (h4 : 4 < B) (heven : B % 2 = 0) :
    B ∈ eratosthenes_stores B := by
  obtain ⟨b, rfl⟩ : ∃ b, B = b + 1 := ⟨B - 1, by omega⟩
  have h2 : (((List.replicate (b + 1) true).set 0 false).set 1 false).getD 2 false = true := by
    rw [List.getD_eq_getElem?_getD, List.getElem?_set_ne (by decide),
      List.getElem?_set_ne (by decide), List.getElem?_replicate, if_pos (by omega)]
    rfl
  unfold eratosthenes_stores mark_indices
  rw [if_pos (by omega), if_pos h2]
  refine List.mem_cons_of_mem _ (List.mem_cons_of_mem _ (List.mem_append_left _ ?_))
  exact strike_indices_two (b + 1) (b + 1 + 1) (2 * 2) (by omega) (by omega) (by omega)

/-- C19 fails for `B = 6`: the stores of `eratosthenes(6)` are at the indices `0, 1, 4, 6`,
the last one, made by the striking loop for `i = 2` (`j <= bound`), one past the last cell
of the vector of length `6`.  The same store at index `B` happens for every even `B > 4`,
among them `TRIAL_BOUND`, the bound `main` uses; no store goes beyond index `B`. -/
theorem C19_strike_stores_at_bound :
    eratosthenes_stores 6 = [0, 1, 4, 6] ∧
    strike_indices 6 2 (6 + 1) (2 * 2) = [4, 6] ∧
    TRIAL_BOUND ∈ eratosthenes_stores TRIAL_BOUND ∧
    (∀ B, 4 < B → B % 2 = 0 → B ∈ eratosthenes_stores B) ∧
    ∀ B j, 2 ≤ B → j ∈ eratosthenes_stores B → j ≤ B := by
  refine ⟨by decide, by decide, eratosthenes_stores_even _ (by decide) (by decide),
    eratosthenes_stores_even, ?_⟩
  intro B j hB hj
  unfold eratosthenes_stores at hj
  rcases List.mem_cons.mp hj with rfl | hj
  · omega
  rcases List.mem_cons.mp hj with rfl | hj
  · omega
  exact mark_indices_le B B 2 _ j hj

/-! ## Termination of `factor_smooth` (C20) -/

/-- On `n = 0` the loop `while (n % factor == 0)` uses up any fuel. -/
theorem divide_out_zero (i factor : Nat) (hf : factor ≠ 0) (fuel : Nat) :
    ∀ factors, divide_out i factor fuel factors 0 = .error .out_of_fuel := by
  induction fuel with
  | zero => intro factors; rfl
  | succ fuel ih =>
    intro factors
    unfold divide_out
    rw [if_neg hf, if_pos (Nat.zero_mod _), Nat.zero_div]
    exact ih _

theorem factor_smooth_zero (fuel : Nat) (factors : List Nat) (p : Nat) (rest : List Nat)
    (hp : p ≠ 0) : factor_smooth fuel factors 0 (p :: rest) = .error .out_of_fuel := by
  simp only [factor_smooth, factor_loop, divide_out_zero 0 p hp fuel factors]

/-- On `n ≥ 1` with a factor `≥ 2` the loop `while (n % factor == 0)` ends within `n`
iterations, with a remainder between `1` and `n`. -/
theorem divide_out_terminates (i factor : Nat) (hf : 2 ≤ factor) (fuel : Nat) :
    ∀ (factors : List Nat) (n : Nat), 1 ≤ n → n ≤ fuel →
      ∃ r, divide_out i factor fuel factors n = .ok r ∧ 1 ≤ r.2 ∧ r.2 ≤ n := by
  induction fuel with
  | zero => intro factors n h1 h2; omega
  | succ fuel ih =>
    intro factors n h1 h2
    unfold divide_out
    rw [if_neg (by omega)]
    by_cases hmod : n % factor = 0
    · rw [if_pos hmod]
      have hdvd : factor ∣ n := Nat.dvd_of_mod_eq_zero hmod
      have hle : factor ≤ n := Nat.le_of_dvd (by omega) hdvd
      have hpos : 1 ≤ n / factor := (Nat.one_le_div_iff (by omega)).mpr hle
      have hlt : n / factor < n := Nat.div_lt_self (by omega) (by omega)
      obtain ⟨r, hr, hr1, hr2⟩ := ih (xor_at factors i) (n / factor) hpos (by omega)
      exact ⟨r, hr, hr1, by omega⟩
    · rw [if_neg hmod]
      exact ⟨(factors, n), rfl, h1, le_refl _⟩

theorem factor_loop_terminates (fuel : Nat) (rest : List Nat) :
    ∀ (i : Nat) (factors : List Nat) (n : Nat), (∀ p ∈ rest, 2 ≤ p) → 1 ≤ n → n ≤ fuel →
      ∃ r, factor_loop fuel i rest factors n = .ok r := by
  induction rest with
  | nil => intro i factors n _ _ _; exact ⟨(factors, n), rfl⟩
  | cons p rest ih =>
    intro i factors n hfb h1 h2
    obtain ⟨r, hr, hr1, hr2⟩ :=
      divide_out_terminates i p (hfb p (List.mem_cons_self _ _)) fuel factors n h1 h2
    obtain ⟨fs, n'⟩ := r
    simp only [factor_loop, hr]
    exact ih (i + 1) fs n' (fun q hq => hfb q (List.mem_cons_of_mem _ hq)) hr1 (by omega)

/-- For `s ≥ 1` and a factor base with entries `≥ 2`, `factor_smooth` returns for every
fuel from `s` on. -/
theorem factor_smooth_terminates (fuel : Nat) (factors : List Nat) (s : Nat)
    (factor_base : List Nat) (hfb : ∀ p ∈ factor_base, 2 ≤ p) (h1 : 1 ≤ s) (h2 : s ≤ fuel) :
    ∃ r, factor_smooth fuel factors s factor_base = .ok r := by
  obtain ⟨r, hr⟩ := factor_loop_terminates fuel factor_base 0 factors s hfb h1 h2
  obtain ⟨fs, n'⟩ := r
  exact ⟨(fs, n' == 1), by simp only [factor_smooth, hr]⟩

/-- C20 fails for `s = 0`, which `sieve` passes for `n = 5` as the third candidate of its
first chunk (`x = 5`, `5² mod 5 = 0`): with the factor base `[2]` the loop
`while (n % factor == 0) n /= factor` stays at `n = 0` and uses up any fuel.  So it is for
every factor base whose first entry is not `0`. -/
theorem C20_factor_smooth_zero_never_returns :
    (build_chunk (mpz_sqrt 5) 1 5 SIEVE_CHUNK 0).map (fun chunk => chunk.take 3) =
      .ok [(3, 4), (4, 1), (5, 0)] ∧
    (∀ fuel, factor_smooth fuel [0] 0 [2] = .error .out_of_fuel) ∧
    ∀ (fuel : Nat) (factors : List Nat) (p : Nat) (rest : List Nat), 2 ≤ p →
      factor_smooth fuel factors 0 (p :: rest) = .error .out_of_fuel := by
  refine ⟨by decide, fun fuel => factor_smooth_zero fuel [0] 2 [] (by decide), ?_⟩
  intro fuel factors p rest hp
  exact factor_smooth_zero fuel factors p rest (by omega)

/-! ## Shape of the reduced matrix (C15) -/

theorem pivot_eq (row : List Nat) :
    ∀ i, row.getD i 0 ≠ 0 → (∀ c, c < i → row.getD c 0 = 0) → pivot row = some i := by
  induction row with
  | nil => intro i h; simp at h
  | cons a row ih =>
    intro i h hz
    cases i with
    | zero =>
      have ha : a ≠ 0 := by simpa using h
      simp only [pivot, if_pos ha]
    | succ i =>
      have ha : a = 0 := by simpa using hz 0 (Nat.succ_pos _)
      have hi : row.getD i 0 ≠ 0 := by simpa using h
      have hz' : ∀ c, c < i → row.getD c 0 = 0 := by
        intro c hc
        simpa using hz (c + 1) (by omega)
      have hne : ¬ a ≠ 0 := by simp [ha]
      simp only [pivot, if_neg hne, ih i hi hz', Option.map_some']

/-- Whenever `gaussian_elimination` returns on bit vectors, the matrix it leaves has the
shape of the transposed input, the boundary `f` is at most the number of rows, the columns
before `f` are unit columns and column `f` is zero from row `f` down. -/
theorem gaussian_elimination_reduced (sf : Matrix) (sn sx : List Nat) (g : GaussOut)
    (hbits : ∀ v ∈ sf, ∀ a ∈ v, a < 2)
    (h : gaussian_elimination sf sn sx = .ok g) :
    g.f ≤ (sf.headD []).length ∧ Rect (sf.headD []).length sf.length g.A ∧ Bits g.A ∧
      (∀ c, c < g.f → ∀ r, entry g.A r c = if r = c then 1 else 0) ∧
      ∀ r, g.f ≤ r → entry g.A r g.f = 0 := by
  have hflt' : g.f < sf.length := (gaussian_elimination_null_space sf sn sx g hbits h).1
  unfold gaussian_elimination at h
  cases h0 : rd sf 0 with
  | error e => simp [h0] at h
  | ok row0 =>
  simp only [h0] at h
  have hrow0 : sf[0]? = some row0 := (rd_ok_iff sf 0 row0).mp h0
  have hne : 0 < sf.length := (List.getElem?_eq_some_iff.mp hrow0).1
  have hhead : sf.headD [] = row0 := by
    cases sf with
    | nil => simp at hne
    | cons v sf' => simpa using hrow0
  cases hT : transpose_rows sf sf.length row0.length 0 with
  | error e => simp [hT] at h
  | ok A0 =>
  simp only [hT] at h
  cases hF : forward row0.length row0.length 0 A0 with
  | error e => simp [hF] at h
  | ok A1 =>
  simp only [hF] at h
  cases hS : diagonal_scan A1 sf.length 0 with
  | error e => simp [hS] at h
  | ok f =>
  simp only [hS] at h
  cases hBk : back_substitution f A1 with
  | error e => simp [hBk] at h
  | ok A2 =>
  simp only [hBk] at h
  cases hN : fill_null_space A2 f f 0 ((List.replicate sf.length 0).set f 1) with
  | error e => simp [hN] at h
  | ok ns =>
  simp only [hN] at h
  cases hP : products sn sx ns 0 1 1 with
  | error e => simp [hP] at h
  | ok xy =>
  obtain ⟨x_square, y⟩ := xy
  simp only [hP, Except.ok.injEq] at h
  subst h
  simp only at hflt' ⊢
  rw [hhead]
  obtain ⟨hlen0, hrows0⟩ := transpose_rows_spec sf row0.length 0 A0 hT
  have hR0 : Rect row0.length sf.length A0 := by
    refine ⟨hlen0, fun r hr => ?_⟩
    rw [hrows0 r hr]
    simp
  have hB0 : Bits A0 := by
    intro r c
    by_cases hr : r < row0.length
    · unfold entry
      rw [hrows0 r hr]
      simp only [Nat.zero_add, List.getD_eq_getElem?_getD, List.getElem?_map]
      cases hc : sf[c]? with
      | none => simp
      | some v =>
        simp only [Option.map_some', Option.getD_some]
        have hv : v ∈ sf := List.getElem?_mem hc
        cases hvr : v[r]? with
        | none => simp
        | some a =>
          simp only [Option.getD_some]
          exact hbits v hv a (List.getElem?_mem hvr)
    · rw [entry_of_ge A0 r c (by omega)]
      omega
  obtain ⟨hR1, hB1, hL1, -⟩ := forward_spec row0.length sf.length row0.length 0 A0 A1
    hR0 hB0 (fun c hc => by omega) (by omega) hF
  obtain ⟨-, hfle, hdiag, hfound⟩ := diagonal_scan_spec A1 sf.length 0 f hS
  have hfAi : f ≤ row0.length := by
    by_contra hcon
    have h1 := hdiag row0.length (Nat.zero_le _) (by omega)
    rw [entry_of_ge A1 _ _ (by rw [hR1.1])] at h1
    omega
  have hfz : ∀ r, f ≤ r → entry A1 r f = 0 := by
    intro r hr
    obtain ⟨hfA, hf1⟩ := hfound (by omega)
    by_cases hrf : r = f
    · subst hrf
      exact eq_zero_of_bit_ne_one _ (hB1 r r) hf1
    · exact hL1 f (by rw [← hR1.1]; exact hfA) r (by omega)
  obtain ⟨hR2, hB2, hI2, hF2, -⟩ :=
    back_substitution_spec row0.length sf.length f hfAi f A1 A2 hR1 hB1 hL1 (le_refl _)
      (fun c hc => hdiag c (Nat.zero_le _) hc) (fun c h1 h2 => by omega) hfz hBk
  exact ⟨hfAi, hR2, hB2, hI2, hF2⟩

/-- C15 fails on the three vectors `[0, 0]`, `[1, 1]`, `[1, 0]` (`k = 2`, `m = 3`):
`gaussian_elimination` returns with `f = 0` and the matrix `[[0, 1, 1], [0, 1, 0]]`, whose
two rows both have their pivot in column `1`. -/
theorem C15_counterexample_two_pivots :
    (gaussian_elimination [[0, 0], [1, 1], [1, 0]] [1, 1, 1] [1, 1, 1]).map
        (fun g => (g.A, g.f)) = .ok ([[0, 1, 1], [0, 1, 0]], 0) ∧
    pivot (rowAt [[0, 1, 1], [0, 1, 0]] 0) = some 1 ∧
    pivot (rowAt [[0, 1, 1], [0, 1, 0]] 1) = some 1 ∧
    ¬ ReducedEchelon [[0, 1, 1], [0, 1, 0]] := by
  refine ⟨by decide, by decide, by decide, ?_⟩
  intro hre
  have := hre.1 0 1 1 1 (by decide) (by decide) (by decide)
  omega

/-- C15, amended: for bit vectors, whenever `gaussian_elimination` returns, with `f` the
boundary found by the diagonal scan, the rows `0, ..., f - 1` of the matrix `A` have their
pivots in the columns `0, ..., f - 1` (moving strictly to the right from one row to the
next), each of these pivots is the only non-zero entry of its column, and column `f` is
zero from row `f` down; `f` is at most the number of rows and less than the number of
columns. -/
theorem C15_reduced_up_to_boundary (sf : Matrix) (sn sx : List Nat) (g : GaussOut)
    (hbits : ∀ v ∈ sf, ∀ a ∈ v, a < 2)
    (h : gaussian_elimination sf sn sx = .ok g) :
    g.f ≤ g.A.length ∧ g.f < sf.length ∧
      (∀ i, i < g.f → pivot (rowAt g.A i) = some i) ∧
      (∀ i, i < g.f → ∀ r, r ≠ i → entry g.A r i = 0) ∧
      ∀ r, g.f ≤ r → entry g.A r g.f = 0 := by
  obtain ⟨hf, hR, -, hI, hF⟩ := gaussian_elimination_reduced sf sn sx g hbits h
  refine ⟨by rw [hR.1]; exact hf, (gaussian_elimination_null_space sf sn sx g hbits h).1,
    ?_, ?_, hF⟩
  · intro i hi
    apply pivot_eq
    · have := hI i hi i
      rw [if_pos rfl] at this
      unfold entry at this
      rw [this]
      decide
    · intro c hc
      have := hI c (by omega) i
      rw [if_neg (by omega)] at this
      exact this
  · intro i hi r hr
    rw [hI i hi r, if_neg hr]

theorem C15_witness :
    (∀ v ∈ ([[1, 0], [1, 0], [0, 1]] : Matrix), ∀ a ∈ v, a < 2) ∧
    gaussian_elimination [[1, 0], [1, 0], [0, 1]] [1, 1, 1] [1, 1, 1] =
      .ok { A := [[1, 1, 0], [0, 0, 1]], f := 1, null_space := [1, 1, 0], x_square := 1,
            x := 1, rem := 0, y := 1 } ∧
    (1 ≤ [[1, 1, 0], [0, 0, 1]].length ∧ 1 < [[1, 0], [1, 0], [0, 1]].length ∧
      (∀ i, i < 1 → pivot (rowAt [[1, 1, 0], [0, 0, 1]] i) = some i) ∧
      (∀ i, i < 1 → ∀ r, r ≠ i → entry [[1, 1, 0], [0, 0, 1]] r i = 0) ∧
      ∀ r, 1 ≤ r → entry [[1, 1, 0], [0, 0, 1]] r 1 = 0) :=
  ⟨by decide, by decide,
    C15_reduced_up_to_boundary [[1, 0], [1, 0], [0, 1]] [1, 1, 1] [1, 1, 1]
      { A := [[1, 1, 0], [0, 0, 1]], f := 1, null_space := [1, 1, 0], x_square := 1,
        x := 1, rem := 0, y := 1 } (by decide) (by decide)⟩

/-! ## `eratosthenes` with every access checked (C9) -/

theorem sieve_loop_with_SIEVE_CHUNK (fuel n sqrt_n : Nat) (factor_base : List Nat)
    (rounds : Nat) :
    ∀ (j : Nat) (st : SieveState),
      sieve_loop_with SIEVE_CHUNK fuel n sqrt_n factor_base rounds j st =
        sieve_loop fuel n sqrt_n factor_base rounds j st := by
  induction rounds with
  | zero => intro j st; rfl
  | succ rounds ih =>
    intro j st
    unfold sieve_loop_with sieve_loop
    by_cases hnd : st.not_done = true
    · simp only [if_pos hnd]
      cases build_chunk sqrt_n j n SIEVE_CHUNK 0 with
      | error e => rfl
      | ok chunk =>
        simp only
        cases scan_chunk fuel factor_base chunk st with
        | error e => rfl
        | ok st' => exact ih _ _
    · simp only [if_neg hnd]

/-- The function `sieve` is `sieve_with` at the batch size `SIEVE_CHUNK`. -/
theorem sieve_with_SIEVE_CHUNK (fuel : Nat) (sn sx : List Nat) (sf : Matrix) (n : Nat)
    (factor_base : List Nat) :
    sieve_with SIEVE_CHUNK fuel sn sx sf n factor_base = sieve fuel sn sx sf n factor_base := by
  unfold sieve_with sieve
  exact sieve_loop_with_SIEVE_CHUNK fuel n (mpz_sqrt n) factor_base fuel 1 _

theorem candidates_succ (n s N : Nat) :
    candidates n s (N + 1) = (s, s ^ 2 % n) :: candidates n (s + 1) N := by
  simp [candidates, List.range'_succ]

theorem candidates_append (n s M N : Nat) :
    candidates n s (M + N) = candidates n s M ++ candidates n (s + M) N := by
  unfold candidates
  rw [← List.map_append]
  congr 1
  have := List.range'_append s M N 1
  rw [Nat.one_mul] at this
  rw [this, Nat.add_comm]

theorem build_chunk_eq (sqrt_n j n : Nat) (hn : n ≠ 0) (c : Nat) :
    ∀ i, build_chunk sqrt_n j n c i = .ok (candidates n (sqrt_n + j + i) c) := by
  induction c with
  | zero => intro i; rfl
  | succ c ih =>
    intro i
    unfold build_chunk
    simp only [powm2, if_neg hn, ih (i + 1), candidates_succ]
    rfl

theorem build_chunk_zero (sqrt_n j : Nat) (c i : Nat) :
    build_chunk sqrt_n j 0 (c + 1) i = .error .division_by_zero := by
  unfold build_chunk
  simp only [powm2, if_pos]

/-- Scanning `l1 ++ l2` is scanning `l1` and then, unless the `break` was taken, `l2`. -/
theorem scan_chunk_append (fuel : Nat) (factor_base : List Nat) (l1 l2 : List (Nat × Nat)) :
    ∀ st : SieveState, st.not_done = true →
      scan_chunk fuel factor_base (l1 ++ l2) st =
        match scan_chunk fuel factor_base l1 st with
        | .error e => .error e
        | .ok st1 => if st1.not_done then scan_chunk fuel factor_base l2 st1 else .ok st1 := by
  induction l1 with
  | nil =>
    intro st hnd
    simp only [List.nil_append, scan_chunk, hnd, if_true]
  | cons c rest ih =>
    intro st hnd
    obtain ⟨x, current⟩ := c
    rw [List.cons_append]
    simp only [scan_chunk]
    cases hres : factor_smooth fuel (List.replicate factor_base.length 0) current
        factor_base with
    | error e => rfl
    | ok r =>
      obtain ⟨factors, is_smooth⟩ := r
      simp only
      by_cases hs : is_smooth = true
      · simp only [if_pos hs]
        by_cases hc : st.smooth_count > factor_base.length
        · simp only [if_pos hc]
          simp
        · simp only [if_neg hc]
          exact ih _ hnd
      · simp only [if_neg hs]
        exact ih _ hnd

/-- A run of the batched loop that returns is a scan over the candidates of its rounds,
left by the `break`. -/
theorem sieve_loop_with_scan (c fuel n sqrt_n : Nat) (factor_base : List Nat) (hc : 1 ≤ c)
    (rounds : Nat) :
    ∀ (j : Nat) (st st' : SieveState), st.not_done = true →
      sieve_loop_with c fuel n sqrt_n factor_base rounds j st = .ok st' →
      n ≠ 0 ∧ scan_chunk fuel factor_base (candidates n (sqrt_n + j) (rounds * c)) st = .ok st' ∧
        st'.not_done = false := by
  induction rounds with
  | zero => intro j st st' _ h; simp [sieve_loop_with] at h
  | succ rounds ih =>
    intro j st st' hnd h
    have hn : n ≠ 0 := by
      rintro rfl
      obtain ⟨c', rfl⟩ : ∃ c', c = c' + 1 := ⟨c - 1, by omega⟩
      simp only [sieve_loop_with, hnd, if_true, build_chunk_zero] at h
      exact absurd h (by simp)
    refine ⟨hn, ?_⟩
    simp only [sieve_loop_with, hnd, if_true, build_chunk_eq sqrt_n j n hn c 0,
      Nat.add_zero] at h
    have hsplit : (rounds + 1) * c = c + rounds * c := by ring
    rw [hsplit, candidates_append, scan_chunk_append fuel factor_base _ _ st hnd]
    cases hscan : scan_chunk fuel factor_base (candidates n (sqrt_n + j) c) st with
    | error e => simp [hscan] at h
    | ok st1 =>
      simp only [hscan] at h ⊢
      by_cases hnd1 : st1.not_done = true
      · obtain ⟨-, h1, h2⟩ := ih (j + c) st1 st' hnd1 h
        rw [if_pos hnd1]
        rw [← Nat.add_assoc] at h1
        exact ⟨h1, h2⟩
      · rw [if_neg hnd1]
        cases rounds with
        | zero => simp [sieve_loop_with] at h
        | succ rounds =>
          simp only [sieve_loop_with, if_neg hnd1] at h
          have hst : st1 = st' := Except.ok.inj h
          subst hst
          exact ⟨rfl, by simpa using hnd1⟩

/-- A scan over the first `N` candidates that is left by the `break` is the result of the
batched loop for every batch size `c ≥ 1`, given `N + 2` rounds. -/
theorem sieve_loop_with_of_scan (c fuel n sqrt_n : Nat) (factor_base : List Nat) (hc : 1 ≤ c)
    (hn : n ≠ 0) (rounds : Nat) :
    ∀ (N j : Nat) (st st' : SieveState), st.not_done = true →
      scan_chunk fuel factor_base (candidates n (sqrt_n + j) N) st = .ok st' →
      st'.not_done = false → N + 2 ≤ rounds →
      sieve_loop_with c fuel n sqrt_n factor_base rounds j st = .ok st' := by
  induction rounds with
  | zero => intro N j st st' _ _ _ hr; omega
  | succ rounds ih =>
    intro N j st st' hnd h hnd' hr
    simp only [sieve_loop_with, hnd, if_true, build_chunk_eq sqrt_n j n hn c 0, Nat.add_zero]
    obtain ⟨r, hr'⟩ : ∃ r, rounds = r + 1 := ⟨rounds - 1, by omega⟩
    by_cases hNc : N ≤ c
    · -- the scan ends inside the first batch
      obtain ⟨d, rfl⟩ : ∃ d, c = N + d := ⟨c - N, by omega⟩
      rw [candidates_append, scan_chunk_append fuel factor_base _ _ st hnd, h]
      simp only [hnd', Bool.false_eq_true, if_false]
      rw [hr']
      simp only [sieve_loop_with, hnd', Bool.false_eq_true, if_false]
    · obtain ⟨d, rfl⟩ : ∃ d, N = c + d := ⟨N - c, by omega⟩
      rw [candidates_append, scan_chunk_append fuel factor_base _ _ st hnd] at h
      cases hscan : scan_chunk fuel factor_base (candidates n (sqrt_n + j) c) st with
      | error e => simp [hscan] at h
      | ok st1 =>
        simp only [hscan] at h ⊢
        by_cases hnd1 : st1.not_done = true
        · rw [if_pos hnd1] at h
          rw [Nat.add_assoc] at h
          exact ih d (j + c) st1 st' hnd1 h hnd' (by omega)
        · rw [if_neg hnd1] at h
          have hst : st1 = st' := Except.ok.inj h
          subst hst
          rw [hr']
          simp only [sieve_loop_with, hnd', Bool.false_eq_true, if_false]

theorem take_set_succ (l : List Nat) (a : Nat) :
    ∀ i, i < l.length → (l.set i a).take (i + 1) = l.take i ++ [a] := by
  induction l with
  | nil => intro i h; simp at h
  | cons b l ih =>
    intro i h
    cases i with
    | zero => simp
    | succ i =>
      have := ih i (by simpa using h)
      simp [List.set_cons_succ, List.take_succ_cons, this]

theorem take_set_succ_matrix (l : Matrix) (a : List Nat) :
    ∀ i, i < l.length → (l.set i a).take (i + 1) = l.take i ++ [a] := by
  induction l with
  | nil => intro i h; simp at h
  | cons b l ih =>
    intro i h
    cases i with
    | zero => simp
    | succ i =>
      have := ih i (by simpa using h)
      simp [List.set_cons_succ, List.take_succ_cons, this]

theorem accepts_of_ok (fuel n : Nat) (factor_base : List Nat) (x : Nat) (factors : List Nat)
    (b : Bool)
    (h : factor_smooth fuel (List.replicate factor_base.length 0) (x ^ 2 % n) factor_base =
      .ok (factors, b)) :
    accepts fuel n factor_base x = b ∧ parities fuel n factor_base x = factors := by
  simp only [accepts, parities, h, and_self]

/-- What a scan over the candidates `s, ..., s + N - 1` has recorded when it is left by the
`break`: with `s + M` the candidate at which it breaks, the smooth candidates before
`s + M`, in increasing order, have gone to the slots from `smooth_count` on and fill the
vectors, and `s + M` is smooth as well. -/
theorem scan_candidates_first (fuel n : Nat) (factor_base : List Nat) (N : Nat) :
    ∀ (s : Nat) (st st' : SieveState), st.not_done = true →
      st.smooth_count ≤ factor_base.length + 1 →
      st.smooth_x.length = factor_base.length + 1 →
      st.smooth_numbers.length = factor_base.length + 1 →
      st.smooth_factors.length = factor_base.length + 1 →
      scan_chunk fuel factor_base (candidates n s N) st = .ok st' → st'.not_done = false →
      ∃ M, M < N ∧ accepts fuel n factor_base (s + M) = true ∧
        (∀ x, s ≤ x → x ≤ s + M → ∃ r,
          factor_smooth fuel (List.replicate factor_base.length 0) (x ^ 2 % n) factor_base =
            .ok r) ∧
        st.smooth_count + ((List.range' s M).filter (accepts fuel n factor_base)).length =
          factor_base.length + 1 ∧
        st'.smooth_x = st.smooth_x.take st.smooth_count ++
          (List.range' s M).filter (accepts fuel n factor_base) ∧
        st'.smooth_numbers = st.smooth_numbers.take st.smooth_count ++
          ((List.range' s M).filter (accepts fuel n factor_base)).map (fun x => x ^ 2 % n) ∧
        st'.smooth_factors = st.smooth_factors.take st.smooth_count ++
          ((List.range' s M).filter (accepts fuel n factor_base)).map
            (parities fuel n factor_base) := by
  induction N with
  | zero =>
    intro s st st' hnd _ _ _ _ h hnd'
    simp only [candidates, List.range'_zero, List.map_nil, scan_chunk, Except.ok.injEq] at h
    subst h
    rw [hnd] at hnd'
    exact absurd hnd' (by decide)
  | succ N ih =>
    intro s st st' hnd hcnt hlx hln hlf h hnd'
    rw [candidates_succ] at h
    simp only [scan_chunk] at h
    cases hres : factor_smooth fuel (List.replicate factor_base.length 0) (s ^ 2 % n)
        factor_base with
    | error e => simp [hres] at h
    | ok r =>
      obtain ⟨factors, b⟩ := r
      obtain ⟨hacc, hpar⟩ := accepts_of_ok fuel n factor_base s factors b hres
      simp only [hres] at h
      by_cases hb : b = true
      · simp only [if_pos hb] at h
        by_cases hc : st.smooth_count > factor_base.length
        · simp only [if_pos hc, Except.ok.injEq] at h
          subst h
          refine ⟨0, Nat.succ_pos _, by rw [Nat.add_zero, hacc, hb], ?_, ?_, ?_, ?_, ?_⟩
          · intro x h1 h2
            have : x = s := by omega
            subst this
            exact ⟨_, hres⟩
          · simp only [List.range'_zero, List.filter_nil, List.length_nil]
            omega
          · simp only [List.range'_zero, List.filter_nil, List.append_nil]
            rw [List.take_of_length_le (by omega)]
          · simp only [List.range'_zero, List.filter_nil, List.map_nil, List.append_nil]
            rw [List.take_of_length_le (by omega)]
          · simp only [List.range'_zero, List.filter_nil, List.map_nil, List.append_nil]
            rw [List.take_of_length_le (by omega)]
        · simp only [if_neg hc] at h
          obtain ⟨M, hM, haccM, hok, hlen, hx, hnum, hfac⟩ :=
            ih (s + 1)
              { st with
                smooth_x := st.smooth_x.set st.smooth_count s
                smooth_numbers := st.smooth_numbers.set st.smooth_count (s ^ 2 % n)
                smooth_factors := st.smooth_factors.set st.smooth_count factors
                smooth_count := st.smooth_count + 1
                stores := st.smooth_count :: st.stores }
              st' hnd (by simp only; omega) (by simpa using hlx)
              (by simpa using hln) (by simpa using hlf) h hnd'
          simp only at hlen hx hnum hfac
          have hfilter : (List.range' s (M + 1)).filter (accepts fuel n factor_base) =
              s :: (List.range' (s + 1) M).filter (accepts fuel n factor_base) := by
            rw [List.range'_succ, List.filter_cons, if_pos (by rw [hacc, hb])]
          refine ⟨M + 1, by omega, by rw [← haccM]; congr 1; omega, ?_, ?_, ?_, ?_, ?_⟩
          · intro x h1 h2
            by_cases hxs : x = s
            · subst hxs
              exact ⟨_, hres⟩
            · exact hok x (by omega) (by omega)
          · rw [hfilter, List.length_cons]
            omega
          · rw [hfilter, hx, take_set_succ _ _ _ (by omega)]
            simp
          · rw [hfilter, hnum, take_set_succ _ _ _ (by omega)]
            simp
          · rw [hfilter, hfac, take_set_succ_matrix _ _ _ (by omega)]
            simp [hpar]
      · simp only [if_neg hb] at h
        obtain ⟨M, hM, haccM, hok, hlen, hx, hnum, hfac⟩ :=
          ih (s + 1) st st' hnd hcnt hlx hln hlf h hnd'
        have hfilter : (List.range' s (M + 1)).filter (accepts fuel n factor_base) =
            (List.range' (s + 1) M).filter (accepts fuel n factor_base) := by
          rw [List.range'_succ, List.filter_cons, if_neg (by rw [hacc]; exact hb)]
        refine ⟨M + 1, by omega, by rw [← haccM]; congr 1; omega, ?_, ?_, ?_, ?_, ?_⟩
        · intro x h1 h2
          by_cases hxs : x = s
          · subst hxs
            exact ⟨_, hres⟩
          · exact hok x (by omega) (by omega)
        · rw [hfilter]; exact hlen
        · rw [hfilter]; exact hx
        · rw [hfilter]; exact hnum
        · rw [hfilter]; exact hfac

/-- The plain scan returns the relations of the smooth candidates among `s, ..., s + M - 1`
when there are exactly `count` of them. -/
theorem plain_scan_eq (fuel n : Nat) (factor_base : List Nat) (M : Nat) :
    ∀ (count s : Nat),
      (∀ x, s ≤ x → x < s + M → ∃ r,
        factor_smooth fuel (List.replicate factor_base.length 0) (x ^ 2 % n) factor_base =
          .ok r) →
      ((List.range' s M).filter (accepts fuel n factor_base)).length = count →
      plain_scan fuel n factor_base M count s =
        .ok (((List.range' s M).filter (accepts fuel n factor_base)).map
          (relation fuel n factor_base)) := by
  induction M with
  | zero =>
    intro count s _ hlen
    simp only [List.range'_zero, List.filter_nil, List.length_nil] at hlen
    subst hlen
    simp [plain_scan]
  | succ M ih =>
    intro count s hok hlen
    cases count with
    | zero =>
      rw [List.length_eq_zero] at hlen
      rw [hlen]
      simp [plain_scan]
    | succ count =>
      obtain ⟨r, hres⟩ := hok s (le_refl _) (by omega)
      obtain ⟨factors, b⟩ := r
      obtain ⟨hacc, hpar⟩ := accepts_of_ok fuel n factor_base s factors b hres
      have hok' : ∀ x, s + 1 ≤ x → x < s + 1 + M → ∃ r,
          factor_smooth fuel (List.replicate factor_base.length 0) (x ^ 2 % n) factor_base =
            .ok r := fun x h1 h2 => hok x (by omega) (by omega)
      simp only [plain_scan, hres]
      by_cases hb : b = true
      · have hfilter : (List.range' s (M + 1)).filter (accepts fuel n factor_base) =
            s :: (List.range' (s + 1) M).filter (accepts fuel n factor_base) := by
          rw [List.range'_succ, List.filter_cons, if_pos (by rw [hacc, hb])]
        rw [hfilter, List.length_cons] at hlen
        rw [if_pos hb, ih count (s + 1) hok' (by omega), hfilter]
        simp only [List.map_cons, relation, hpar]
      · have hfilter : (List.range' s (M + 1)).filter (accepts fuel n factor_base) =
            (List.range' (s + 1) M).filter (accepts fuel n factor_base) := by
          rw [List.range'_succ, List.filter_cons, if_neg (by rw [hacc]; exact hb)]
        rw [hfilter] at hlen
        rw [if_neg hb, ih (count + 1) (s + 1) hok' hlen, hfilter]

/-- What `sieve_with` has done when it returns: it has scanned the candidates from
`isqrt(n) + 1` on, recorded the first `factor_base.size() + 1` smooth ones in increasing
order, and has been left at a further smooth candidate `isqrt(n) + 1 + M`. -/
theorem sieve_with_first (c fuel n : Nat) (factor_base sn sx : List Nat) (sf : Matrix)
    (st : SieveState) (hc : 1 ≤ c)
    (hn : sn.length = factor_base.length + 1) (hx : sx.length = factor_base.length + 1)
    (hf : sf.length = factor_base.length + 1)
    (h : sieve_with c fuel sn sx sf n factor_base = .ok st) :
    n ≠ 0 ∧
    scan_chunk fuel factor_base (candidates n (mpz_sqrt n + 1) (fuel * c))
      { smooth_numbers := sn, smooth_x := sx, smooth_factors := sf, smooth_count := 0,
        not_done := true, stores := [] } = .ok st ∧
    st.not_done = false ∧
    ∃ M, accepts fuel n factor_base (mpz_sqrt n + 1 + M) = true ∧
      (∀ x, mpz_sqrt n + 1 ≤ x → x ≤ mpz_sqrt n + 1 + M → ∃ r,
        factor_smooth fuel (List.replicate factor_base.length 0) (x ^ 2 % n) factor_base =
          .ok r) ∧
      ((List.range' (mpz_sqrt n + 1) M).filter (accepts fuel n factor_base)).length =
        factor_base.length + 1 ∧
      st.smooth_x = (List.range' (mpz_sqrt n + 1) M).filter (accepts fuel n factor_base) ∧
      st.smooth_numbers =
        ((List.range' (mpz_sqrt n + 1) M).filter (accepts fuel n factor_base)).map
          (fun x => x ^ 2 % n) ∧
      st.smooth_factors =
        ((List.range' (mpz_sqrt n + 1) M).filter (accepts fuel n factor_base)).map
          (parities fuel n factor_base) := by
  unfold sieve_with at h
  obtain ⟨hn0, hscan, hnd⟩ :=
    sieve_loop_with_scan c fuel n (mpz_sqrt n) factor_base hc fuel 1 _ st rfl h
  refine ⟨hn0, hscan, hnd, ?_⟩
  obtain ⟨M, -, hacc, hok, hlen, h1, h2, h3⟩ :=
    scan_candidates_first fuel n factor_base (fuel * c) (mpz_sqrt n + 1) _ st rfl
      (Nat.zero_le _) hx hn hf hscan hnd
  simp only [Nat.zero_add, List.take_zero, List.nil_append] at hlen h1 h2 h3
  exact ⟨M, hacc, hok, hlen, h1, h2, h3⟩

/-- The result of `sieve_with` does not depend on the batch size: what it returns for one
batch size `c ≥ 1` it returns for every batch size `c' ≥ 1`, for all sufficiently large
fuel. -/
theorem sieve_with_batch_size (c c' fuel n : Nat) (factor_base sn sx : List Nat) (sf : Matrix)
    (st : SieveState) (hc : 1 ≤ c) (hc' : 1 ≤ c')
    (h : sieve_with c fuel sn sx sf n factor_base = .ok st) :
    ∀ fuel', fuel * c + 2 ≤ fuel' → fuel ≤ fuel' →
      sieve_with c' fuel' sn sx sf n factor_base = .ok st := by
  intro fuel' h1 h2
  unfold sieve_with at h ⊢
  obtain ⟨hn0, hscan, hnd⟩ :=
    sieve_loop_with_scan c fuel n (mpz_sqrt n) factor_base hc fuel 1 _ st rfl h
  have hscan' := scan_chunk_mono fuel fuel' h2 factor_base _ _ (by rw [hscan]; simp)
  rw [hscan] at hscan'
  exact sieve_loop_with_of_scan c' fuel' n (mpz_sqrt n) factor_base hc' hn0 fuel'
    (fuel * c) 1 _ st rfl hscan' hnd h1

/-! ## The scan of the sieve (C16) -/

/-- C16: whenever the sieve with batch size `c ≥ 1` returns (output vectors of
`factor_base.size() + 1` cells, as `main` allocates them), `smooth_x` is the list of the
smooth candidates among `isqrt(n) + 1, ..., isqrt(n) + M` for some `M`, in increasing order,
and there are `factor_base.size() + 1` of them; the recorded relations are those the plain
one-candidate-at-a-time scan `plain_scan` returns; and the sieve returns the same state for
every other batch size `c' ≥ 1` (for all sufficiently large fuel).  The function `sieve` is
the case `c = SIEVE_CHUNK`. -/
theorem C16_batched_scan_is_plain_scan (c fuel n : Nat) (factor_base sn sx : List Nat)
    (sf : Matrix) (st : SieveState) (hc : 1 ≤ c)
    (hn : sn.length = factor_base.length + 1) (hx : sx.length = factor_base.length + 1)
    (hf : sf.length = factor_base.length + 1)
    (h : sieve_with c fuel sn sx sf n factor_base = .ok st) :
    sieve_with SIEVE_CHUNK fuel sn sx sf n factor_base = sieve fuel sn sx sf n factor_base ∧
    (∃ M, st.smooth_x =
        (List.range' (mpz_sqrt n + 1) M).filter (accepts fuel n factor_base) ∧
      st.smooth_x.length = factor_base.length + 1) ∧
    List.Sorted (· < ·) st.smooth_x ∧
    (∃ steps relations,
      plain_scan fuel n factor_base steps (factor_base.length + 1) (mpz_sqrt n + 1) =
        .ok relations ∧
      st.smooth_x = relations.map (fun r => r.1) ∧
      st.smooth_numbers = relations.map (fun r => r.2.1) ∧
      st.smooth_factors = relations.map (fun r => r.2.2)) ∧
    ∀ c', 1 ≤ c' → ∃ fuel0, ∀ fuel', fuel0 ≤ fuel' →
      sieve_with c' fuel' sn sx sf n factor_base = .ok st := by
  obtain ⟨-, -, -, M, -, hok, hlen, h1, h2, h3⟩ :=
    sieve_with_first c fuel n factor_base sn sx sf st hc hn hx hf h
  refine ⟨sieve_with_SIEVE_CHUNK fuel sn sx sf n factor_base, ⟨M, h1, by rw [h1, hlen]⟩,
    ?_, ?_, ?_⟩
  · rw [h1]
    exact (List.pairwise_lt_range' _ _).sublist (List.filter_sublist _)
  · refine ⟨M, _, plain_scan_eq fuel n factor_base M _ _
      (fun x hx1 hx2 => hok x hx1 (by omega)) hlen, ?_, ?_, ?_⟩
    · rw [h1, List.map_map]
      simp [Function.comp_def, relation]
    · rw [h2, List.map_map]
      simp [Function.comp_def, relation]
    · rw [h3, List.map_map]
      simp [Function.comp_def, relation]
  · intro c' hc'
    exact ⟨max fuel (fuel * c + 2), fun fuel' hfuel =>
      sieve_with_batch_size c c' fuel n factor_base sn sx sf st hc hc' h fuel'
        (le_trans (le_max_right _ _) hfuel) (le_trans (le_max_left _ _) hfuel)⟩

theorem C16_witness :
    1 ≤ 2 ∧ [0, 0, 0].length = [2, 3].length + 1 ∧
    ([[0], [0], [0]] : Matrix).length = [2, 3].length + 1 ∧
    ∃ st : SieveState,
      st.smooth_x = [3, 4, 5] ∧ st.smooth_numbers = [2, 2, 4] ∧
      st.smooth_factors = [[1, 0], [1, 0], [0, 0]] ∧
      sieve_with 2 8 [0, 0, 0] [0, 0, 0] [[0], [0], [0]] 7 [2, 3] = .ok st ∧
      (sieve_with SIEVE_CHUNK 8 [0, 0, 0] [0, 0, 0] [[0], [0], [0]] 7 [2, 3] =
          sieve 8 [0, 0, 0] [0, 0, 0] [[0], [0], [0]] 7 [2, 3] ∧
        (∃ M, st.smooth_x = (List.range' (mpz_sqrt 7 + 1) M).filter (accepts 8 7 [2, 3]) ∧
          st.smooth_x.length = [2, 3].length + 1) ∧
        List.Sorted (· < ·) st.smooth_x ∧
        (∃ steps relations,
          plain_scan 8 7 [2, 3] steps ([2, 3].length + 1) (mpz_sqrt 7 + 1) = .ok relations ∧
          st.smooth_x = relations.map (fun r => r.1) ∧
          st.smooth_numbers = relations.map (fun r => r.2.1) ∧
          st.smooth_factors = relations.map (fun r => r.2.2)) ∧
        ∀ c', 1 ≤ c' → ∃ fuel0, ∀ fuel', fuel0 ≤ fuel' →
          sieve_with c' fuel' [0, 0, 0] [0, 0, 0] [[0], [0], [0]] 7 [2, 3] = .ok st) :=
  ⟨by decide, rfl, rfl,
    { smooth_numbers := [2, 2, 4], smooth_x := [3, 4, 5],
      smooth_factors := [[1, 0], [1, 0], [0, 0]], smooth_count := 3, not_done := false,
      stores := [2, 1, 0] },
    rfl, rfl, rfl, by decide,
    C16_batched_scan_is_plain_scan 2 8 7 [2, 3] [0, 0, 0] [0, 0, 0] [[0], [0], [0]] _
      (by decide) rfl rfl rfl (by decide)⟩

/-! ## When the sieve stops (C17) -/

/-- C17 fails for `n = 5` with the factor base `[2]` (`k = 1`): the candidates `x = 3`
(`3² mod 5 = 4`) and `x = 4` (`4² mod 5 = 1`) are smooth and are recorded, which makes
`k + 1 = 2` relations, but the scan is not left: the test `smooth_count > factor_base.size()`
is only made at the next smooth candidate.  The sieve goes on to trial-divide `x = 5`
(`5² mod 5 = 0`), on which `factor_smooth` does not return, so `sieve` returns for no fuel.
For `n = 7` it returns, at the third smooth candidate `x = 5`.  In general, whenever the
sieve returns, there were `k + 1` smooth candidates before a further smooth candidate
`isqrt(n) + 1 + M`, the `(k + 2)`-th. -/
theorem C17_sieve_needs_one_more_smooth :
    scan_chunk 5 [2] (candidates 5 (mpz_sqrt 5 + 1) 2)
        { smooth_numbers := [0, 0], smooth_x := [0, 0], smooth_factors := [[0], [0]],
          smooth_count := 0, not_done := true, stores := [] } =
      .ok { smooth_numbers := [4, 1], smooth_x := [3, 4], smooth_factors := [[0], [0]],
            smooth_count := 2, not_done := true, stores := [1, 0] } ∧
    (¬ ∃ fuel st, sieve fuel [0, 0] [0, 0] [[0], [0]] 5 [2] = .ok st) ∧
    (scan_chunk 5 [2] (candidates 7 (mpz_sqrt 7 + 1) 2)
        { smooth_numbers := [0, 0], smooth_x := [0, 0], smooth_factors := [[0], [0]],
          smooth_count := 0, not_done := true, stores := [] } =
      .ok { smooth_numbers := [2, 2], smooth_x := [3, 4], smooth_factors := [[1], [1]],
            smooth_count := 2, not_done := true, stores := [1, 0] } ∧
      accepts 5 7 [2] 5 = true ∧
      sieve 5 [0, 0] [0, 0] [[0], [0]] 7 [2] =
        .ok { smooth_numbers := [2, 2], smooth_x := [3, 4], smooth_factors := [[1], [1]],
              smooth_count := 2, not_done := false, stores := [1, 0] }) ∧
    ∀ (c fuel n : Nat) (factor_base sn sx : List Nat) (sf : Matrix) (st : SieveState),
      1 ≤ c → sn.length = factor_base.length + 1 → sx.length = factor_base.length + 1 →
      sf.length = factor_base.length + 1 →
      sieve_with c fuel sn sx sf n factor_base = .ok st →
      ∃ M, ((List.range' (mpz_sqrt n + 1) M).filter (accepts fuel n factor_base)).length =
          factor_base.length + 1 ∧
        accepts fuel n factor_base (mpz_sqrt n + 1 + M) = true := by
  refine ⟨by decide, ?_, ⟨by decide, by decide, by decide⟩, ?_⟩
  · rintro ⟨fuel, st, h⟩
    rw [← sieve_with_SIEVE_CHUNK] at h
    obtain ⟨-, -, -, M, -, hok, hlen, -⟩ :=
      sieve_with_first SIEVE_CHUNK fuel 5 [2] [0, 0] [0, 0] [[0], [0]] st (by decide) rfl rfl
        rfl h
    have hM : 2 ≤ M := by
      have h1 := List.length_filter_le (accepts fuel 5 [2]) (List.range' (mpz_sqrt 5 + 1) M)
      rw [List.length_range', hlen] at h1
      exact h1
    have hsq : mpz_sqrt 5 = 2 := by decide
    obtain ⟨r, hr⟩ := hok 5 (by rw [hsq]; omega) (by rw [hsq]; omega)
    have hzero : (5 : Nat) ^ 2 % 5 = 0 := by decide
    rw [hzero, factor_smooth_zero fuel _ 2 [] (by decide)] at hr
    exact absurd hr (by simp)
  · intro c fuel n factor_base sn sx sf st hc hn hx hf h
    obtain ⟨-, -, -, M, hacc, -, hlen, -⟩ :=
      sieve_with_first c fuel n factor_base sn sx sf st hc hn hx hf h
    exact ⟨M, hlen, hacc⟩

end QS
